import Mathlib

/-!
# Verification of the Claudian storage / migration engine

Shallow embedding of the storage subsystem of the `claudian` Obsidian plugin:

* `src/core/storage/StorageService.ts` — the migration coordinator
  (`initialize`, `runMigrations`, `migrateFromOldSettingsJson`,
  `migrateFromDataJson`, `migrateLegacyDataJsonContent`,
  `clearLegacyDataJson`);
* `src/core/storage/ClaudianSettingsStorage.ts` — plugin-settings load/save
  with `normalizeBlockedCommands` / `normalizeCommandList` /
  `normalizeHostnameCliPaths`;
* `src/core/storage/migrationConstants.ts` — `CLAUDIAN_ONLY_FIELDS`,
  `convertEnvObjectToString`, `mergeEnvironmentVariables`.

JavaScript objects are embedded as insertion-ordered association lists of
`Json` values, matching JS object/spread/delete semantics.  File contents are
stored as parsed `Json` values (serialisation with `JSON.stringify` is a
deterministic injective function of the parsed value, so equality of the
stored values coincides with byte-identity of the files).  A file that exists
but cannot be parsed is represented by the `corrupt` marker.

Parts of the repository referenced by the coordinator but absent from the
source tree (the `VaultFileAdapter`, `CCSettingsStorage`, the per-entity
command/session stores, `DEFAULT_SETTINGS` and the legacy permission
conversion helpers of `core/types`) are modelled from the specification; each
such definition carries a doc comment starting with `Modelled from the spec:`.
-/

/-- A parsed JSON value.  Numbers are embedded as integers (no claim touches
fractional values); objects are insertion-ordered association lists, as in
JavaScript. -/
inductive Json where
  | null : Json
  | bool (b : Bool) : Json
  | num (n : Int) : Json
  | str (s : String) : Json
  | arr (xs : List Json) : Json
  | obj (kvs : List (String × Json)) : Json

/-- A JavaScript object: ordered association list of fields. -/
abbrev JObj := List (String × Json)

/-- `o[k]` — property lookup; `none` plays the role of `undefined`.
JSON.parse never yields duplicate keys, so first-match lookup is faithful. -/
def objGet (o : JObj) (k : String) : Option Json :=
  match o.find? (fun kv => kv.1 == k) with
  | some kv => some kv.2
  | none => none

/-- `o[k] = v` — JS [[Set]] semantics: update in place when the key exists
(keeping its position), append otherwise. -/
def objSet (o : JObj) (k : String) (v : Json) : JObj :=
  if o.any (fun kv => kv.1 == k) then
    o.map (fun kv => if kv.1 == k then (k, v) else kv)
  else
    o ++ [(k, v)]

/-- `{...a, ...b}` — spread `b` over `a` entry by entry. -/
def objSpread (a b : JObj) : JObj :=
  b.foldl (fun acc kv => objSet acc kv.1 kv.2) a

/-- `delete o[k]`. -/
def objDelete (o : JObj) (k : String) : JObj :=
  o.filter (fun kv => kv.1 != k)

/-- JS truthiness of a value. -/
def jsTruthy : Json → Bool
  | .null => false
  | .bool b => b
  | .num n => n != 0
  | .str s => s != ""
  | .arr _ => true
  | .obj _ => true

/-- JS truthiness of a possibly-`undefined` value. -/
def jsTruthyOpt : Option Json → Bool
  | some v => jsTruthy v
  | none => false

/-- `a ?? b` — nullish coalescing on a possibly-`undefined` value. -/
def jsCoalesce (a : Option Json) (b : Json) : Json :=
  match a with
  | some .null => b
  | some v => v
  | none => b

/-- The string value of a `Json`, for positions where the code statically
expects a string; a non-string value is mapped to `""` (such values would be
type errors in the original code paths that use this helper). -/
def jsStrD : Option Json → String
  | some (.str s) => s
  | _ => ""

/-! ## String helpers (JS semantics, defined over `List Char`) -/

/-- JS whitespace for the purposes of `String.prototype.trim`. -/
def jsIsWs (c : Char) : Bool :=
  c == ' ' || c == '\t' || c == '\n' || c == '\r'

/-- `trim()` on a character list. -/
def trimCharList (l : List Char) : List Char :=
  ((l.dropWhile jsIsWs).reverse.dropWhile jsIsWs).reverse

/-- JS `s.trim()`. -/
def jsTrim (s : String) : String :=
  ⟨trimCharList s.data⟩

/-- Split a character list on a separator character (JS `split(sep)`:
every separator occurrence delimits a — possibly empty — field). -/
def splitCharList (sep : Char) : List Char → List (List Char)
  | [] => [[]]
  | c :: rest =>
    match splitCharList sep rest with
    | [] => [[]]
    | field :: fields =>
      if c == sep then [] :: field :: fields
      else (c :: field) :: fields

/-- JS `s.split('\n')`. -/
def jsSplitNl (s : String) : List String :=
  (splitCharList '\n' s.data).map (fun l => ⟨l⟩)

/-- JS `array.join('\n')`. -/
def jsJoinNl : List String → String
  | [] => ""
  | [x] => x
  | x :: rest => x ++ "\n" ++ jsJoinNl rest

/-- Index of the first occurrence of a character (JS `indexOf`), as an
option. -/
def idxOfChar (c : Char) (l : List Char) : Option Nat :=
  l.findIdx? (fun d => d == c)

/-! ## `migrationConstants.ts` (in source) -/

/-- `CLAUDIAN_ONLY_FIELDS` from `migrationConstants.ts`: fields that are
Claudian-specific and must not stay in the CC `settings.json`. -/
def CLAUDIAN_ONLY_FIELDS : List String :=
  [ "userName",
    "enableBlocklist", "blockedCommands", "permissionMode",
    "lastNonPlanPermissionMode",
    "model", "thinkingBudget", "enableAutoTitleGeneration",
    "titleGenerationModel",
    "excludedTags", "mediaFolder", "systemPrompt", "allowedExportPaths",
    "persistentExternalContextPaths",
    "environmentVariables", "envSnippets",
    "keyboardNavigation",
    "claudeCliPath", "claudeCliPaths", "loadUserClaudeSettings",
    "allowedContextPaths", "showToolUse", "toolCallExpandedByDefault" ]

/-- `convertEnvObjectToString` from `migrationConstants.ts`: object entries
with string values rendered as `KEY=VALUE` lines. -/
def convertEnvObjectToString (env : List (String × Json)) : String :=
  jsJoinNl ((env.filterMap (fun kv =>
    match kv.2 with
    | .str v => some (kv.1 ++ "=" ++ v)
    | _ => none)))

/-- One parsing step of `mergeEnvironmentVariables`: trim the line, skip
blank lines and `#` comments, split at the first `=` provided the key part is
non-empty. -/
def parseEnvLine (line : String) : Option (String × String) :=
  let t := trimCharList line.data
  if t.isEmpty then none
  else if t.headD ' ' == '#' then none
  else
    match idxOfChar '=' t with
    | some eqIndex =>
      if eqIndex > 0 then some (⟨t.take eqIndex⟩, ⟨t.drop (eqIndex + 1)⟩)
      else none
    | none => none

/-- JS `Map.set` on an association list: replace in place or append. -/
def mapSet (m : List (String × String)) (k v : String) : List (String × String) :=
  if m.any (fun kv => kv.1 == k) then
    m.map (fun kv => if kv.1 == k then (k, v) else kv)
  else
    m ++ [(k, v)]

/-- Fold the lines of one environment string into the accumulating map. -/
def addEnvLines (m : List (String × String)) (s : String) : List (String × String) :=
  (jsSplitNl s).foldl (fun acc line =>
    match parseEnvLine line with
    | some kv => mapSet acc kv.1 kv.2
    | none => acc) m

/-- The map built by `mergeEnvironmentVariables` before rendering: parse
`existing`, then `additional` (later values override earlier ones). -/
def mergeEnvMap (existing additional : String) : List (String × String) :=
  addEnvLines (addEnvLines [] existing) additional

/-- `mergeEnvironmentVariables` from `migrationConstants.ts`. -/
def mergeEnvironmentVariables (existing additional : String) : String :=
  jsJoinNl ((mergeEnvMap existing additional).map (fun kv => kv.1 ++ "=" ++ kv.2))

/-! ## `ClaudianSettingsStorage.ts` — normalization (in source) -/

/-- `PlatformBlockedCommands` from `core/types`. -/
structure PlatformBlockedCommands where
  unix : List String
  windows : List String

/-- `normalizeCommandList` from `ClaudianSettingsStorage.ts`: a non-array
value yields a copy of the fallback, an array keeps its string entries,
trimmed, with blank entries removed. -/
def normalizeCommandList (value : Option Json) (fallback : List String) : List String :=
  match value with
  | some (.arr xs) =>
    ((xs.filterMap (fun j => match j with | .str s => some s | _ => none)).map
      jsTrim).filter (fun s => s.length > 0)
  | _ => fallback

/-- `normalizeBlockedCommands` from `ClaudianSettingsStorage.ts`, with the
default table (produced by `getDefaultBlockedCommands()` in the source)
passed explicitly.  An array input migrates into the `unix` bucket with the
`windows` bucket defaulted; a non-object input yields the defaults; an object
input has each bucket independently validated-or-defaulted. -/
def normalizeBlockedCommands (value : Option Json) (defaults : PlatformBlockedCommands) :
    PlatformBlockedCommands :=
  match value with
  | some (.arr xs) =>
    { unix := normalizeCommandList (some (.arr xs)) defaults.unix,
      windows := defaults.windows }
  | some (.obj candidate) =>
    { unix := normalizeCommandList (objGet candidate "unix") defaults.unix,
      windows := normalizeCommandList (objGet candidate "windows") defaults.windows }
  | _ => defaults

/-- Embed a `PlatformBlockedCommands` back into a JSON object, as it is
serialised into `claudian-settings.json`. -/
def pbcToJson (p : PlatformBlockedCommands) : Json :=
  .obj [("unix", .arr (p.unix.map .str)), ("windows", .arr (p.windows.map .str))]

/-- `normalizeHostnameCliPaths` from `ClaudianSettingsStorage.ts`: keep
entries whose value is a string with non-blank trim, trimmed; drop the rest.
A non-object input yields the empty map. -/
def normalizeHostnameCliPaths (value : Option Json) : List (String × String) :=
  match value with
  | some (.obj entries) =>
    entries.filterMap (fun kv =>
      match kv.2 with
      | .str s => if jsTrim s != "" then some (kv.1, jsTrim s) else none
      | _ => none)
  | _ => []

/-- Embed the hostname-keyed CLI path map back into JSON. -/
def hostPathsToJson (m : List (String × String)) : Json :=
  .obj (m.map (fun kv => (kv.1, .str kv.2)))

/-! ## Defaults (modelled) -/

/-- Modelled from the spec: `getDefaultBlockedCommands()` of `core/types`
is absent from the source tree.  The unix list is taken from the legacy
default table in `src/types.ts`; the windows entries are the ones pinned by
the repository's unit tests (`Remove-Item -Recurse -Force`, `Format-Volume`).
Every entry is trimmed and non-blank, as the tests require. -/
def getDefaultBlockedCommands : PlatformBlockedCommands :=
  { unix := ["rm -rf", "rm -r /", "chmod 777", "chmod -R 777", "mkfs",
             "dd if=", "> /dev/sd"],
    windows := ["Remove-Item -Recurse -Force", "Format-Volume"] }

/-- Modelled from the spec: `DEFAULT_SETTINGS` of `core/types/settings.ts`
is absent from the source tree.  Field set and defaults follow the spec's
representative field list and the values pinned by the repository's unit
tests (`enableBlocklist = true`, `environmentVariables = ""`,
`envSnippets = []`, `lastClaudeModel = "haiku"`, `lastCustomModel = ""`,
platform-keyed blocked commands).  Every field has a defined default — the
invariant the claims rely on; exact values of fields not pinned by tests are
immaterial to the claims. -/
def DEFAULT_SETTINGS : JObj :=
  [ ("userName", .str ""),
    ("enableBlocklist", .bool true),
    ("blockedCommands", pbcToJson getDefaultBlockedCommands),
    ("model", .str "sonnet"),
    ("thinkingBudget", .str "off"),
    ("permissionMode", .str "normal"),
    ("excludedTags", .arr []),
    ("mediaFolder", .str ""),
    ("environmentVariables", .str ""),
    ("envSnippets", .arr []),
    ("systemPrompt", .str ""),
    ("allowedExportPaths", .arr []),
    ("persistentExternalContextPaths", .arr []),
    ("keyboardNavigation",
      .obj [("scrollUpKey", .str "w"), ("scrollDownKey", .str "s"),
            ("focusInputKey", .str "i")]),
    ("claudeCliPath", .str ""),
    ("claudeCliPathsByHost", .obj []),
    ("loadUserClaudeSettings", .bool false),
    ("enableAutoTitleGeneration", .bool true),
    ("titleGenerationModel", .str ""),
    ("lastClaudeModel", .str "haiku"),
    ("lastCustomModel", .str ""),
    ("lastEnvHash", .str ""),
    ("slashCommands", .arr []) ]

/-- `ClaudianSettingsStorage.getDefaults()` (in source): `DEFAULT_SETTINGS`
with the separately-loaded `slashCommands` field destructured away. -/
def claudianGetDefaults : JObj :=
  objDelete DEFAULT_SETTINGS "slashCommands"

/-! ## Storage state, environment, events -/

/-- Path constants from the source (`CCSettingsStorage.ts`,
`ClaudianSettingsStorage.ts`, `SlashCommandStorage.ts`,
`SessionStorage.ts`). -/
def CC_SETTINGS_PATH : String := ".claude/settings.json"

/-- Path of the Claudian-private settings file. -/
def CLAUDIAN_SETTINGS_PATH : String := ".claude/claudian-settings.json"

/-- Directory of per-command files. -/
def COMMANDS_PATH : String := ".claude/commands"

/-- Directory of per-session files. -/
def SESSIONS_PATH : String := ".claude/sessions"

/-- The content of one stored file: a parsed JSON value, or a corruption
marker for a file that exists but fails `JSON.parse`. -/
inductive FileContent where
  | json (j : Json) : FileContent
  | corrupt : FileContent

/-- Modelled from the spec: the host filesystem behind the missing
`VaultFileAdapter` (a thin existence/read/write wrapper with no business
logic).  `failWrite p` makes writes to `p` throw (the `WriteError` of the
spec's error taxonomy); `dropWrite p` makes writes to `p` report success
without persisting (the "write silently failed" scenario the spec's
verification gate discusses). -/
structure StoreEnv where
  failWrite : String → Bool
  dropWrite : String → Bool

/-- The persistent state the storage subsystem owns: the vault files and the
host-provided legacy blob (`data.json`, reached through
`plugin.loadData`/`plugin.saveData`).  A missing or unparseable blob is
`none` (`loadDataJson` treats both as absent). -/
structure StoreSt where
  files : List (String × FileContent)
  blob : Option JObj

/-- Observable events of one run. -/
inductive StoreEv where
  | write (path : String) (content : Json) : StoreEv
  | writeFail (path : String) : StoreEv
  | loadClaudian : StoreEv
  | saveBlob (b : JObj) : StoreEv
  | clearCalled : StoreEv

/-- Errors thrown to the caller. -/
inductive StoreErr where
  | readFailed (path : String) : StoreErr
  | parseFailed (path : String) : StoreErr
  | writeFailed (path : String) : StoreErr
  | typeError : StoreErr
  | verifyFailed : StoreErr

/-- Outcome of a stateful step: result or thrown error, with the state and
the event trace at that point. -/
inductive Out (α : Type) where
  | ok (a : α) (s : StoreSt) (tr : List StoreEv) : Out α
  | err (e : StoreErr) (s : StoreSt) (tr : List StoreEv) : Out α

/-- `adapter.exists`. -/
def adapterExists (s : StoreSt) (p : String) : Bool :=
  s.files.any (fun f => f.1 == p)

/-- `adapter.read`, as an option (the callers turn `none` into a thrown
read error). -/
def adapterRead (s : StoreSt) (p : String) : Option FileContent :=
  match s.files.find? (fun f => f.1 == p) with
  | some f => some f.2
  | none => none

/-- Replace or insert a file. -/
def putFile (s : StoreSt) (p : String) (c : Json) : StoreSt :=
  { s with files :=
      if s.files.any (fun f => f.1 == p) then
        s.files.map (fun f => if f.1 == p then (p, FileContent.json c) else f)
      else
        s.files ++ [(p, FileContent.json c)] }

/-- `adapter.write`: throws on `failWrite`, silently loses the data on
`dropWrite`, persists otherwise. -/
def adapterWrite (env : StoreEnv) (s : StoreSt) (p : String) (c : Json) : Out Unit :=
  if env.failWrite p then .err (.writeFailed p) s [.writeFail p]
  else if env.dropWrite p then .ok () s [.write p c]
  else .ok () (putFile s p c) [.write p c]

/-! ## `ClaudianSettingsStorage` load/save (in source) -/

/-- Property access view of a parsed JSON document: field access on a
non-object (primitive or array) yields no own string-keyed properties of
interest, so such documents behave as the empty object in the field reads the
migration performs. -/
def jsObjOf : Json → JObj
  | .obj o => o
  | _ => []

/-- The pure record-merging part of `ClaudianSettingsStorage.load()` (in
source): drop the obsolete `activeConversationId` key, normalize
`blockedCommands` / `claudeCliPath` / `claudeCliPathsByHost`, and merge onto
the defaults (file wins, defaults fill gaps). -/
def loadObjVal (stored : JObj) : JObj :=
  let storedWithoutLegacy := objDelete stored "activeConversationId"
  let blockedCommands :=
    normalizeBlockedCommands (objGet stored "blockedCommands") getDefaultBlockedCommands
  let hostnameCliPaths := normalizeHostnameCliPaths (objGet stored "claudeCliPathsByHost")
  let legacyCliPath :=
    match objGet stored "claudeCliPath" with
    | some (.str cp) => cp
    | _ => ""
  objSet (objSet (objSet (objSpread claudianGetDefaults storedWithoutLegacy)
      "blockedCommands" (pbcToJson blockedCommands))
      "claudeCliPath" (.str legacyCliPath))
      "claudeCliPathsByHost" (hostPathsToJson hostnameCliPaths)

/-- `ClaudianSettingsStorage.load()` (in source), see `loadObjVal` for the
merge applied to a parsed file. -/
def claudianLoad (s : StoreSt) : Out JObj :=
  match adapterRead s CLAUDIAN_SETTINGS_PATH with
  | none => .ok claudianGetDefaults s [.loadClaudian]
  | some .corrupt => .err (.parseFailed CLAUDIAN_SETTINGS_PATH) s [.loadClaudian]
  | some (.json j) => .ok (loadObjVal (jsObjOf j)) s [.loadClaudian]

/-- `ClaudianSettingsStorage.save()` (in source): serialise the record and
write it through the adapter. -/
def claudianSave (env : StoreEnv) (s : StoreSt) (settings : JObj) : Out Unit :=
  adapterWrite env s CLAUDIAN_SETTINGS_PATH (.obj settings)

/-! ## Legacy permission conversion (modelled) -/

/-- `LegacyPermission` record (`core/types`). -/
structure LegacyPermission where
  toolName : String
  pattern : String
  approvedAt : Int
  scope : String

/-- Modelled from the spec: `legacyPermissionToCCRule` of `core/types` is
absent from the source tree.  Per the spec, the rule string is the bare tool
name when the pattern is empty or the wildcard `*`, and `ToolName(pattern)`
otherwise. -/
def legacyPermissionToCCRule (p : LegacyPermission) : String :=
  if p.pattern == "" || p.pattern == "*" then p.toolName
  else p.toolName ++ "(" ++ p.pattern ++ ")"

/-- De-duplication by final rule string, keeping first occurrences. -/
def dedupKeepFirst (l : List String) : List String :=
  l.foldl (fun acc r => if acc.any (fun x => x == r) then acc else acc ++ [r]) []

/-- CC permission lists. -/
structure CCPermissions where
  allow : List String
  deny : List String
  ask : List String

/-- Modelled from the spec: `legacyPermissionsToCCPermissions` of
`core/types` is absent from the source tree.  Per the spec: keep only
records with scope `"always"`, convert each to its rule string, de-duplicate
by final rule string, and treat all converted records as allow-list
entries. -/
def legacyPermissionsToCCPermissions (ps : List LegacyPermission) : CCPermissions :=
  { allow := dedupKeepFirst
      ((ps.filter (fun p => p.scope == "always")).map legacyPermissionToCCRule),
    deny := [],
    ask := [] }

/-- Modelled from the spec: the built-in default permission set (the missing
`DEFAULT_CC_PERMISSIONS` of `core/types`): empty allow/deny/ask lists. -/
def DEFAULT_CC_PERMISSIONS : CCPermissions :=
  { allow := [], deny := [], ask := [] }

/-- Serialise `CCPermissions` into the JSON written to `settings.json`. -/
def ccPermissionsToJson (c : CCPermissions) : Json :=
  .obj [("allow", .arr (c.allow.map .str)),
        ("deny", .arr (c.deny.map .str)),
        ("ask", .arr (c.ask.map .str))]

/-- Modelled from the spec: `isLegacyPermissionsFormat` of
`CCSettingsStorage` is absent from the source tree; per the spec the legacy
shape is the old flat-array form of the `permissions` field. -/
def isLegacyPermissionsFormat (old : JObj) : Bool :=
  match objGet old "permissions" with
  | some (.arr _) => true
  | _ => false

/-- Modelled glue for the missing typed deserialisation of a legacy
permission row: read the `toolName` / `pattern` / `scope` string fields. -/
def legacyPermissionRows (old : JObj) : List LegacyPermission :=
  match objGet old "permissions" with
  | some (.arr rows) => rows.map (fun r =>
      let ro := jsObjOf r
      { toolName := jsStrD (objGet ro "toolName"),
        pattern := jsStrD (objGet ro "pattern"),
        approvedAt := 0,
        scope := jsStrD (objGet ro "scope") })
  | _ => []

/-! ## `migrateFromOldSettingsJson` (in source) -/

/-- The merged `environmentVariables` value of the split migration
(`StorageService.ts` lines 228–235): start from
`oldSettings.environmentVariables ?? ''`; when `oldSettings.env` is a truthy
object, convert it to text form and, if non-empty, merge it in second.
JavaScript would throw a `TypeError` when the merge is reached with a
non-string `environmentVariables` value; arrays are `typeof 'object'` and
enumerate their indices. -/
def envVarsOfOldSettings (old : JObj) : Except StoreErr Json :=
  let ev := jsCoalesce (objGet old "environmentVariables") (.str "")
  let mergeWith : List (String × Json) → Except StoreErr Json := fun entries =>
    let envFromCC := convertEnvObjectToString entries
    if envFromCC != "" then
      match ev with
      | .str txt => .ok (.str (mergeEnvironmentVariables txt envFromCC))
      | _ => .error .typeError
    else .ok ev
  match objGet old "env" with
  | some (.obj e) => mergeWith e
  | some (.arr xs) => mergeWith (xs.enum.map (fun iv => (toString iv.1, iv.2)))
  | _ => .ok ev

/-- Default value of a `DEFAULT_SETTINGS` field. -/
def dfltOf (k : String) : Json :=
  jsCoalesce (objGet DEFAULT_SETTINGS k) .null

/-- The `claudianFields` record built by `migrateFromOldSettingsJson`
(`StorageService.ts` lines 238–261), field for field in source order. -/
def buildClaudianFields (old : JObj) : Except StoreErr JObj :=
  match envVarsOfOldSettings old with
  | .error e => .error e
  | .ok environmentVariables =>
    .ok [ ("userName", jsCoalesce (objGet old "userName") (dfltOf "userName")),
          ("enableBlocklist",
            jsCoalesce (objGet old "enableBlocklist") (dfltOf "enableBlocklist")),
          ("blockedCommands",
            pbcToJson (normalizeBlockedCommands (objGet old "blockedCommands")
              getDefaultBlockedCommands)),
          ("model", jsCoalesce (objGet old "model") (dfltOf "model")),
          ("thinkingBudget",
            jsCoalesce (objGet old "thinkingBudget") (dfltOf "thinkingBudget")),
          ("permissionMode",
            jsCoalesce (objGet old "permissionMode") (dfltOf "permissionMode")),
          ("excludedTags",
            jsCoalesce (objGet old "excludedTags") (dfltOf "excludedTags")),
          ("mediaFolder",
            jsCoalesce (objGet old "mediaFolder") (dfltOf "mediaFolder")),
          ("environmentVariables", environmentVariables),
          ("envSnippets",
            jsCoalesce (objGet old "envSnippets") (dfltOf "envSnippets")),
          ("systemPrompt",
            jsCoalesce (objGet old "systemPrompt") (dfltOf "systemPrompt")),
          ("allowedExportPaths",
            jsCoalesce (objGet old "allowedExportPaths") (dfltOf "allowedExportPaths")),
          ("persistentExternalContextPaths", dfltOf "persistentExternalContextPaths"),
          ("keyboardNavigation",
            jsCoalesce (objGet old "keyboardNavigation") (dfltOf "keyboardNavigation")),
          ("claudeCliPath",
            jsCoalesce (objGet old "claudeCliPath") (dfltOf "claudeCliPath")),
          ("claudeCliPathsByHost", dfltOf "claudeCliPathsByHost"),
          ("loadUserClaudeSettings",
            jsCoalesce (objGet old "loadUserClaudeSettings") (dfltOf "loadUserClaudeSettings")),
          ("enableAutoTitleGeneration",
            jsCoalesce (objGet old "enableAutoTitleGeneration")
              (dfltOf "enableAutoTitleGeneration")),
          ("titleGenerationModel",
            jsCoalesce (objGet old "titleGenerationModel") (dfltOf "titleGenerationModel")),
          ("lastClaudeModel", dfltOf "lastClaudeModel"),
          ("lastCustomModel", dfltOf "lastCustomModel"),
          ("lastEnvHash", dfltOf "lastEnvHash") ]

/-- The `ccPermissions` value of `migrateFromOldSettingsJson`
(`StorageService.ts` lines 272–288): convert the legacy flat-array shape, or
preserve an existing CC-format object (including `defaultMode` and
`additionalDirectories` — JSON serialisation keeps them only when present),
or fall back to (a spread copy of) the default permission set. -/
def buildCCPermissions (old : JObj) : Json :=
  if isLegacyPermissionsFormat old then
    ccPermissionsToJson (legacyPermissionsToCCPermissions (legacyPermissionRows old))
  else
    match objGet old "permissions" with
    | some (.obj p) =>
      .obj ([("allow", jsCoalesce (objGet p "allow") (.arr [])),
             ("deny", jsCoalesce (objGet p "deny") (.arr [])),
             ("ask", jsCoalesce (objGet p "ask") (.arr []))]
        ++ (match objGet p "defaultMode" with
            | some v => [("defaultMode", v)] | none => [])
        ++ (match objGet p "additionalDirectories" with
            | some v => [("additionalDirectories", v)] | none => []))
    | _ => ccPermissionsToJson DEFAULT_CC_PERMISSIONS

/-- The rewritten `settings.json` content of the split migration
(`StorageService.ts` lines 291–294). -/
def ccSettingsOf (old : JObj) : Json :=
  .obj [("$schema", .str "https://json.schemastore.org/claude-code-settings.json"),
        ("permissions", buildCCPermissions old)]

/-- `StorageService.migrateFromOldSettingsJson()` (in source).  Reads the
combined legacy `settings.json`; returns untouched when it carries no
Claudian-only field; otherwise saves the Claudian settings first, reads them
back and checks the `userName` sentinel (the `!savedClaudian` half of the
source's check is subsumed: `load()` always returns an object or throws),
and only then destructively rewrites `settings.json` to CC-only fields. -/
def migrateFromOldSettingsJson (env : StoreEnv) (s : StoreSt) : Out Unit :=
  match adapterRead s CC_SETTINGS_PATH with
  | none => .err (.readFailed CC_SETTINGS_PATH) s []
  | some .corrupt => .err (.parseFailed CC_SETTINGS_PATH) s []
  | some (.json j) =>
    let oldSettings := jsObjOf j
    let hasClaudianFields := CLAUDIAN_ONLY_FIELDS.any
      (fun f => (objGet oldSettings f).isSome)
    if !hasClaudianFields then .ok () s []
    else
      match buildClaudianFields oldSettings with
      | .error e => .err e s []
      | .ok claudianFields =>
        match claudianSave env s claudianFields with
        | .err e s₁ tr₁ => .err e s₁ tr₁
        | .ok _ s₁ tr₁ =>
          match claudianLoad s₁ with
          | .err e s₂ tr₂ => .err e s₂ (tr₁ ++ tr₂)
          | .ok savedClaudian s₂ tr₂ =>
            if (objGet savedClaudian "userName").isNone then
              .err .verifyFailed s₂ (tr₁ ++ tr₂)
            else
              match adapterWrite env s₂ CC_SETTINGS_PATH (ccSettingsOf oldSettings) with
              | .err e s₃ tr₃ => .err e s₃ (tr₁ ++ tr₂ ++ tr₃)
              | .ok _ s₃ tr₃ => .ok () s₃ (tr₁ ++ tr₂ ++ tr₃)

/-! ## Legacy `data.json` migrations (in source) -/

/-- The array stored under key `k` of the legacy blob; non-array values are
treated as absent (in the source the guards read `x?.length ?? 0` and
`x && x.length > 0`; a parsed `data.json` stores arrays under these keys). -/
def blobArr (blob : JObj) (k : String) : List Json :=
  match objGet blob k with
  | some (.arr xs) => xs
  | _ => []

/-- `StorageService.hasStateToMigrate()` (in source): some of the three
bookkeeping keys is present (a parsed JSON value is never `undefined`, so
`!== undefined` is key presence). -/
def hasStateToMigrate (blob : JObj) : Bool :=
  (objGet blob "lastEnvHash").isSome ||
  (objGet blob "lastClaudeModel").isSome ||
  (objGet blob "lastCustomModel").isSome

/-- `StorageService.hasLegacyContentToMigrate()` (in source). -/
def hasLegacyContentToMigrate (blob : JObj) : Bool :=
  (blobArr blob "slashCommands").length > 0 ||
  (blobArr blob "conversations").length > 0

/-- The three conditional field merges of
`StorageService.migrateFromDataJson()` (source lines 306–315): a blob value
is copied only when the field is present in the blob and falsy in the loaded
Claudian settings (the loaded record always carries every key, filled from
the defaults, so presence in the claim's sense is truthiness). -/
def mergeStateFields (blob claudian : JObj) : JObj :=
  let c1 :=
    match objGet blob "lastEnvHash" with
    | some v =>
      if !jsTruthyOpt (objGet claudian "lastEnvHash") then
        objSet claudian "lastEnvHash" v
      else claudian
    | none => claudian
  let c2 :=
    match objGet blob "lastClaudeModel" with
    | some v =>
      if !jsTruthyOpt (objGet c1 "lastClaudeModel") then
        objSet c1 "lastClaudeModel" v
      else c1
    | none => c1
  match objGet blob "lastCustomModel" with
  | some v =>
    if !jsTruthyOpt (objGet c2 "lastCustomModel") then
      objSet c2 "lastCustomModel" v
    else c2
  | none => c2

/-- `StorageService.migrateFromDataJson()` (in source): load the Claudian
settings, merge the not-already-set bookkeeping fields, save. -/
def migrateFromDataJson (env : StoreEnv) (s : StoreSt) (blob : JObj) : Out Unit :=
  match claudianLoad s with
  | .err e s' tr => .err e s' tr
  | .ok claudian s₁ tr₁ =>
    match claudianSave env s₁ (mergeStateFields blob claudian) with
    | .err e s₂ tr₂ => .err e s₂ (tr₁ ++ tr₂)
    | .ok _ s₂ tr₂ => .ok () s₂ (tr₁ ++ tr₂)

/-- Modelled from the spec: `SlashCommandStorage.getFilePath()` is absent
from the source tree; the filename is derived deterministically from the
command's `name` under the commands directory. -/
def commandFilePath (command : Json) : String :=
  COMMANDS_PATH ++ "/" ++ jsStrD (objGet (jsObjOf command) "name") ++ ".md"

/-- Modelled from the spec: `SessionStorage.getFilePath()` is absent from
the source tree; the filename is derived deterministically from the
conversation's `id` under the sessions directory. -/
def sessionFilePath (conversation : Json) : String :=
  SESSIONS_PATH ++ "/" ++ jsStrD (objGet (jsObjOf conversation) "id") ++ ".jsonl"

/-- One migration loop of `migrateLegacyDataJsonContent()` (source lines
327–354), shared by the slash-command and the conversation pass: per item,
skip when the target file already exists, otherwise attempt the store's
save; a thrown write marks `hadErrors` and the loop continues.  The stored
content is the item itself (a stand-in for the store's deterministic
rendering, which is absent from the source tree). -/
def migLoop (env : StoreEnv) (pathOf : Json → String) :
    List Json → StoreSt → Bool → Bool × StoreSt × List StoreEv
  | [], s, hadErrors => (hadErrors, s, [])
  | item :: rest, s, hadErrors =>
    let p := pathOf item
    if adapterExists s p then migLoop env pathOf rest s hadErrors
    else
      match adapterWrite env s p item with
      | .err _ _ trw =>
        let (he, s', tr) := migLoop env pathOf rest s true
        (he, s', trw ++ tr)
      | .ok _ s₁ trw =>
        let (he, s', tr) := migLoop env pathOf rest s₁ hadErrors
        (he, s', trw ++ tr)

/-- `StorageService.migrateLegacyDataJsonContent()` (in source): migrate the
inline slash commands, then the inline conversations; individual write
failures are caught, recorded in the returned `hadErrors` flag, and never
escape. -/
def migrateLegacyDataJsonContent (env : StoreEnv) (s : StoreSt) (blob : JObj) :
    Bool × StoreSt × List StoreEv :=
  let (he₁, s₁, tr₁) := migLoop env commandFilePath (blobArr blob "slashCommands") s false
  let (he₂, s₂, tr₂) := migLoop env sessionFilePath (blobArr blob "conversations") s₁ he₁
  (he₂, s₂, tr₁ ++ tr₂)

/-- The keys `clearLegacyDataJson()` deletes from the blob (source lines
369–374). -/
def consumedLegacyKeys : List String :=
  ["lastEnvHash", "lastClaudeModel", "lastCustomModel",
   "conversations", "slashCommands", "migrationVersion"]

/-- `StorageService.clearLegacyDataJson()` (in source): reload the blob (a
missing blob is a no-op), remove exactly the consumed keys from a spread
copy, and save the result (the source's empty-object special case saves `{}`,
which coincides with the cleaned copy).  Emits `clearCalled`, then the saved
blob. -/
def clearLegacyDataJson (s : StoreSt) : StoreSt × List StoreEv :=
  match s.blob with
  | none => (s, [.clearCalled])
  | some blob =>
    let cleaned := blob.filter (fun kv => !(consumedLegacyKeys.any (fun k => k == kv.1)))
    ({ s with blob := some cleaned }, [.clearCalled, .saveBlob cleaned])

/-! ## Coordinator (in source) -/

/-- `StorageService.runMigrations()` (in source): run the split migration
when `settings.json` exists but `claudian-settings.json` does not; then, when
the legacy blob is present, run the state migration and the content
migration as applicable, and clear the consumed blob keys only when some
blob migration ran and the content migration reported zero errors. -/
def runMigrations (env : StoreEnv) (s : StoreSt) : Out Unit :=
  let ccExists := adapterExists s CC_SETTINGS_PATH
  let claudianExists := adapterExists s CLAUDIAN_SETTINGS_PATH
  let dataJson := s.blob
  let step1 : Out Unit :=
    if ccExists && !claudianExists then migrateFromOldSettingsJson env s
    else .ok () s []
  match step1 with
  | .err e s' tr => .err e s' tr
  | .ok _ s₁ tr₁ =>
    match dataJson with
    | none => .ok () s₁ tr₁
    | some blob =>
      let hasState := hasStateToMigrate blob
      let hasContent := hasLegacyContentToMigrate blob
      let step2 : Out Unit :=
        if hasState then migrateFromDataJson env s₁ blob else .ok () s₁ []
      match step2 with
      | .err e s' tr => .err e s' (tr₁ ++ tr)
      | .ok _ s₂ tr₂ =>
        let res :=
          if hasContent then migrateLegacyDataJsonContent env s₂ blob
          else (false, s₂, ([] : List StoreEv))
        let legacyContentHadErrors := res.1
        let s₃ := res.2.1
        let tr₃ := res.2.2
        if (hasState || hasContent) && !legacyContentHadErrors then
          let (s₄, tr₄) := clearLegacyDataJson s₃
          .ok () s₄ (tr₁ ++ tr₂ ++ tr₃ ++ tr₄)
        else .ok () s₃ (tr₁ ++ tr₂ ++ tr₃)

/-- Modelled from the spec: the default AgentSettings record returned by the
missing `CCSettingsStorage.load()` when the file is absent. -/
def DEFAULT_AGENT_SETTINGS : Json :=
  .obj [("permissions", ccPermissionsToJson DEFAULT_CC_PERMISSIONS)]

/-- Modelled from the spec: `CCSettingsStorage.load()` is absent from the
source tree — parse the AgentSettings file, or return the defaults when it
is absent. -/
def ccLoad (s : StoreSt) : Out Json :=
  match adapterRead s CC_SETTINGS_PATH with
  | none => .ok DEFAULT_AGENT_SETTINGS s []
  | some .corrupt => .err (.parseFailed CC_SETTINGS_PATH) s []
  | some (.json j) => .ok j s []

/-- `StorageService.initialize()` (in source): ensure directories (a pure
no-op on the modelled state), run migrations, then load and return the
combined `{cc, claudian}` settings. -/
def initStorage (env : StoreEnv) (s : StoreSt) : Out (Json × JObj) :=
  match runMigrations env s with
  | .err e s' tr => .err e s' tr
  | .ok _ s₁ tr₁ =>
    match ccLoad s₁ with
    | .err e s' tr => .err e s' (tr₁ ++ tr)
    | .ok cc s₂ tr₂ =>
      match claudianLoad s₂ with
      | .err e s' tr => .err e s' (tr₁ ++ tr₂ ++ tr)
      | .ok claudian s₃ tr₃ => .ok (cc, claudian) s₃ (tr₁ ++ tr₂ ++ tr₃)

/-! ## Infrastructure lemmas: object operations -/

theorem objGet_eq_none_iff (o : JObj) (k : String) :
    objGet o k = none ↔ ∀ kv ∈ o, kv.1 ≠ k := by
  unfold objGet
  cases h : o.find? (fun kv => kv.1 == k) with
  | none =>
    simp only [true_iff]
    intro kv hkv
    have := List.find?_eq_none.mp h kv hkv
    simpa using this
  | some kv =>
    simp only [reduceCtorEq, false_iff, not_forall]
    have hmem := List.mem_of_find?_eq_some h
    have hkey : kv.1 = k := by
      have := List.find?_some h
      simpa using this
    exact ⟨kv, hmem, by simp [hkey]⟩

theorem objGet_isSome_of_mem (o : JObj) (k : String) (v : Json) (h : (k, v) ∈ o) :
    (objGet o k).isSome = true := by
  unfold objGet
  cases hf : o.find? (fun kv => kv.1 == k) with
  | none =>
    have := List.find?_eq_none.mp hf (k, v) h
    simp at this
  | some kv => simp

theorem objGet_objSet_self (o : JObj) (k : String) (v : Json) :
    objGet (objSet o k v) k = some v := by
  unfold objSet
  by_cases h : o.any (fun kv => kv.1 == k)
  · simp only [h, if_true]
    unfold objGet
    induction o with
    | nil => simp at h
    | cons hd tl ih =>
      by_cases hk : hd.1 = k
      · simp [List.find?, hk]
      · simp only [List.map_cons]
        rw [if_neg (by simpa using hk)]
        have htl : tl.any (fun kv => kv.1 == k) := by
          rcases List.any_eq_true.mp h with ⟨kv, hkv, hkvk⟩
          rcases List.mem_cons.mp hkv with h1 | h1
          · exfalso; apply hk; rw [h1] at hkvk; simpa using hkvk
          · exact List.any_eq_true.mpr ⟨kv, h1, hkvk⟩
        have := ih htl
        simp only [List.find?]
        rw [show ((hd.1 == k) = false) by simpa using hk]
        exact this
  · simp only [h, if_false]
    unfold objGet
    induction o with
    | nil => simp [List.find?]
    | cons hd tl ih =>
      have hhd : ¬ hd.1 = k := by
        intro hc
        exact h (List.any_eq_true.mpr ⟨hd, List.mem_cons_self hd tl, by simpa using hc⟩)
      have htl : ¬ tl.any (fun kv => kv.1 == k) := by
        intro hc
        rcases List.any_eq_true.mp hc with ⟨kv, hkv, hkvk⟩
        exact h (List.any_eq_true.mpr ⟨kv, List.mem_cons_of_mem hd hkv, hkvk⟩)
      simp only [List.cons_append, List.find?]
      rw [show ((hd.1 == k) = false) by simpa using hhd]
      exact ih htl

theorem objGet_objSet_ne (o : JObj) (k k' : String) (v : Json) (h : k ≠ k') :
    objGet (objSet o k v) k' = objGet o k' := by
  unfold objSet
  by_cases ha : o.any (fun kv => kv.1 == k)
  · simp only [ha, if_true]
    unfold objGet
    induction o with
    | nil => simp
    | cons hd tl ih =>
      simp only [List.map_cons, List.find?]
      by_cases hk : hd.1 = k
      · rw [if_pos (by simpa using hk)]
        simp only [List.find?]
        rw [show ((k == k') = false) by simpa using h,
            show ((hd.1 == k') = false) by simp [hk]; exact h]
        by_cases htl : tl.any (fun kv => kv.1 == k)
        · exact ih htl
        · -- objSet maps over the whole list; entries beyond are unchanged only
          -- if no further key equals k.  Map with the pointwise identity.
          have : tl.map (fun kv => if kv.1 == k then (k, v) else kv) = tl := by
            have hcongr : ∀ kv ∈ tl, (if kv.1 == k then (k, v) else kv) = id kv := by
              intro kv hkv
              have : ¬ kv.1 = k := by
                intro hc
                exact htl (List.any_eq_true.mpr ⟨kv, hkv, by simpa using hc⟩)
              simp [this]
            rw [List.map_congr_left hcongr, List.map_id]
          rw [this]
      · rw [if_neg (by simpa using hk)]
        by_cases hh : hd.1 = k'
        · simp [hh]
        · rw [show ((hd.1 == k') = false) by simpa using hh]
          have htl : tl.any (fun kv => kv.1 == k) := by
            rcases List.any_eq_true.mp ha with ⟨kv, hkv, hkvk⟩
            rcases List.mem_cons.mp hkv with h1 | h1
            · exfalso; apply hk; rw [h1] at hkvk; simpa using hkvk
            · exact List.any_eq_true.mpr ⟨kv, h1, hkvk⟩
          exact ih htl
  · simp only [ha, if_false]
    unfold objGet
    induction o with
    | nil => simp [List.find?, show ((k == k') = false) by simpa using h]
    | cons hd tl ih =>
      have htl : ¬ tl.any (fun kv => kv.1 == k) := by
        intro hc
        rcases List.any_eq_true.mp hc with ⟨kv, hkv, hkvk⟩
        exact ha (List.any_eq_true.mpr ⟨kv, List.mem_cons_of_mem hd hkv, hkvk⟩)
      simp only [List.cons_append, List.find?]
      cases hh : (hd.1 == k') with
      | true => rfl
      | false => exact ih htl

theorem objGet_objSpread_isSome (a b : JObj) (k : String)
    (h : (objGet a k).isSome = true) :
    (objGet (objSpread a b) k).isSome = true := by
  induction b generalizing a with
  | nil => simpa [objSpread] using h
  | cons hd tl ih =>
    show (objGet (objSpread (objSet a hd.1 hd.2) tl) k).isSome = true
    apply ih
    by_cases hk : hd.1 = k
    · rw [hk, objGet_objSet_self]; rfl
    · rw [objGet_objSet_ne _ _ _ _ hk]; exact h

theorem objGet_filter_true (o : JObj) (p : String × Json → Bool) (k : String)
    (hk : ∀ v : Json, p (k, v) = true) :
    objGet (o.filter p) k = objGet o k := by
  induction o with
  | nil => rfl
  | cons hd tl ih =>
    by_cases hh : hd.1 = k
    · have hp : p hd = true := by
        have : hd = (k, hd.2) := by
          cases hd; simp_all
        rw [this]; exact hk hd.2
      simp only [List.filter_cons, hp, if_true]
      unfold objGet
      simp [List.find?, show (hd.1 == k) = true by simpa using hh]
    · cases hp : p hd with
      | true =>
        simp only [List.filter_cons, hp, if_true]
        unfold objGet
        simp only [List.find?, show (hd.1 == k) = false by simpa using hh]
        exact ih
      | false =>
        simp only [List.filter_cons, hp, Bool.false_eq_true, if_false]
        rw [ih]
        unfold objGet
        simp [List.find?, show (hd.1 == k) = false by simpa using hh]

theorem objGet_filter_false (o : JObj) (p : String × Json → Bool) (k : String)
    (hk : ∀ v : Json, p (k, v) = false) :
    objGet (o.filter p) k = none := by
  induction o with
  | nil => rfl
  | cons hd tl ih =>
    by_cases hh : hd.1 = k
    · have hp : p hd = false := by
        have : hd = (k, hd.2) := by
          cases hd; simp_all
        rw [this]; exact hk hd.2
      simp only [List.filter_cons, hp, Bool.false_eq_true, if_false]
      exact ih
    · cases hp : p hd with
      | true =>
        simp only [List.filter_cons, hp, if_true]
        unfold objGet
        simp only [List.find?, show (hd.1 == k) = false by simpa using hh]
        exact ih
      | false =>
        simp only [List.filter_cons, hp, Bool.false_eq_true, if_false]
        exact ih

/-! ## Infrastructure lemmas: de-duplication -/

theorem dedupKeepFirst_aux_nodup (l : List String) :
    ∀ acc : List String, acc.Nodup →
      (l.foldl (fun acc r => if acc.any (fun x => x == r) then acc else acc ++ [r]) acc).Nodup := by
  induction l with
  | nil => intro acc h; simpa using h
  | cons hd tl ih =>
    intro acc h
    simp only [List.foldl_cons]
    by_cases hmem : acc.any (fun x => x == hd)
    · rw [if_pos hmem]; exact ih acc h
    · rw [if_neg hmem]
      apply ih
      rw [List.nodup_append]
      refine ⟨h, List.nodup_singleton hd, ?_⟩
      intro x hx
      simp only [List.mem_singleton]
      intro hc
      subst hc
      exact hmem (List.any_eq_true.mpr ⟨x, hx, by simp⟩)

theorem dedupKeepFirst_nodup (l : List String) : (dedupKeepFirst l).Nodup :=
  dedupKeepFirst_aux_nodup l [] List.nodup_nil

theorem dedupKeepFirst_aux_mem (l : List String) :
    ∀ acc : List String, ∀ r : String,
      (r ∈ l.foldl (fun acc r => if acc.any (fun x => x == r) then acc else acc ++ [r]) acc
        ↔ r ∈ acc ∨ r ∈ l) := by
  induction l with
  | nil => intro acc r; simp
  | cons hd tl ih =>
    intro acc r
    simp only [List.foldl_cons]
    by_cases hmem : acc.any (fun x => x == hd)
    · rw [if_pos hmem, ih]
      constructor
      · rintro (h | h)
        · exact Or.inl h
        · exact Or.inr (List.mem_cons_of_mem hd h)
      · rintro (h | h)
        · exact Or.inl h
        · rcases List.mem_cons.mp h with h1 | h1
          · subst h1
            rcases List.any_eq_true.mp hmem with ⟨x, hx, hxr⟩
            have : x = r := by simpa using hxr
            exact Or.inl (this ▸ hx)
          · exact Or.inr h1
    · rw [if_neg hmem, ih]
      constructor
      · rintro (h | h)
        · rcases List.mem_append.mp h with h1 | h1
          · exact Or.inl h1
          · exact Or.inr (List.mem_cons.mpr (Or.inl (List.mem_singleton.mp h1)))
        · exact Or.inr (List.mem_cons_of_mem hd h)
      · rintro (h | h)
        · exact Or.inl (List.mem_append.mpr (Or.inl h))
        · rcases List.mem_cons.mp h with h1 | h1
          · exact Or.inl (List.mem_append.mpr (Or.inr (by simp [h1])))
          · exact Or.inr h1

theorem dedupKeepFirst_mem (l : List String) (r : String) :
    r ∈ dedupKeepFirst l ↔ r ∈ l := by
  have := dedupKeepFirst_aux_mem l [] r
  simpa [dedupKeepFirst] using this

/-! ## Trace predicates -/

/-- Is this event a failed write? -/
def evIsWriteFail : StoreEv → Bool
  | .writeFail _ => true
  | _ => false

/-- Is this event the entry into `clearLegacyDataJson`? -/
def evIsClear : StoreEv → Bool
  | .clearCalled => true
  | _ => false

/-- Is this event a save of the legacy blob? -/
def evIsSaveBlob : StoreEv → Bool
  | .saveBlob _ => true
  | _ => false

/-- Is this event a (non-throwing) write to the given path? -/
def evIsWriteTo (p : String) : StoreEv → Bool
  | .write q _ => q == p
  | _ => false

/-- Is this event a write at all? -/
def evIsWrite : StoreEv → Bool
  | .write _ _ => true
  | _ => false

/-- The event trace of an outcome. -/
def trOf {α : Type} : Out α → List StoreEv
  | .ok _ _ tr => tr
  | .err _ _ tr => tr

/-- Did the outcome throw the verification error? -/
def outIsVerifyFailed {α : Type} : Out α → Bool
  | .err .verifyFailed _ _ => true
  | _ => false

/-! ## Claim C8 -/

/-- C8: `clearLegacyDataJson` removes only the consumed keys from the legacy
blob: the saved blob is exactly the original with the six consumed
bookkeeping/content keys filtered out, so every other key (for example
host-owned keys such as `tabManagerState`) is preserved verbatim, every
consumed key is gone, and no vault file is touched. -/
theorem claim_C8_clear_removes_only_consumed_keys
    (s : StoreSt) (blob : JObj) (h : s.blob = some blob) :
    (clearLegacyDataJson s).1.blob =
      some (blob.filter (fun kv => !(consumedLegacyKeys.any (fun k => k == kv.1)))) ∧
    (∀ k, k ∉ consumedLegacyKeys →
      objGet (blob.filter (fun kv => !(consumedLegacyKeys.any (fun k2 => k2 == kv.1)))) k
        = objGet blob k) ∧
    (∀ k, k ∈ consumedLegacyKeys →
      objGet (blob.filter (fun kv => !(consumedLegacyKeys.any (fun k2 => k2 == kv.1)))) k
        = none) ∧
    (clearLegacyDataJson s).1.files = s.files := by
  refine ⟨?_, ?_, ?_, ?_⟩
  · simp [clearLegacyDataJson, h]
  · intro k hk
    apply objGet_filter_true
    intro v
    show (!(consumedLegacyKeys.any (fun k2 => k2 == k))) = true
    have hfalse : consumedLegacyKeys.any (fun k2 => k2 == k) = false := by
      rw [List.any_eq_false]
      intro k2 hk2 hc
      exact hk ((by simpa using hc : k2 = k) ▸ hk2)
    rw [hfalse]
    rfl
  · intro k hk
    apply objGet_filter_false
    intro v
    show (!(consumedLegacyKeys.any (fun k2 => k2 == k))) = false
    rw [List.any_eq_true.mpr ⟨k, hk, by simp⟩]
    rfl
  · simp [clearLegacyDataJson, h]

/-- C8 witness: a concrete blob holding consumed keys plus the host-owned
`tabManagerState`; the latter survives verbatim, the former are removed. -/
theorem claim_C8_witness :
    (clearLegacyDataJson
        ⟨[], some [("lastEnvHash", .str "h"), ("tabManagerState", .str "tabs"),
                   ("slashCommands", .arr [])]⟩).1.blob
      = some [("tabManagerState", Json.str "tabs")] ∧
    objGet [("tabManagerState", Json.str "tabs")] "tabManagerState" = some (.str "tabs") := by
  have h := claim_C8_clear_removes_only_consumed_keys
    ⟨[], some [("lastEnvHash", .str "h"), ("tabManagerState", .str "tabs"),
               ("slashCommands", .arr [])]⟩
    [("lastEnvHash", .str "h"), ("tabManagerState", .str "tabs"), ("slashCommands", .arr [])]
    rfl
  refine ⟨?_, rfl⟩
  rw [h.1]
  rfl

/-! ## Claim C9 -/

/-- C9: `normalizeBlockedCommands` maps a flat-list input to a platform-keyed
record whose unix bucket is exactly the input's string entries, trimmed, with
blank entries removed, and whose windows bucket equals the default windows
list; the spec's example input computes as stated; and an already
platform-keyed object has each bucket independently validated-or-defaulted
through `normalizeCommandList`. -/
theorem claim_C9_normalizeBlockedCommands_spec
    (defaults : PlatformBlockedCommands) (xs : List Json) (o : JObj) :
    (normalizeBlockedCommands (some (.arr xs)) defaults =
      { unix := ((xs.filterMap (fun j => match j with
            | .str s => some s | _ => none)).map jsTrim).filter (fun s => s.length > 0),
        windows := defaults.windows }) ∧
    (normalizeBlockedCommands (some (.obj o)) defaults =
      { unix := normalizeCommandList (objGet o "unix") defaults.unix,
        windows := normalizeCommandList (objGet o "windows") defaults.windows }) ∧
    (normalizeBlockedCommands (some (.arr [.str "rm -rf", .str "  "]))
        getDefaultBlockedCommands =
      { unix := ["rm -rf"], windows := getDefaultBlockedCommands.windows }) := by
  exact ⟨rfl, rfl, rfl⟩

/-! ## Claim C4 -/

/-- C4: legacy permission conversion (spec-modelled, the converter itself is
absent from the source tree).  For every legacy permissions array: deny and
ask stay empty; the allow list is duplicate-free; every scope-`"always"`
record contributes its rule string to the allow list and everything in the
allow list comes from some scope-`"always"` record (so scope-`"session"`
records are dropped); the rule string is the bare tool name exactly when the
pattern is empty or `"*"`, and `ToolName(pattern)` otherwise — in particular
`{toolName:"Bash", pattern:"git status", scope:"always"}` yields
`"Bash(git status)"`. -/
theorem claim_C4_legacy_permission_conversion (ps : List LegacyPermission) :
    (legacyPermissionsToCCPermissions ps).deny = [] ∧
    (legacyPermissionsToCCPermissions ps).ask = [] ∧
    ((legacyPermissionsToCCPermissions ps).allow).Nodup ∧
    (∀ p ∈ ps, p.scope = "always" →
      legacyPermissionToCCRule p ∈ (legacyPermissionsToCCPermissions ps).allow) ∧
    (∀ r ∈ (legacyPermissionsToCCPermissions ps).allow,
      ∃ p ∈ ps, p.scope = "always" ∧ legacyPermissionToCCRule p = r) ∧
    (∀ p : LegacyPermission, (p.pattern = "" ∨ p.pattern = "*") →
      legacyPermissionToCCRule p = p.toolName) ∧
    (∀ p : LegacyPermission, p.pattern ≠ "" → p.pattern ≠ "*" →
      legacyPermissionToCCRule p = p.toolName ++ "(" ++ p.pattern ++ ")") := by
  refine ⟨rfl, rfl, dedupKeepFirst_nodup _, ?_, ?_, ?_, ?_⟩

  · intro p hp hscope
    show _ ∈ dedupKeepFirst _
    rw [dedupKeepFirst_mem]
    exact List.mem_map_of_mem _ (List.mem_filter.mpr ⟨hp, by simpa using hscope⟩)
  · intro r hr
    rw [show (legacyPermissionsToCCPermissions ps).allow = dedupKeepFirst
      ((ps.filter (fun p => p.scope == "always")).map legacyPermissionToCCRule) from rfl,
      dedupKeepFirst_mem] at hr
    rcases List.mem_map.mp hr with ⟨p, hp, hrule⟩
    have hmem := List.mem_filter.mp hp
    exact ⟨p, hmem.1, by simpa using hmem.2, hrule⟩
  · intro p hpat
    unfold legacyPermissionToCCRule
    rcases hpat with h | h <;> simp [h]
  · intro p h1 h2
    unfold legacyPermissionToCCRule
    rw [if_neg]
    intro hc
    rcases Bool.or_eq_true_iff.mp hc with h | h
    · exact h1 (by simpa using h)
    · exact h2 (by simpa using h)

/-- C4 witness: the spec's own example, `{toolName:"Bash", pattern:"git
status", scope:"always"}` together with a session-scoped record: the allow
list is exactly `["Bash(git status)"]`. -/
theorem claim_C4_witness :
    (⟨"Bash", "git status", 0, "always"⟩ : LegacyPermission) ∈
      ([⟨"Bash", "git status", 0, "always"⟩, ⟨"Bash", "rm tmp", 1, "session"⟩] :
        List LegacyPermission) ∧
    legacyPermissionToCCRule ⟨"Bash", "git status", 0, "always"⟩ ∈
      (legacyPermissionsToCCPermissions
        [⟨"Bash", "git status", 0, "always"⟩, ⟨"Bash", "rm tmp", 1, "session"⟩]).allow ∧
    legacyPermissionToCCRule ⟨"Bash", "git status", 0, "always"⟩ = "Bash(git status)" ∧
    (legacyPermissionsToCCPermissions
        [⟨"Bash", "git status", 0, "always"⟩, ⟨"Bash", "rm tmp", 1, "session"⟩]).allow
      = ["Bash(git status)"] := by
  have h := claim_C4_legacy_permission_conversion
    [⟨"Bash", "git status", 0, "always"⟩, ⟨"Bash", "rm tmp", 1, "session"⟩]
  refine ⟨List.mem_cons_self _ _, ?_, rfl, rfl⟩
  exact h.2.2.2.1 _ (List.mem_cons_self _ _) rfl

/-! ## Infrastructure: environment-merge map lemmas -/

/-- Lookup in a string-valued association list (JS `Map.get`). -/
def lookupS (m : List (String × String)) (k : String) : Option String :=
  match m.find? (fun kv => kv.1 == k) with
  | some kv => some kv.2
  | none => none

/-- The key list of a string map. -/
def keysOfS (m : List (String × String)) : List String :=
  m.map (fun kv => kv.1)

theorem lookupS_mapSet_self (m : List (String × String)) (k : String) (v : String) :
    lookupS (mapSet m k v) k = some v := by
  unfold mapSet
  by_cases h : m.any (fun kv => kv.1 == k)
  · simp only [h, if_true]
    unfold lookupS
    induction m with
    | nil => simp at h
    | cons hd tl ih =>
      by_cases hk : hd.1 = k
      · simp [List.find?, hk]
      · simp only [List.map_cons]
        rw [if_neg (by simpa using hk)]
        have htl : tl.any (fun kv => kv.1 == k) := by
          rcases List.any_eq_true.mp h with ⟨kv, hkv, hkvk⟩
          rcases List.mem_cons.mp hkv with h1 | h1
          · exfalso; apply hk; rw [h1] at hkvk; simpa using hkvk
          · exact List.any_eq_true.mpr ⟨kv, h1, hkvk⟩
        have := ih htl
        simp only [List.find?]
        rw [show ((hd.1 == k) = false) by simpa using hk]
        exact this
  · simp only [h, if_false]
    unfold lookupS
    induction m with
    | nil => simp [List.find?]
    | cons hd tl ih =>
      have hhd : ¬ hd.1 = k := by
        intro hc
        exact h (List.any_eq_true.mpr ⟨hd, List.mem_cons_self hd tl, by simpa using hc⟩)
      have htl : ¬ tl.any (fun kv => kv.1 == k) := by
        intro hc
        rcases List.any_eq_true.mp hc with ⟨kv, hkv, hkvk⟩
        exact h (List.any_eq_true.mpr ⟨kv, List.mem_cons_of_mem hd hkv, hkvk⟩)
      simp only [List.cons_append, List.find?]
      rw [show ((hd.1 == k) = false) by simpa using hhd]
      exact ih htl

theorem lookupS_mapSet_ne (m : List (String × String)) (k k' : String) (v : String)
    (h : k ≠ k') :
    lookupS (mapSet m k v) k' = lookupS m k' := by
  unfold mapSet
  by_cases ha : m.any (fun kv => kv.1 == k)
  · simp only [ha, if_true]
    unfold lookupS
    induction m with
    | nil => simp
    | cons hd tl ih =>
      simp only [List.map_cons, List.find?]
      by_cases hk : hd.1 = k
      · rw [if_pos (by simpa using hk)]
        simp only [List.find?]
        rw [show ((k == k') = false) by simpa using h,
            show ((hd.1 == k') = false) by simp [hk]; exact h]
        by_cases htl : tl.any (fun kv => kv.1 == k)
        · exact ih htl
        · have : tl.map (fun kv => if kv.1 == k then (k, v) else kv) = tl := by
            have hcongr : ∀ kv ∈ tl, (if kv.1 == k then (k, v) else kv) = id kv := by
              intro kv hkv
              have : ¬ kv.1 = k := by
                intro hc
                exact htl (List.any_eq_true.mpr ⟨kv, hkv, by simpa using hc⟩)
              simp [this]
            rw [List.map_congr_left hcongr, List.map_id]
          rw [this]
      · rw [if_neg (by simpa using hk)]
        by_cases hh : hd.1 = k'
        · simp [hh]
        · rw [show ((hd.1 == k') = false) by simpa using hh]
          have htl : tl.any (fun kv => kv.1 == k) := by
            rcases List.any_eq_true.mp ha with ⟨kv, hkv, hkvk⟩
            rcases List.mem_cons.mp hkv with h1 | h1
            · exfalso; apply hk; rw [h1] at hkvk; simpa using hkvk
            · exact List.any_eq_true.mpr ⟨kv, h1, hkvk⟩
          exact ih htl
  · simp only [ha, if_false]
    unfold lookupS
    induction m with
    | nil => simp [List.find?, show ((k == k') = false) by simpa using h]
    | cons hd tl ih =>
      have htl : ¬ tl.any (fun kv => kv.1 == k) := by
        intro hc
        rcases List.any_eq_true.mp hc with ⟨kv, hkv, hkvk⟩
        exact ha (List.any_eq_true.mpr ⟨kv, List.mem_cons_of_mem hd hkv, hkvk⟩)
      simp only [List.cons_append, List.find?]
      cases hh : (hd.1 == k') with
      | true => rfl
      | false => exact ih htl

/-- Fold a list of raw lines into the environment map (the loop body of
`mergeEnvironmentVariables`). -/
def envLinesFold (m : List (String × String)) (ls : List String) : List (String × String) :=
  ls.foldl (fun acc line =>
    match parseEnvLine line with
    | some kv => mapSet acc kv.1 kv.2
    | none => acc) m

theorem addEnvLines_eq_fold (m : List (String × String)) (s : String) :
    addEnvLines m s = envLinesFold m (jsSplitNl s) := rfl

/-- The value the *last* well-formed `k=...` line of the given lines assigns
to `k` (later lines win). -/
def lastValLines : List String → String → Option String
  | [], _ => none
  | l :: ls, k =>
    match lastValLines ls k with
    | some v => some v
    | none =>
      match parseEnvLine l with
      | some kv => if kv.1 == k then some kv.2 else none
      | none => none

/-- The value the last well-formed line of an environment string assigns to
`k`. -/
def envLastVal (s : String) (k : String) : Option String :=
  lastValLines (jsSplitNl s) k

theorem lookupS_envLinesFold (ls : List String) :
    ∀ m k, lookupS (envLinesFold m ls) k =
      ((lastValLines ls k).orElse (fun _ => lookupS m k)) := by
  induction ls with
  | nil => intro m k; simp [envLinesFold, lastValLines, Option.orElse]
  | cons l ls ih =>
    intro m k
    have hstep : envLinesFold m (l :: ls) =
        envLinesFold (match parseEnvLine l with
          | some kv => mapSet m kv.1 kv.2
          | none => m) ls := by
      simp [envLinesFold]
    rw [hstep, ih]
    cases hl : lastValLines ls k with
    | some v => simp [lastValLines, hl, Option.orElse]
    | none =>
      simp only [lastValLines, hl, Option.orElse]
      cases hp : parseEnvLine l with
      | some kv =>
        by_cases hk : kv.1 = k
        · subst hk
          simp [lookupS_mapSet_self]
        · rw [lookupS_mapSet_ne _ _ _ _ hk]
          simp [show (kv.1 == k) = false by simpa using hk]
      | none => simp

theorem keysOfS_mapSet_nodup (m : List (String × String)) (k v : String)
    (h : (keysOfS m).Nodup) : (keysOfS (mapSet m k v)).Nodup := by
  unfold mapSet
  by_cases ha : m.any (fun kv => kv.1 == k)
  · rw [if_pos ha]
    have : keysOfS (m.map (fun kv => if kv.1 == k then (k, v) else kv)) = keysOfS m := by
      unfold keysOfS
      rw [List.map_map]
      apply List.map_congr_left
      intro kv _
      by_cases hk : kv.1 = k
      · simp [hk]
      · simp only [Function.comp_apply,
          show (kv.1 == k) = false by simpa using hk, Bool.false_eq_true, if_false]
    rw [this]; exact h
  · rw [if_neg ha]
    unfold keysOfS
    rw [List.map_append]
    rw [List.nodup_append]
    refine ⟨h, by simp, ?_⟩
    intro x hx
    simp only [List.map_cons, List.map_nil, List.mem_singleton]
    intro hc
    subst hc
    rcases List.mem_map.mp hx with ⟨kv, hkv, hk⟩
    exact ha (List.any_eq_true.mpr ⟨kv, hkv, by simp [hk]⟩)

theorem keysOfS_envLinesFold_nodup (ls : List String) :
    ∀ m, (keysOfS m).Nodup → (keysOfS (envLinesFold m ls)).Nodup := by
  induction ls with
  | nil => intro m h; simpa [envLinesFold] using h
  | cons l ls ih =>
    intro m h
    have hstep : envLinesFold m (l :: ls) =
        envLinesFold (match parseEnvLine l with
          | some kv => mapSet m kv.1 kv.2
          | none => m) ls := by
      simp [envLinesFold]
    rw [hstep]
    apply ih
    cases hp : parseEnvLine l with
    | some kv => exact keysOfS_mapSet_nodup _ _ _ h
    | none => exact h

/-! ## Claim C5 -/

/-- C5: during the split migration, the merged `environmentVariables` value
equals `mergeEnvironmentVariables` of the tool-private free-text block with
the CLI tool's structured env map converted to text (merged second), the
result carried into the written `claudianFields` record; and the merge keeps
one line per key (duplicate-free key set), with the structured-map entry
winning for every key present in both sources and the free-text entry
surviving for keys the structured map does not carry. -/
theorem claim_C5_env_merge (old : JObj) (e : JObj) (txt : String)
    (henv : objGet old "env" = some (.obj e))
    (hne : convertEnvObjectToString e ≠ "")
    (htxt : objGet old "environmentVariables" = some (.str txt)) :
    (envVarsOfOldSettings old =
       .ok (.str (mergeEnvironmentVariables txt (convertEnvObjectToString e)))) ∧
    (∀ flds, buildClaudianFields old = .ok flds →
       objGet flds "environmentVariables" =
         some (.str (mergeEnvironmentVariables txt (convertEnvObjectToString e)))) ∧
    (∀ k v, envLastVal (convertEnvObjectToString e) k = some v →
       lookupS (mergeEnvMap txt (convertEnvObjectToString e)) k = some v) ∧
    (∀ k, envLastVal (convertEnvObjectToString e) k = none →
       lookupS (mergeEnvMap txt (convertEnvObjectToString e)) k = envLastVal txt k) ∧
    (keysOfS (mergeEnvMap txt (convertEnvObjectToString e))).Nodup := by
  have hev : envVarsOfOldSettings old =
      .ok (.str (mergeEnvironmentVariables txt (convertEnvObjectToString e))) := by
    unfold envVarsOfOldSettings
    rw [henv, htxt]
    simp only [jsCoalesce]
    rw [show (convertEnvObjectToString e != "") = true by simpa using hne]
    simp
  have hmap : ∀ k, lookupS (mergeEnvMap txt (convertEnvObjectToString e)) k =
      ((envLastVal (convertEnvObjectToString e) k).orElse
        (fun _ => envLastVal txt k)) := by
    intro k
    unfold mergeEnvMap envLastVal
    rw [addEnvLines_eq_fold, addEnvLines_eq_fold, lookupS_envLinesFold,
        lookupS_envLinesFold]
    cases lastValLines (jsSplitNl (convertEnvObjectToString e)) k with
    | some v => rfl
    | none =>
      simp only [Option.orElse]
      cases lastValLines (jsSplitNl txt) k with
      | some v => rfl
      | none => simp [lookupS]
  refine ⟨hev, ?_, ?_, ?_, ?_⟩
  · intro flds hflds
    unfold buildClaudianFields at hflds
    rw [hev] at hflds
    cases hflds
    rfl
  · intro k v h
    rw [hmap k, h]
    rfl
  · intro k h
    rw [hmap k, h]
    rfl
  · apply keysOfS_envLinesFold_nodup
    apply keysOfS_envLinesFold_nodup
    simp [keysOfS]

/-- C5 witness: free text `A=1\nB=2` merged with structured `{B:"9", C:"3"}`
gives `A=1\nB=9\nC=3` — the structured entry wins for the shared key `B`. -/
theorem claim_C5_witness :
    objGet [("userName", Json.str "Ann"),
            ("environmentVariables", Json.str "A=1\nB=2"),
            ("env", Json.obj [("B", Json.str "9"), ("C", Json.str "3")])] "env"
      = some (.obj [("B", Json.str "9"), ("C", Json.str "3")]) ∧
    convertEnvObjectToString [("B", Json.str "9"), ("C", Json.str "3")] ≠ "" ∧
    envVarsOfOldSettings
        [("userName", Json.str "Ann"),
         ("environmentVariables", Json.str "A=1\nB=2"),
         ("env", Json.obj [("B", Json.str "9"), ("C", Json.str "3")])]
      = .ok (.str (mergeEnvironmentVariables "A=1\nB=2" "B=9\nC=3")) ∧
    mergeEnvironmentVariables "A=1\nB=2" "B=9\nC=3" = "A=1\nB=9\nC=3" := by
  have h := claim_C5_env_merge
    [("userName", Json.str "Ann"),
     ("environmentVariables", Json.str "A=1\nB=2"),
     ("env", Json.obj [("B", Json.str "9"), ("C", Json.str "3")])]
    [("B", Json.str "9"), ("C", Json.str "3")] "A=1\nB=2"
    rfl (by decide) rfl
  exact ⟨rfl, by decide, h.1, by decide⟩

/-! ## Shared lemmas about `claudianLoad` -/

theorem claudianLoad_spec (s : StoreSt) :
    (∃ v, claudianLoad s = .ok v s [.loadClaudian]) ∨
    claudianLoad s = .err (.parseFailed CLAUDIAN_SETTINGS_PATH) s [.loadClaudian] := by
  unfold claudianLoad
  cases adapterRead s CLAUDIAN_SETTINGS_PATH with
  | none => exact Or.inl ⟨_, rfl⟩
  | some fc =>
    cases fc with
    | corrupt => exact Or.inr rfl
    | json j => exact Or.inl ⟨_, rfl⟩

theorem claudianGetDefaults_userName :
    objGet claudianGetDefaults "userName" = some (.str "") := rfl

theorem claudianLoad_userName_defined (s : StoreSt) (v : JObj) (s' : StoreSt)
    (tr : List StoreEv) (h : claudianLoad s = .ok v s' tr) :
    (objGet v "userName").isSome = true := by
  unfold claudianLoad at h
  cases hr : adapterRead s CLAUDIAN_SETTINGS_PATH with
  | none =>
    rw [hr] at h
    cases h
    decide
  | some fc =>
    cases fc with
    | corrupt => rw [hr] at h; cases h
    | json j =>
      rw [hr] at h
      cases h
      unfold loadObjVal
      rw [objGet_objSet_ne _ _ _ _ (by decide),
          objGet_objSet_ne _ _ _ _ (by decide),
          objGet_objSet_ne _ _ _ _ (by decide)]
      apply objGet_objSpread_isSome
      rw [claudianGetDefaults_userName]
      rfl

/-! ## Claim C6 -/

/-- The three bookkeeping field names migrated from the legacy blob. -/
def stateBookkeepingFields : List String :=
  ["lastEnvHash", "lastClaudeModel", "lastCustomModel"]

/-- One conditional field merge of `migrateFromDataJson`, as a reusable
stepping function (the definition of `mergeStateFields` is definitionally
the composition of three of these). -/
def condMerge (blob c : JObj) (f : String) : JObj :=
  match objGet blob f with
  | some v => if !jsTruthyOpt (objGet c f) then objSet c f v else c
  | none => c

theorem mergeStateFields_eq_condMerge (blob claudian : JObj) :
    mergeStateFields blob claudian =
      condMerge blob (condMerge blob (condMerge blob claudian "lastEnvHash")
        "lastClaudeModel") "lastCustomModel" := rfl

theorem objGet_condMerge_ne (blob c : JObj) (f k : String) (h : f ≠ k) :
    objGet (condMerge blob c f) k = objGet c k := by
  unfold condMerge
  cases objGet blob f with
  | none => rfl
  | some v =>
    by_cases hc : jsTruthyOpt (objGet c f)
    · simp [hc]
    · simp only [hc, Bool.not_false, if_true]
      exact objGet_objSet_ne _ _ _ _ h

theorem objGet_condMerge_self (blob c : JObj) (f : String) :
    objGet (condMerge blob c f) f =
      (match objGet blob f with
       | some v => if !jsTruthyOpt (objGet c f) then some v else objGet c f
       | none => objGet c f) := by
  unfold condMerge
  cases objGet blob f with
  | none => rfl
  | some v =>
    by_cases hc : jsTruthyOpt (objGet c f)
    · simp [hc]
    · simp only [hc, Bool.not_false, if_true]
      exact objGet_objSet_self _ _ _

/-- C6: when the legacy blob carries the bookkeeping fields `lastEnvHash` /
`lastClaudeModel` / `lastCustomModel`, `migrateFromDataJson` merges each into
the loaded PluginSettings only when it is not already set there (the loaded
record carries every key — filled from the defaults — so "present" is a set,
i.e. truthy, value): a set PluginSettings value always wins and the blob
value never overwrites it; a blob field merges exactly when the loaded value
is unset; fields absent from the blob change nothing; keys outside the three
bookkeeping fields are untouched; and the record that `migrateFromDataJson`
actually writes is `mergeStateFields` of the blob and the loaded record. -/
theorem claim_C6_state_migration_precedence (blob claudian : JObj) :
    (∀ f ∈ stateBookkeepingFields, jsTruthyOpt (objGet claudian f) = true →
      objGet (mergeStateFields blob claudian) f = objGet claudian f) ∧
    (∀ f ∈ stateBookkeepingFields, objGet blob f = none →
      objGet (mergeStateFields blob claudian) f = objGet claudian f) ∧
    (∀ f ∈ stateBookkeepingFields, ∀ v, objGet blob f = some v →
      jsTruthyOpt (objGet claudian f) = false →
      objGet (mergeStateFields blob claudian) f = some v) ∧
    (∀ k, k ∉ stateBookkeepingFields →
      objGet (mergeStateFields blob claudian) k = objGet claudian k) ∧
    (∀ env s u s₁ tr, migrateFromDataJson env s blob = .ok u s₁ tr →
      ∃ cl tr₀, claudianLoad s = .ok cl s tr₀ ∧
        StoreEv.write CLAUDIAN_SETTINGS_PATH (.obj (mergeStateFields blob cl)) ∈ tr) := by
  have hget : ∀ f ∈ stateBookkeepingFields,
      objGet (mergeStateFields blob claudian) f =
        (match objGet blob f with
         | some v => if !jsTruthyOpt (objGet claudian f) then some v
                     else objGet claudian f
         | none => objGet claudian f) := by
    intro f hf
    rw [mergeStateFields_eq_condMerge]
    simp only [stateBookkeepingFields, List.mem_cons, List.mem_singleton,
      List.not_mem_nil, or_false] at hf
    rcases hf with hf | hf | hf
    · subst hf
      rw [objGet_condMerge_ne _ _ _ _ (by decide),
          objGet_condMerge_ne _ _ _ _ (by decide), objGet_condMerge_self]
    · subst hf
      rw [objGet_condMerge_ne _ _ _ _ (by decide), objGet_condMerge_self,
          objGet_condMerge_ne _ _ _ _ (by decide)]
    · subst hf
      rw [objGet_condMerge_self, objGet_condMerge_ne _ _ _ _ (by decide),
          objGet_condMerge_ne _ _ _ _ (by decide)]
  refine ⟨?_, ?_, ?_, ?_, ?_⟩
  · intro f hf htr
    rw [hget f hf]
    cases objGet blob f with
    | none => rfl
    | some v => simp [htr]
  · intro f hf hb
    rw [hget f hf, hb]
  · intro f hf v hb htr
    rw [hget f hf, hb]
    simp [htr]
  · intro k hk
    rw [mergeStateFields_eq_condMerge]
    have h1 : ¬ ("lastEnvHash" : String) = k := fun hc =>
      hk (hc ▸ (by decide : ("lastEnvHash" : String) ∈ stateBookkeepingFields))
    have h2 : ¬ ("lastClaudeModel" : String) = k := fun hc =>
      hk (hc ▸ (by decide : ("lastClaudeModel" : String) ∈ stateBookkeepingFields))
    have h3 : ¬ ("lastCustomModel" : String) = k := fun hc =>
      hk (hc ▸ (by decide : ("lastCustomModel" : String) ∈ stateBookkeepingFields))
    rw [objGet_condMerge_ne _ _ _ _ h3, objGet_condMerge_ne _ _ _ _ h2,
        objGet_condMerge_ne _ _ _ _ h1]
  · intro env s u s₁ tr h
    unfold migrateFromDataJson at h
    rcases claudianLoad_spec s with ⟨cl, hcl⟩ | hcl
    · rw [hcl] at h
      refine ⟨cl, [.loadClaudian], hcl, ?_⟩
      unfold claudianSave adapterWrite at h
      dsimp only at h
      by_cases hfw : env.failWrite CLAUDIAN_SETTINGS_PATH
      · rw [if_pos hfw] at h
        exact Out.noConfusion h
      · rw [if_neg hfw] at h
        by_cases hdw : env.dropWrite CLAUDIAN_SETTINGS_PATH
        · rw [if_pos hdw] at h
          dsimp only at h
          cases h
          simp
        · rw [if_neg hdw] at h
          dsimp only at h
          cases h
          simp
    · rw [hcl] at h
      exact Out.noConfusion h

/-- C6 witness: blob carries `lastEnvHash` and `lastCustomModel`; the loaded
settings already have a truthy `lastEnvHash` (it wins) and an empty
`lastCustomModel` (the blob value merges in). -/
theorem claim_C6_witness :
    jsTruthyOpt (objGet [("lastEnvHash", Json.str "keep"),
      ("lastCustomModel", Json.str "")] "lastEnvHash") = true ∧
    objGet (mergeStateFields
        [("lastEnvHash", Json.str "blobH"), ("lastCustomModel", Json.str "blobC")]
        [("lastEnvHash", Json.str "keep"), ("lastCustomModel", Json.str "")])
      "lastEnvHash" = some (Json.str "keep") ∧
    objGet (mergeStateFields
        [("lastEnvHash", Json.str "blobH"), ("lastCustomModel", Json.str "blobC")]
        [("lastEnvHash", Json.str "keep"), ("lastCustomModel", Json.str "")])
      "lastCustomModel" = some (Json.str "blobC") := by
  have h := claim_C6_state_migration_precedence
    [("lastEnvHash", Json.str "blobH"), ("lastCustomModel", Json.str "blobC")]
    [("lastEnvHash", Json.str "keep"), ("lastCustomModel", Json.str "")]
  refine ⟨rfl, ?_, ?_⟩
  · rw [h.1 "lastEnvHash" (by decide) rfl]
    rfl
  · exact h.2.2.1 "lastCustomModel" (by decide) (.str "blobC") rfl rfl

/-! ## Infrastructure: the content-migration loop -/

theorem adapterExists_of_read (s : StoreSt) (p : String) (c : FileContent)
    (h : adapterRead s p = some c) : adapterExists s p = true := by
  unfold adapterRead at h
  unfold adapterExists
  cases hf : s.files.find? (fun f => f.1 == p) with
  | none => rw [hf] at h; cases h
  | some f =>
    rcases List.mem_of_find?_eq_some hf with hmem
    have hkey := List.find?_some hf
    exact List.any_eq_true.mpr ⟨f, hmem, hkey⟩

theorem adapterRead_putFile_preserved (s : StoreSt) (pn p : String)
    (cn : Json) (c : FileContent)
    (hne : adapterExists s pn = false) (h : adapterRead s p = some c) :
    adapterRead (putFile s pn cn) p = some c := by
  unfold putFile
  unfold adapterExists at hne
  rw [show (s.files.any (fun f => f.1 == pn)) = false from hne]
  unfold adapterRead at h ⊢
  simp only [Bool.false_eq_true, if_false]
  rw [List.find?_append]
  cases hf : s.files.find? (fun f => f.1 == p) with
  | none => rw [hf] at h; cases h
  | some f => rw [hf] at h; simpa using h

theorem putFile_blob (s : StoreSt) (p : String) (c : Json) :
    (putFile s p c).blob = s.blob := rfl

theorem migLoop_frame (env : StoreEnv) (pathOf : Json → String) (items : List Json) :
    ∀ s he p c, adapterRead s p = some c →
      adapterRead (migLoop env pathOf items s he).2.1 p = some c := by
  induction items with
  | nil => intro s he p c h; exact h
  | cons item rest ih =>
    intro s he p c h
    unfold migLoop
    by_cases hex : adapterExists s (pathOf item)
    · rw [if_pos hex]; exact ih s he p c h
    · rw [if_neg hex]
      unfold adapterWrite
      by_cases hfw : env.failWrite (pathOf item)
      · rw [if_pos hfw]
        dsimp only
        exact ih s true p c h
      · rw [if_neg hfw]
        by_cases hdw : env.dropWrite (pathOf item)
        · rw [if_pos hdw]
          dsimp only
          exact ih s he p c h
        · rw [if_neg hdw]
          dsimp only
          exact ih _ he p c
            (adapterRead_putFile_preserved s (pathOf item) p item c (by simpa using hex) h)

theorem migLoop_all_exist (env : StoreEnv) (pathOf : Json → String) (items : List Json)
    (s : StoreSt) (he : Bool)
    (h : ∀ item ∈ items, adapterExists s (pathOf item) = true) :
    migLoop env pathOf items s he = (he, s, []) := by
  induction items with
  | nil => rfl
  | cons item rest ih =>
    unfold migLoop
    rw [if_pos (h item (List.mem_cons_self item rest))]
    exact ih (fun it hit => h it (List.mem_cons_of_mem item hit))

theorem migLoop_hadErrors (env : StoreEnv) (pathOf : Json → String) (items : List Json) :
    ∀ s he, (migLoop env pathOf items s he).1 =
      (he || (migLoop env pathOf items s he).2.2.any evIsWriteFail) := by
  induction items with
  | nil => intro s he; simp [migLoop]
  | cons item rest ih =>
    intro s he
    unfold migLoop
    by_cases hex : adapterExists s (pathOf item)
    · rw [if_pos hex]; exact ih s he
    · rw [if_neg hex]
      unfold adapterWrite
      by_cases hfw : env.failWrite (pathOf item)
      · rw [if_pos hfw]
        dsimp only
        rw [ih s true]
        simp [evIsWriteFail]
      · rw [if_neg hfw]
        by_cases hdw : env.dropWrite (pathOf item)
        · rw [if_pos hdw]
          dsimp only
          rw [ih s he]
          simp [evIsWriteFail]
        · rw [if_neg hdw]
          dsimp only
          rw [ih _ he]
          simp [evIsWriteFail]

theorem migLoop_benign (env : StoreEnv) (pathOf : Json → String) (items : List Json) :
    ∀ s he, ((migLoop env pathOf items s he).2.2.any evIsClear = false) ∧
      ((migLoop env pathOf items s he).2.2.any evIsSaveBlob = false) := by
  induction items with
  | nil => intro s he; simp [migLoop]
  | cons item rest ih =>
    intro s he
    unfold migLoop
    by_cases hex : adapterExists s (pathOf item)
    · rw [if_pos hex]; exact ih s he
    · rw [if_neg hex]
      unfold adapterWrite
      by_cases hfw : env.failWrite (pathOf item)
      · rw [if_pos hfw]
        dsimp only
        rcases ih s true with ⟨h1, h2⟩
        constructor <;> simp [evIsClear, evIsSaveBlob, h1, h2]
      · rw [if_neg hfw]
        by_cases hdw : env.dropWrite (pathOf item)
        · rw [if_pos hdw]
          dsimp only
          rcases ih s he with ⟨h1, h2⟩
          constructor <;> simp [evIsClear, evIsSaveBlob, h1, h2]
        · rw [if_neg hdw]
          dsimp only
          rcases ih (putFile s (pathOf item) item) he with ⟨h1, h2⟩
          constructor <;> simp [evIsClear, evIsSaveBlob, h1, h2]

theorem migLoop_blob (env : StoreEnv) (pathOf : Json → String) (items : List Json) :
    ∀ s he, (migLoop env pathOf items s he).2.1.blob = s.blob := by
  induction items with
  | nil => intro s he; rfl
  | cons item rest ih =>
    intro s he
    unfold migLoop
    by_cases hex : adapterExists s (pathOf item)
    · rw [if_pos hex]; exact ih s he
    · rw [if_neg hex]
      unfold adapterWrite
      by_cases hfw : env.failWrite (pathOf item)
      · rw [if_pos hfw]
        dsimp only
        exact ih s true
      · rw [if_neg hfw]
        by_cases hdw : env.dropWrite (pathOf item)
        · rw [if_pos hdw]
          dsimp only
          exact ih s he
        · rw [if_neg hdw]
          dsimp only
          rw [ih _ he, putFile_blob]

theorem content_hadErrors (env : StoreEnv) (s : StoreSt) (blob : JObj) :
    (migrateLegacyDataJsonContent env s blob).1 =
      (migrateLegacyDataJsonContent env s blob).2.2.any evIsWriteFail := by
  unfold migrateLegacyDataJsonContent
  rcases h1 : migLoop env commandFilePath (blobArr blob "slashCommands") s false
    with ⟨he₁, s₁, tr₁⟩
  rcases h2 : migLoop env sessionFilePath (blobArr blob "conversations") s₁ he₁
    with ⟨he₂, s₂, tr₂⟩
  dsimp only
  have e1 := migLoop_hadErrors env commandFilePath (blobArr blob "slashCommands") s false
  rw [h1] at e1
  have e2 := migLoop_hadErrors env sessionFilePath (blobArr blob "conversations") s₁ he₁
  rw [h2] at e2
  dsimp only at e1 e2
  rw [List.any_append, h2]
  dsimp only
  rw [e2, e1]
  simp

/-! ## Claim C7 -/

/-- C7: for every slash command or conversation whose target file already
exists, content migration skips the item — existing file contents are never
modified by the content migration (frame property over every pre-existing
file), and when every item's target exists the migration reports
`hadErrors = false`, changes nothing and emits no event. -/
theorem claim_C7_content_skips_existing (env : StoreEnv) (s : StoreSt) (blob : JObj) :
    (∀ p c, adapterRead s p = some c →
      adapterRead (migrateLegacyDataJsonContent env s blob).2.1 p = some c) ∧
    ((∀ item ∈ blobArr blob "slashCommands",
        adapterExists s (commandFilePath item) = true) →
     (∀ item ∈ blobArr blob "conversations",
        adapterExists s (sessionFilePath item) = true) →
     migrateLegacyDataJsonContent env s blob = (false, s, [])) := by
  constructor
  · intro p c h
    unfold migrateLegacyDataJsonContent
    rcases h1 : migLoop env commandFilePath (blobArr blob "slashCommands") s false
      with ⟨he₁, s₁, tr₁⟩
    have f1 := migLoop_frame env commandFilePath (blobArr blob "slashCommands") s false p c h
    rw [h1] at f1
    rcases h2 : migLoop env sessionFilePath (blobArr blob "conversations") s₁ he₁
      with ⟨he₂, s₂, tr₂⟩
    have f2 := migLoop_frame env sessionFilePath (blobArr blob "conversations") s₁ he₁ p c f1
    rw [h2] at f2
    dsimp only
    rw [h2]
    exact f2
  · intro hcmd hconv
    unfold migrateLegacyDataJsonContent
    rw [migLoop_all_exist env commandFilePath _ s false hcmd]
    dsimp only
    rw [migLoop_all_exist env sessionFilePath _ s false hconv]
    rfl

/-- C7 witness: a blob whose single slash command targets an existing file:
the migration returns no errors, leaves the state untouched, and the file's
content is preserved. -/
theorem claim_C7_witness :
    migrateLegacyDataJsonContent ⟨fun _ => false, fun _ => false⟩
        ⟨[(".claude/commands/review.md", .json (.str "old content"))], none⟩
        [("slashCommands", .arr [.obj [("name", .str "review")]])]
      = (false, ⟨[(".claude/commands/review.md", .json (.str "old content"))], none⟩, []) ∧
    adapterRead (migrateLegacyDataJsonContent ⟨fun _ => false, fun _ => false⟩
        ⟨[(".claude/commands/review.md", .json (.str "old content"))], none⟩
        [("slashCommands", .arr [.obj [("name", .str "review")]])]).2.1
      ".claude/commands/review.md" = some (.json (.str "old content")) := by
  have h := claim_C7_content_skips_existing ⟨fun _ => false, fun _ => false⟩
    ⟨[(".claude/commands/review.md", .json (.str "old content"))], none⟩
    [("slashCommands", .arr [.obj [("name", .str "review")]])]
  refine ⟨?_, ?_⟩
  · apply h.2
    · intro item hitem
      have : item = Json.obj [("name", .str "review")] := by
        simpa [blobArr, objGet] using hitem
      rw [this]
      rfl
    · intro item hitem
      simp [blobArr, objGet] at hitem
  · exact h.1 ".claude/commands/review.md" (.json (.str "old content")) rfl

/-! ## Infrastructure: shape of the split migration -/

theorem envVarsOfOldSettings_error (old : JObj) (e : StoreErr)
    (h : envVarsOfOldSettings old = .error e) : e = .typeError := by
  unfold envVarsOfOldSettings at h
  dsimp only at h
  cases henv : objGet old "env" with
  | none =>
    rw [henv] at h
    exact Except.noConfusion h
  | some v =>
    rw [henv] at h
    cases v with
    | null => exact Except.noConfusion h
    | bool b => exact Except.noConfusion h
    | num n => exact Except.noConfusion h
    | str t => exact Except.noConfusion h
    | obj o =>
      dsimp only at h
      by_cases hc : (convertEnvObjectToString o != "")
      · rw [if_pos hc] at h
        cases hcv : jsCoalesce (objGet old "environmentVariables") (.str "") <;>
          rw [hcv] at h <;>
          first
            | exact Except.noConfusion h
            | (injection h with h2; exact h2.symm)
      · rw [if_neg hc] at h
        exact Except.noConfusion h
    | arr xs =>
      dsimp only at h
      by_cases hc : (convertEnvObjectToString
          (xs.enum.map (fun iv => (toString iv.1, iv.2))) != "")
      · rw [if_pos hc] at h
        cases hcv : jsCoalesce (objGet old "environmentVariables") (.str "") <;>
          rw [hcv] at h <;>
          first
            | exact Except.noConfusion h
            | (injection h with h2; exact h2.symm)
      · rw [if_neg hc] at h
        exact Except.noConfusion h

theorem buildClaudianFields_error (old : JObj) (e : StoreErr)
    (h : buildClaudianFields old = .error e) : e = .typeError := by
  unfold buildClaudianFields at h
  cases hev : envVarsOfOldSettings old with
  | error e2 =>
    rw [hev] at h
    cases h
    exact envVarsOfOldSettings_error old e hev
  | ok v => rw [hev] at h; cases h

theorem adapterWrite_shape (env : StoreEnv) (s : StoreSt) (p : String) (c : Json) :
    adapterWrite env s p c = .err (.writeFailed p) s [.writeFail p] ∨
    ∃ s', adapterWrite env s p c = .ok () s' [.write p c] ∧ s'.blob = s.blob := by
  unfold adapterWrite
  by_cases hfw : env.failWrite p
  · rw [if_pos hfw]; exact Or.inl rfl
  · rw [if_neg hfw]
    by_cases hdw : env.dropWrite p
    · rw [if_pos hdw]; exact Or.inr ⟨s, rfl, rfl⟩
    · rw [if_neg hdw]; exact Or.inr ⟨putFile s p c, rfl, rfl⟩

theorem splitMig_shape (env : StoreEnv) (s : StoreSt) :
    (migrateFromOldSettingsJson env s = .ok () s []) ∨
    (∃ flds cc s',
      migrateFromOldSettingsJson env s =
        .ok () s' [.write CLAUDIAN_SETTINGS_PATH (.obj flds), .loadClaudian,
                   .write CC_SETTINGS_PATH cc] ∧
      s'.blob = s.blob) ∨
    (∃ e s' tr, migrateFromOldSettingsJson env s = .err e s' tr ∧
      e ≠ .verifyFailed ∧ s'.blob = s.blob ∧
      tr.any evIsClear = false ∧ tr.any evIsSaveBlob = false ∧
      tr.any (evIsWriteTo CC_SETTINGS_PATH) = false) := by
  unfold migrateFromOldSettingsJson
  cases hr : adapterRead s CC_SETTINGS_PATH with
  | none =>
    right; right
    refine ⟨_, _, _, rfl, ?_, rfl, rfl, rfl, rfl⟩
    intro hc; cases hc
  | some fc =>
    cases fc with
    | corrupt =>
      right; right
      refine ⟨_, _, _, rfl, ?_, rfl, rfl, rfl, rfl⟩
      intro hc; cases hc
    | json j =>
      dsimp only
      by_cases hcf : (CLAUDIAN_ONLY_FIELDS.any fun f => (objGet (jsObjOf j) f).isSome)
      · rw [show (!(CLAUDIAN_ONLY_FIELDS.any fun f => (objGet (jsObjOf j) f).isSome))
            = false by simp [hcf], if_neg (by simp)]
        cases hbf : buildClaudianFields (jsObjOf j) with
        | error e =>
          dsimp only
          right; right
          refine ⟨e, s, [], rfl, ?_, rfl, rfl, rfl, rfl⟩
          rw [buildClaudianFields_error _ _ hbf]
          intro hc; cases hc
        | ok flds =>
          dsimp only
          unfold claudianSave
          rcases adapterWrite_shape env s CLAUDIAN_SETTINGS_PATH (.obj flds)
            with hw | ⟨s₁, hw, hwb⟩
          · rw [hw]
            right; right
            refine ⟨_, _, _, rfl, ?_, rfl, rfl, rfl, rfl⟩
            intro hc; cases hc
          · rw [hw]
            dsimp only
            rcases claudianLoad_spec s₁ with ⟨v, hcl⟩ | hcl
            · rw [hcl]
              dsimp only
              have husr : ((objGet v "userName").isNone) = false := by
                have hde := claudianLoad_userName_defined s₁ v s₁ [.loadClaudian] hcl
                cases hob : objGet v "userName" with
                | none => rw [hob] at hde; cases hde
                | some w => rfl
              rw [husr, if_neg (by simp)]
              rcases adapterWrite_shape env s₁ CC_SETTINGS_PATH (ccSettingsOf (jsObjOf j))
                with hw2 | ⟨s₂, hw2, hwb2⟩
              · rw [hw2]
                right; right
                refine ⟨_, _, _, rfl, ?_, hwb, ?_, ?_, ?_⟩
                · intro hc; cases hc
                · simp [evIsClear]
                · simp [evIsSaveBlob]
                · simp only [List.any_append]
                  simp only [evIsWriteTo, List.any_cons, List.any_nil]
                  decide
              · rw [hw2]
                right; left
                exact ⟨flds, ccSettingsOf (jsObjOf j), s₂, rfl, by rw [hwb2, hwb]⟩
            · rw [hcl]
              right; right
              refine ⟨_, _, _, rfl, ?_, hwb, ?_, ?_, ?_⟩
              · intro hc; cases hc
              · simp [evIsClear]
              · simp [evIsSaveBlob]
              · show ([StoreEv.write CLAUDIAN_SETTINGS_PATH (Json.obj flds),
                    StoreEv.loadClaudian]).any (evIsWriteTo CC_SETTINGS_PATH) = false
                simp only [List.any_cons, List.any_nil, evIsWriteTo]
                decide
      · rw [show (!(CLAUDIAN_ONLY_FIELDS.any fun f => (objGet (jsObjOf j) f).isSome))
            = true by simp [hcf], if_pos rfl]
        exact Or.inl rfl

/-! ## Claim C10 -/

/-- C10: the split migration's verification-failure branch is unreachable.
`ClaudianSettingsStorage.load()` returns the full default record when the
file is absent and spreads the defaults under any parsed content, so the
read-back `userName` sentinel is always defined and
`migrateFromOldSettingsJson` can never throw the fatal verification error —
in every environment, including ones that throw or silently drop writes.  In
particular, a silently lost write (file absent after save) does not abort
the migration: in the concrete run below the Claudian settings write is
dropped, verification passes against the defaults, the destructive
`settings.json` rewrite still happens, and `claudian-settings.json` still
does not exist afterwards. -/
theorem claim_C10_verify_branch_unreachable :
    (∀ env s, outIsVerifyFailed (migrateFromOldSettingsJson env s) = false) ∧
    (∃ s' tr,
      migrateFromOldSettingsJson
          ⟨fun _ => false, fun p => p == CLAUDIAN_SETTINGS_PATH⟩
          ⟨[(CC_SETTINGS_PATH, .json (.obj [("userName", .str "Ann")]))], none⟩
        = .ok () s' tr ∧
      tr.any (evIsWriteTo CC_SETTINGS_PATH) = true ∧
      adapterRead s' CLAUDIAN_SETTINGS_PATH = none) := by
  constructor
  · intro env s
    rcases splitMig_shape env s with h | ⟨flds, cc, s', h, _⟩ | ⟨e, s', tr, h, hne, _⟩
    · rw [h]; rfl
    · rw [h]; rfl
    · rw [h]
      cases e
      · rfl
      · rfl
      · rfl
      · rfl
      · exact absurd rfl hne
  · exact ⟨_, _, rfl, rfl, rfl⟩

/-! ## Claim C2 -/

/-- Does the split migration respect the verification gate in this run?  If
the run ends in the fatal verification error, `settings.json` must be
byte-identical to its pre-migration content and no write to it may have
happened. -/
def verifyGateHolds (env : StoreEnv) (s : StoreSt) : Prop :=
  match migrateFromOldSettingsJson env s with
  | .err .verifyFailed s' tr =>
      adapterRead s' CC_SETTINGS_PATH = adapterRead s CC_SETTINGS_PATH ∧
      tr.any (evIsWriteTo CC_SETTINGS_PATH) = false
  | _ => True

/-- C2: in every run of the split migration, any write of the AgentSettings
file `settings.json` is strictly preceded in the trace by the PluginSettings
write and by its read-back (the sentinel check sits between the read-back
and the write in the code path); and every run that throws the fatal
verification error leaves `settings.json` byte-identical with no write to it
(`verifyGateHolds`). -/
theorem claim_C2_verify_gate_ordering (env : StoreEnv) (s : StoreSt) :
    (∀ pre c post,
      trOf (migrateFromOldSettingsJson env s) =
        pre ++ StoreEv.write CC_SETTINGS_PATH c :: post →
      (∃ cf, StoreEv.write CLAUDIAN_SETTINGS_PATH cf ∈ pre) ∧
        StoreEv.loadClaudian ∈ pre) ∧
    verifyGateHolds env s := by
  constructor
  · intro pre c post htr
    rcases splitMig_shape env s with h | ⟨flds, cc, s', h, _⟩ |
      ⟨e, s', tr, h, hne, hb, hc2, hs2, hwcc⟩
    · rw [h] at htr
      exact absurd htr (by simp [trOf])
    · rw [h] at htr
      simp only [trOf] at htr
      match pre, htr with
      | [], htr =>
        exfalso
        have h1 := ((List.cons.injEq _ _ _ _).mp htr).1
        injection h1 with hp hc
        exact absurd hp (by decide)
      | [a], htr =>
        exfalso
        have h1 := (List.cons.injEq _ _ _ _).mp htr
        have h2 := (List.cons.injEq _ _ _ _).mp h1.2
        cases h2.1
      | a :: b :: rest, htr =>
        have h1 := (List.cons.injEq _ _ _ _).mp htr
        have h2 := (List.cons.injEq _ _ _ _).mp h1.2
        refine ⟨⟨.obj flds, ?_⟩, ?_⟩
        · rw [← h1.1]; exact List.mem_cons_self _ _
        · rw [← h2.1]; exact List.mem_cons_of_mem _ (List.mem_cons_self _ _)
    · rw [h] at htr
      simp only [trOf] at htr
      have : tr.any (evIsWriteTo CC_SETTINGS_PATH) = true := by
        rw [htr, List.any_append]
        have : evIsWriteTo CC_SETTINGS_PATH (StoreEv.write CC_SETTINGS_PATH c) = true := by
          simp [evIsWriteTo]
        simp [this]
      rw [this] at hwcc
      cases hwcc
  · unfold verifyGateHolds
    rcases splitMig_shape env s with h | ⟨flds, cc, s', h, _⟩ |
      ⟨e, s', tr, h, hne, hb, hc2, hs2, hwcc⟩
    · rw [h]; trivial
    · rw [h]; trivial
    · rw [h]
      cases e
      · trivial
      · trivial
      · trivial
      · trivial
      · exact absurd rfl hne

/-- C2 witness: a run on a legacy combined `settings.json` in a reliable
environment; the trace is exactly PluginSettings write, read-back, then the
`settings.json` rewrite, and the theorem instantiates to the events
preceding that rewrite. -/
theorem claim_C2_witness :
    (∃ cf, StoreEv.write CLAUDIAN_SETTINGS_PATH cf ∈
      [StoreEv.write CLAUDIAN_SETTINGS_PATH
          (.obj ((buildClaudianFields [("userName", Json.str "Ann")]).toOption.getD [])),
        StoreEv.loadClaudian]) ∧
    StoreEv.loadClaudian ∈
      [StoreEv.write CLAUDIAN_SETTINGS_PATH
          (.obj ((buildClaudianFields [("userName", Json.str "Ann")]).toOption.getD [])),
        StoreEv.loadClaudian] := by
  have h := claim_C2_verify_gate_ordering
    ⟨fun _ => false, fun _ => false⟩
    ⟨[(CC_SETTINGS_PATH, .json (.obj [("userName", .str "Ann")]))], none⟩
  exact h.1
    [StoreEv.write CLAUDIAN_SETTINGS_PATH
        (.obj ((buildClaudianFields [("userName", Json.str "Ann")]).toOption.getD [])),
      StoreEv.loadClaudian]
    (ccSettingsOf [("userName", Json.str "Ann")]) [] rfl

/-! ## Infrastructure: shapes for `runMigrations` -/

theorem mfdj_shape (env : StoreEnv) (s : StoreSt) (blob : JObj) :
    (∃ cl s', migrateFromDataJson env s blob =
        .ok () s' [.loadClaudian, .write CLAUDIAN_SETTINGS_PATH
          (.obj (mergeStateFields blob cl))] ∧
      s'.blob = s.blob) ∨
    (∃ e s' tr, migrateFromDataJson env s blob = .err e s' tr ∧ s'.blob = s.blob) := by
  unfold migrateFromDataJson
  rcases claudianLoad_spec s with ⟨v, hcl⟩ | hcl
  · rw [hcl]
    dsimp only
    unfold claudianSave
    rcases adapterWrite_shape env s CLAUDIAN_SETTINGS_PATH
      (.obj (mergeStateFields blob v)) with hw | ⟨s₁, hw, hwb⟩
    · rw [hw]
      exact Or.inr ⟨_, _, _, rfl, rfl⟩
    · rw [hw]
      exact Or.inl ⟨v, s₁, rfl, hwb⟩
  · rw [hcl]
    exact Or.inr ⟨_, _, _, rfl, rfl⟩

theorem content_blob (env : StoreEnv) (s : StoreSt) (blob : JObj) :
    (migrateLegacyDataJsonContent env s blob).2.1.blob = s.blob := by
  unfold migrateLegacyDataJsonContent
  rcases h1 : migLoop env commandFilePath (blobArr blob "slashCommands") s false
    with ⟨he₁, s₁, tr₁⟩
  rcases h2 : migLoop env sessionFilePath (blobArr blob "conversations") s₁ he₁
    with ⟨he₂, s₂, tr₂⟩
  dsimp only
  have b1 := migLoop_blob env commandFilePath (blobArr blob "slashCommands") s false
  rw [h1] at b1
  have b2 := migLoop_blob env sessionFilePath (blobArr blob "conversations") s₁ he₁
  rw [h2] at b2
  dsimp only at b1 b2
  rw [h2]
  dsimp only
  rw [b2, b1]

theorem content_benign (env : StoreEnv) (s : StoreSt) (blob : JObj) :
    ((migrateLegacyDataJsonContent env s blob).2.2.any evIsClear = false) ∧
    ((migrateLegacyDataJsonContent env s blob).2.2.any evIsSaveBlob = false) := by
  unfold migrateLegacyDataJsonContent
  rcases h1 : migLoop env commandFilePath (blobArr blob "slashCommands") s false
    with ⟨he₁, s₁, tr₁⟩
  rcases h2 : migLoop env sessionFilePath (blobArr blob "conversations") s₁ he₁
    with ⟨he₂, s₂, tr₂⟩
  dsimp only
  have p1 := migLoop_benign env commandFilePath (blobArr blob "slashCommands") s false
  rw [h1] at p1
  have p2 := migLoop_benign env sessionFilePath (blobArr blob "conversations") s₁ he₁
  rw [h2] at p2
  dsimp only at p1 p2
  rw [h2]
  dsimp only
  constructor
  · rw [List.any_append, p1.1, p2.1]
    rfl
  · rw [List.any_append, p1.2, p2.2]
    rfl

theorem clearLegacy_shape (s : StoreSt) (blob : JObj) (h : s.blob = some blob) :
    clearLegacyDataJson s =
      ({ s with blob := some (blob.filter (fun kv =>
          !(consumedLegacyKeys.any (fun k => k == kv.1)))) },
       [.clearCalled, .saveBlob (blob.filter (fun kv =>
          !(consumedLegacyKeys.any (fun k => k == kv.1))))]) := by
  unfold clearLegacyDataJson
  rw [h]

/-- Prepend already-accumulated events to an outcome's trace. -/
def prependTr {α : Type} (tr₁ : List StoreEv) : Out α → Out α
  | .ok a s tr => .ok a s (tr₁ ++ tr)
  | .err e s tr => .err e s (tr₁ ++ tr)

/-- The legacy-blob phase of `runMigrations` (steps 2–5 of the source):
state migration, content migration, and the gated clear. -/
def blobPhase (env : StoreEnv) (s₁ : StoreSt) (blob : JObj) : Out Unit :=
  match (if hasStateToMigrate blob then migrateFromDataJson env s₁ blob
         else .ok () s₁ []) with
  | .err e s2 tr2 => .err e s2 tr2
  | .ok _ s₂ tr₂ =>
    let res := if hasLegacyContentToMigrate blob
               then migrateLegacyDataJsonContent env s₂ blob
               else (false, s₂, ([] : List StoreEv))
    if (hasStateToMigrate blob || hasLegacyContentToMigrate blob) && !res.1 then
      .ok () (clearLegacyDataJson res.2.1).1 (tr₂ ++ res.2.2 ++ (clearLegacyDataJson res.2.1).2)
    else .ok () res.2.1 (tr₂ ++ res.2.2)

/-- `runMigrations` factored: the split-migration step, then — when the blob
is present — the blob phase with the split step's trace prepended. -/
theorem runMigrations_factor (env : StoreEnv) (s : StoreSt) :
    runMigrations env s =
      match (if adapterExists s CC_SETTINGS_PATH &&
               !adapterExists s CLAUDIAN_SETTINGS_PATH
             then migrateFromOldSettingsJson env s else .ok () s []) with
      | .err e s' tr => .err e s' tr
      | .ok _ s₁ tr₁ =>
        match s.blob with
        | none => .ok () s₁ tr₁
        | some blob => prependTr tr₁ (blobPhase env s₁ blob) := by
  unfold runMigrations blobPhase
  dsimp only
  cases hstep : (if adapterExists s CC_SETTINGS_PATH &&
      !adapterExists s CLAUDIAN_SETTINGS_PATH
    then migrateFromOldSettingsJson env s else Out.ok () s []) with
  | err e s' tr => rfl
  | ok u s₁ tr₁ =>
    dsimp only
    cases s.blob with
    | none => rfl
    | some blob =>
      dsimp only
      cases hstep2 : (if hasStateToMigrate blob then migrateFromDataJson env s₁ blob
          else Out.ok () s₁ []) with
      | err e s2 tr2 => rfl
      | ok u2 s₂ tr₂ =>
        dsimp only [prependTr]
        rcases hres : (if hasLegacyContentToMigrate blob
            then migrateLegacyDataJsonContent env s₂ blob
            else (false, s₂, ([] : List StoreEv))) with ⟨he, s₃, tr₃⟩
        dsimp only
        by_cases hifc : ((hasStateToMigrate blob || hasLegacyContentToMigrate blob) && !he)
        · rw [if_pos hifc, if_pos hifc]
          rcases clearLegacyDataJson s₃ with ⟨s₄, tr₄⟩
          dsimp only [prependTr]
          rw [List.append_assoc, List.append_assoc, List.append_assoc]
        · rw [if_neg hifc, if_neg hifc]
          dsimp only [prependTr]
          rw [List.append_assoc]

/-- Gating behaviour of the blob phase: the clear step runs — equivalently,
`clearCalled` is in the trace — exactly when some blob migration was
applicable and no per-item write failed; and any write failure leaves the
blob untouched. -/
theorem blobPhase_gating (env : StoreEnv) (s₁ : StoreSt) (blob : JObj)
    (hblob₁ : s₁.blob = some blob) :
    ∀ u s' tr, blobPhase env s₁ blob = .ok u s' tr →
      ((StoreEv.clearCalled ∈ tr ↔
        ((hasStateToMigrate blob || hasLegacyContentToMigrate blob) = true ∧
          tr.any evIsWriteFail = false)) ∧
       (tr.any evIsWriteFail = true → s'.blob = some blob) ∧
       (StoreEv.clearCalled ∉ tr → s'.blob = some blob)) := by
  intro u s' tr h
  unfold blobPhase at h
  -- step 2: state migration
  have hstep2 : ∃ s₂ tr₂, (if hasStateToMigrate blob then migrateFromDataJson env s₁ blob
      else Out.ok () s₁ []) = .ok () s₂ tr₂ ∧ s₂.blob = some blob ∧
      tr₂.any evIsClear = false ∧ tr₂.any evIsWriteFail = false := by
    by_cases hs : hasStateToMigrate blob
    · rw [if_pos hs]
      rcases mfdj_shape env s₁ blob with ⟨cl, s₂, hm, hb⟩ | ⟨e, s₂, tr₂, hm, hb⟩
      · exact ⟨s₂, _, hm, by rw [hb, hblob₁], rfl, rfl⟩
      · rw [if_pos hs] at h
        rw [hm] at h
        exact absurd h (by intro hc; cases hc)
    · rw [if_neg hs]
      exact ⟨s₁, [], rfl, hblob₁, rfl, rfl⟩
  rcases hstep2 with ⟨s₂, tr₂, hstep2, hb₂, hcl₂, hwf₂⟩
  rw [hstep2] at h
  dsimp only at h
  -- step 3: content migration
  have hcontent : ∃ he s₃ tr₃, (if hasLegacyContentToMigrate blob
      then migrateLegacyDataJsonContent env s₂ blob
      else (false, s₂, ([] : List StoreEv))) = (he, s₃, tr₃) ∧ s₃.blob = some blob ∧
      tr₃.any evIsClear = false ∧ he = tr₃.any evIsWriteFail := by
    by_cases hc : hasLegacyContentToMigrate blob
    · rw [if_pos hc]
      refine ⟨(migrateLegacyDataJsonContent env s₂ blob).1,
              (migrateLegacyDataJsonContent env s₂ blob).2.1,
              (migrateLegacyDataJsonContent env s₂ blob).2.2, rfl, ?_, ?_, ?_⟩
      · rw [content_blob, hb₂]
      · exact (content_benign env s₂ blob).1
      · exact content_hadErrors env s₂ blob
    · rw [if_neg hc]
      exact ⟨false, s₂, [], rfl, hb₂, rfl, rfl⟩
  rcases hcontent with ⟨he, s₃, tr₃, hcontent, hb₃, hcl₃, hhe⟩
  rw [hcontent] at h
  dsimp only at h
  by_cases hifc : ((hasStateToMigrate blob || hasLegacyContentToMigrate blob) && !he)
  · rw [if_pos hifc] at h
    rw [clearLegacy_shape s₃ blob hb₃] at h
    dsimp only at h
    injection h with hu hs' htr
    subst hs'
    subst htr
    have hmem : StoreEv.clearCalled ∈
        tr₂ ++ tr₃ ++ [StoreEv.clearCalled, StoreEv.saveBlob
          (blob.filter (fun kv => !(consumedLegacyKeys.any (fun k => k == kv.1))))] := by
      simp
    have hand := Bool.and_eq_true_iff.mp hifc
    have hhe0 : he = false := by
      rcases hand with ⟨_, h2⟩
      cases he
      · rfl
      · cases h2
    refine ⟨?_, ?_, ?_⟩
    · constructor
      · intro _
        refine ⟨hand.1, ?_⟩
        rw [List.any_append, List.any_append, hwf₂]
        rw [hhe0] at hhe
        rw [← hhe]
        rfl
      · intro _
        exact hmem
    · intro hwf
      rw [List.any_append, List.any_append, hwf₂] at hwf
      rw [hhe0] at hhe
      rw [← hhe] at hwf
      simp [evIsWriteFail] at hwf
    · intro hnc
      exact absurd hmem hnc
  · rw [if_neg hifc] at h
    injection h with hu hs' htr
    subst hs'
    subst htr
    have hnomem : StoreEv.clearCalled ∉ tr₂ ++ tr₃ := by
      intro hc
      rcases List.mem_append.mp hc with hc | hc
      · have : (tr₂.any evIsClear) = true := List.any_eq_true.mpr ⟨_, hc, rfl⟩
        rw [hcl₂] at this; cases this
      · have : (tr₃.any evIsClear) = true := List.any_eq_true.mpr ⟨_, hc, rfl⟩
        rw [hcl₃] at this; cases this
    refine ⟨?_, ?_, ?_⟩
    · constructor
      · intro hc
        exact absurd hc hnomem
      · rintro ⟨h1, h2⟩
        exfalso
        rw [List.any_append, hwf₂] at h2
        simp only [Bool.false_or] at h2
        have hhe1 : he = true := by
          by_contra hne
          have hf : he = false := by
            cases he
            · rfl
            · exact absurd rfl hne
          apply hifc
          rw [hf, h1]
          rfl
        have hf3 : tr₃.any evIsWriteFail = true := by rw [← hhe, hhe1]
        rw [hf3] at h2
        cases h2
    · intro _; exact hb₃
    · intro _; exact hb₃

/-! ## Claim C1 -/

/-- C1: in every completed `runMigrations` run with the legacy blob present,
`clearLegacyDataJson` is invoked (equivalently, `clearCalled` is in the
trace) if and only if at least one of the two blob migrations was applicable
(the blob had state bookkeeping fields OR inline slash-command/conversation
content) AND no per-item content write threw; and whenever some item's write
threw, the blob is left exactly as it was. -/
theorem claim_C1_clear_gating (env : StoreEnv) (s : StoreSt) (blob : JObj)
    (u : Unit) (s' : StoreSt) (tr : List StoreEv)
    (hblob : s.blob = some blob)
    (h : runMigrations env s = .ok u s' tr) :
    ((StoreEv.clearCalled ∈ tr) ↔
      ((hasStateToMigrate blob || hasLegacyContentToMigrate blob) = true ∧
        tr.any evIsWriteFail = false)) ∧
    (tr.any evIsWriteFail = true → s'.blob = some blob) := by
  rw [runMigrations_factor] at h
  have hstep1 : ∃ s₁ tr₁,
      (if adapterExists s CC_SETTINGS_PATH && !adapterExists s CLAUDIAN_SETTINGS_PATH
       then migrateFromOldSettingsJson env s else Out.ok () s []) = .ok () s₁ tr₁ ∧
      s₁.blob = some blob ∧ tr₁.any evIsClear = false ∧
      tr₁.any evIsWriteFail = false := by
    by_cases hcc : (adapterExists s CC_SETTINGS_PATH &&
        !adapterExists s CLAUDIAN_SETTINGS_PATH)
    · rw [if_pos hcc]
      rcases splitMig_shape env s with hsp | ⟨flds, cc, s₁x, hsp, hb⟩ |
        ⟨e, s₁x, trx, hsp, _, _, _, _, _⟩
      · exact ⟨s, [], hsp, hblob, rfl, rfl⟩
      · exact ⟨s₁x, _, hsp, by rw [hb, hblob], rfl, rfl⟩
      · rw [if_pos hcc] at h
        rw [hsp] at h
        dsimp only at h
        exact Out.noConfusion h
    · rw [if_neg hcc]
      exact ⟨s, [], rfl, hblob, rfl, rfl⟩
  rcases hstep1 with ⟨s₁, tr₁, hstep1, hb₁, hcl₁, hwf₁⟩
  rw [hstep1] at h
  dsimp only at h
  rw [hblob] at h
  dsimp only at h
  cases hbp : blobPhase env s₁ blob with
  | err e s2 tr2 =>
    rw [hbp] at h
    unfold prependTr at h
    exact Out.noConfusion h
  | ok u2 s2 tr2 =>
    rw [hbp] at h
    unfold prependTr at h
    injection h with hu hs htr
    subst hs
    subst htr
    have hg := blobPhase_gating env s₁ blob hb₁ u2 s2 tr2 hbp
    have hnc₁ : StoreEv.clearCalled ∉ tr₁ := by
      intro hc
      have : tr₁.any evIsClear = true := List.any_eq_true.mpr ⟨_, hc, rfl⟩
      rw [hcl₁] at this
      cases this
    have hmem : (StoreEv.clearCalled ∈ tr₁ ++ tr2) ↔ StoreEv.clearCalled ∈ tr2 := by
      constructor
      · intro hc
        rcases List.mem_append.mp hc with hc | hc
        · exact absurd hc hnc₁
        · exact hc
      · intro hc
        exact List.mem_append.mpr (Or.inr hc)
    have hany : (tr₁ ++ tr2).any evIsWriteFail = tr2.any evIsWriteFail := by
      rw [List.any_append, hwf₁]
      rfl
    constructor
    · rw [hmem, hany]
      exact hg.1
    · intro hwf
      rw [hany] at hwf
      exact hg.2.1 hwf

/-- C1 witness: a blob with one slash command whose target write fails: the
run completes with the failed write in the trace, and the theorem — applied
at this concrete run — shows the clear step cannot have been invoked. -/
theorem claim_C1_witness :
    StoreEv.clearCalled ∉ ([StoreEv.writeFail ".claude/commands/review.md"] : List StoreEv) := by
  have h := claim_C1_clear_gating
    ⟨fun p => p == ".claude/commands/review.md", fun _ => false⟩
    ⟨[], some [("slashCommands", .arr [.obj [("name", .str "review")]])]⟩
    [("slashCommands", .arr [.obj [("name", .str "review")]])]
    () ⟨[], some [("slashCommands", .arr [.obj [("name", .str "review")]])]⟩
    [StoreEv.writeFail ".claude/commands/review.md"]
    rfl rfl
  intro hc
  exact absurd (h.1.mp hc).2 (by decide)

/-! ## Infrastructure: the entity file paths never alias the settings files -/

/-- The outcome's final state. -/
def stOf {α : Type} : Out α → StoreSt
  | .ok _ s _ => s
  | .err _ s _ => s

theorem string_ne_of_data_get (s t : String) (i : Nat) (c₁ c₂ : Char)
    (h₁ : s.data.get? i = some c₁) (h₂ : t.data.get? i = some c₂) (hne : c₁ ≠ c₂) :
    s ≠ t := by
  intro h
  subst h
  rw [h₁] at h₂
  injection h₂ with h₂
  exact hne h₂

theorem entityPath_get (pre mid : String) (n suf : String) (i : Nat)
    (h₁ : i < pre.length) (c : Char) (hc : pre.data.get? i = some c) :
    (pre ++ mid ++ n ++ suf).data.get? i = some c := by
  rw [String.data_append, String.data_append, String.data_append]
  have h₁' : i < pre.data.length := h₁
  rw [List.get?_append, List.get?_append, List.get?_append]
  · exact hc
  · exact h₁'
  · rw [List.length_append]
    omega
  · rw [List.length_append, List.length_append]
    omega

theorem commandFilePath_ne_cc (item : Json) :
    commandFilePath item ≠ CC_SETTINGS_PATH := by
  apply string_ne_of_data_get _ _ 8 'c' 's'
  · exact entityPath_get ".claude/commands" "/" _ ".md" 8 (by decide) 'c' (by decide)
  · decide
  · decide

theorem commandFilePath_ne_claudian (item : Json) :
    commandFilePath item ≠ CLAUDIAN_SETTINGS_PATH := by
  apply string_ne_of_data_get _ _ 9 'o' 'l'
  · exact entityPath_get ".claude/commands" "/" _ ".md" 9 (by decide) 'o' (by decide)
  · decide
  · decide

theorem sessionFilePath_ne_cc (item : Json) :
    sessionFilePath item ≠ CC_SETTINGS_PATH := by
  apply string_ne_of_data_get _ _ 10 's' 't'
  · exact entityPath_get ".claude/sessions" "/" _ ".jsonl" 10 (by decide) 's' (by decide)
  · decide
  · decide

theorem sessionFilePath_ne_claudian (item : Json) :
    sessionFilePath item ≠ CLAUDIAN_SETTINGS_PATH := by
  apply string_ne_of_data_get _ _ 9 'e' 'l'
  · exact entityPath_get ".claude/sessions" "/" _ ".jsonl" 9 (by decide) 'e' (by decide)
  · decide
  · decide

/-! ## Infrastructure: key-order lemmas for JS objects -/

/-- The ordered key list of an object. -/
def keysOf (o : JObj) : List String :=
  o.map (fun kv => kv.1)

theorem anyKey_iff_mem (o : JObj) (k : String) :
    (o.any (fun kv => kv.1 == k)) = true ↔ k ∈ keysOf o := by
  rw [List.any_eq_true]
  constructor
  · rintro ⟨kv, hkv, hk⟩
    have : kv.1 = k := by simpa using hk
    exact this ▸ List.mem_map_of_mem _ hkv
  · intro h
    rcases List.mem_map.mp h with ⟨kv, hkv, hk⟩
    exact ⟨kv, hkv, by simpa using hk⟩

theorem objGet_isSome_iff_mem_keys (o : JObj) (k : String) :
    (objGet o k).isSome = true ↔ k ∈ keysOf o := by
  constructor
  · intro h
    cases hg : objGet o k with
    | none => rw [hg] at h; cases h
    | some v =>
      by_contra hmem
      have : ∀ kv ∈ o, kv.1 ≠ k := by
        intro kv hkv hc
        exact hmem (hc ▸ List.mem_map_of_mem _ hkv)
      rw [(objGet_eq_none_iff o k).mpr this] at hg
      cases hg
  · intro h
    rcases List.mem_map.mp h with ⟨kv, hkv, hk⟩
    exact hk ▸ objGet_isSome_of_mem o kv.1 kv.2 (by
      have : kv = (kv.1, kv.2) := rfl
      rw [← this]; exact hkv)

theorem keysOf_objSet_mem (o : JObj) (k : String) (v : Json) (h : k ∈ keysOf o) :
    keysOf (objSet o k v) = keysOf o := by
  unfold objSet
  rw [if_pos ((anyKey_iff_mem o k).mpr h)]
  unfold keysOf
  rw [List.map_map]
  apply List.map_congr_left
  intro kv _
  by_cases hk : kv.1 = k
  · simp [hk]
  · simp only [Function.comp_apply, show (kv.1 == k) = false by simpa using hk,
      Bool.false_eq_true, if_false]

theorem keysOf_objSet_not_mem (o : JObj) (k : String) (v : Json) (h : k ∉ keysOf o) :
    keysOf (objSet o k v) = keysOf o ++ [k] := by
  unfold objSet
  rw [if_neg (fun hc => h ((anyKey_iff_mem o k).mp hc))]
  unfold keysOf
  rw [List.map_append]
  rfl

theorem keysOf_objSet_nodup (o : JObj) (k : String) (v : Json)
    (h : (keysOf o).Nodup) : (keysOf (objSet o k v)).Nodup := by
  by_cases hm : k ∈ keysOf o
  · rw [keysOf_objSet_mem o k v hm]; exact h
  · rw [keysOf_objSet_not_mem o k v hm]
    rw [List.nodup_append]
    exact ⟨h, List.nodup_singleton k, fun x hx => by
      simp only [List.mem_singleton]
      intro hc
      exact hm (hc ▸ hx)⟩

theorem keysOf_cons (hd : String × Json) (tl : JObj) :
    keysOf (hd :: tl) = hd.1 :: keysOf tl := rfl

theorem map_objSetFn_eq_self (o : JObj) (k : String) (v : Json)
    (hget : objGet o k = some v) (hnd : (keysOf o).Nodup) :
    o.map (fun kv => if kv.1 == k then (k, v) else kv) = o := by
  induction o with
  | nil => rfl
  | cons hd tl ih =>
    rw [keysOf_cons, List.nodup_cons] at hnd
    rw [List.map_cons]
    by_cases hk : hd.1 = k
    · have hv : hd.2 = v := by
        unfold objGet at hget
        simp only [List.find?, show (hd.1 == k) = true by simpa using hk] at hget
        injection hget
      have hknotl : k ∉ keysOf tl := by
        intro hc
        exact hnd.1 (by rw [hk]; exact hc)
      rw [show (hd.1 == k) = true by simpa using hk]
      simp only [if_true]
      have htl : tl.map (fun kv => if kv.1 == k then (k, v) else kv) = tl := by
        have hcongr : ∀ kv ∈ tl, (if kv.1 == k then (k, v) else kv) = id kv := by
          intro kv hkv
          have : ¬ kv.1 = k := by
            intro hc
            exact hknotl (hc ▸ List.mem_map_of_mem _ hkv)
          simp [this]
        rw [List.map_congr_left hcongr, List.map_id]
      rw [htl]
      congr 1
      cases hd with
      | mk a b =>
        simp only at hk hv
        rw [hk, hv]
    · have hget' : objGet tl k = some v := by
        unfold objGet at hget ⊢
        simp only [List.find?, show (hd.1 == k) = false by simpa using hk] at hget
        exact hget
      rw [show (hd.1 == k) = false by simpa using hk]
      simp only [Bool.false_eq_true, if_false]
      rw [ih hget' hnd.2]

theorem objSet_eq_self_of_get (o : JObj) (k : String) (v : Json)
    (hget : objGet o k = some v) (hnd : (keysOf o).Nodup) : objSet o k v = o := by
  have hmem : k ∈ keysOf o :=
    (objGet_isSome_iff_mem_keys o k).mp (by rw [hget]; rfl)
  unfold objSet
  rw [if_pos ((anyKey_iff_mem o k).mpr hmem)]
  exact map_objSetFn_eq_self o k v hget hnd

theorem objSet_entries (o : JObj) (k : String) (v : Json) (kv : String × Json)
    (hkv : kv ∈ objSet o k v) (hk : kv.1 = k) : kv = (k, v) := by
  unfold objSet at hkv
  by_cases ha : o.any (fun kv => kv.1 == k)
  · rw [if_pos ha] at hkv
    rcases List.mem_map.mp hkv with ⟨kv0, _, hkv0⟩
    by_cases hk0 : kv0.1 = k
    · rw [show (kv0.1 == k) = true by simpa using hk0] at hkv0
      simp only [if_true] at hkv0
      rw [← hkv0]
    · rw [show (kv0.1 == k) = false by simpa using hk0] at hkv0
      simp only [Bool.false_eq_true, if_false] at hkv0
      exact absurd (hkv0 ▸ hk) hk0
  · rw [if_neg ha] at hkv
    rcases List.mem_append.mp hkv with hm | hm
    · exfalso
      exact ha (List.any_eq_true.mpr ⟨kv, hm, by simpa using hk⟩)
    · exact List.mem_singleton.mp hm

theorem objSet_eq_self_of_entries (o : JObj) (k : String) (v : Json)
    (hmem : k ∈ keysOf o)
    (hent : ∀ kv ∈ o, kv.1 = k → kv = (k, v)) : objSet o k v = o := by
  unfold objSet
  rw [if_pos ((anyKey_iff_mem o k).mpr hmem)]
  have hcongr : ∀ kv ∈ o, (if kv.1 == k then (k, v) else kv) = id kv := by
    intro kv hkv
    by_cases hk : kv.1 = k
    · rw [show (kv.1 == k) = true by simpa using hk]
      simp only [if_true, id]
      exact (hent kv hkv hk).symm
    · simp [show (kv.1 == k) = false by simpa using hk]
  rw [List.map_congr_left hcongr, List.map_id]

theorem objSet_objSet_same (o : JObj) (k : String) (v : Json) :
    objSet (objSet o k v) k v = objSet o k v := by
  have hmem : k ∈ keysOf (objSet o k v) := by
    apply (objGet_isSome_iff_mem_keys _ k).mp
    rw [objGet_objSet_self]
    rfl
  exact objSet_eq_self_of_entries _ k v hmem (objSet_entries o k v)

theorem objSet_cons_ne (x : String × Json) (t : JObj) (k : String) (v : Json)
    (h : x.1 ≠ k) : objSet (x :: t) k v = x :: objSet t k v := by
  unfold objSet
  have hx : (x.1 == k) = false := by simpa using h
  simp only [List.any_cons, hx, Bool.false_or]
  cases ha : t.any (fun kv => kv.1 == k) with
  | true => simp only [if_true, List.map_cons, hx, Bool.false_eq_true, if_false]
  | false => simp only [Bool.false_eq_true, if_false, List.cons_append]

theorem objGet_eq_none_iff_not_mem_keys (o : JObj) (k : String) :
    objGet o k = none ↔ k ∉ keysOf o := by
  constructor
  · intro h hm
    have := (objGet_isSome_iff_mem_keys o k).mpr hm
    rw [h] at this
    cases this
  · intro hm
    cases hg : objGet o k with
    | none => rfl
    | some v =>
      exact absurd ((objGet_isSome_iff_mem_keys o k).mp (by rw [hg]; rfl)) hm

theorem objDelete_eq_self_of_none (o : JObj) (k : String)
    (h : objGet o k = none) : objDelete o k = o := by
  unfold objDelete
  have hall := (objGet_eq_none_iff o k).mp h
  apply List.filter_eq_self.mpr
  intro kv hkv
  simpa using hall kv hkv

theorem keysOf_objDelete_not_mem (o : JObj) (k : String) :
    k ∉ keysOf (objDelete o k) := by
  intro hm
  rcases List.mem_map.mp hm with ⟨kv, hkv, hk⟩
  rcases List.mem_filter.mp hkv with ⟨_, hcond⟩
  rw [hk] at hcond
  simp at hcond

theorem mem_keysOf_objSet (o : JObj) (k k' : String) (v : Json)
    (h : k' ∈ keysOf (objSet o k v)) : k' ∈ keysOf o ∨ k' = k := by
  by_cases hm : k ∈ keysOf o
  · rw [keysOf_objSet_mem o k v hm] at h
    exact Or.inl h
  · rw [keysOf_objSet_not_mem o k v hm] at h
    rcases List.mem_append.mp h with h | h
    · exact Or.inl h
    · exact Or.inr (List.mem_singleton.mp h)

theorem objSpread_nil (a : JObj) : objSpread a [] = a := rfl

theorem objSpread_cons (a : JObj) (hd : String × Json) (tl : JObj) :
    objSpread a (hd :: tl) = objSpread (objSet a hd.1 hd.2) tl := rfl

theorem keysOf_objSpread_exists (b : JObj) :
    ∀ a : JObj, ∃ r, keysOf (objSpread a b) = keysOf a ++ r := by
  induction b with
  | nil => intro a; exact ⟨[], by rw [objSpread_nil, List.append_nil]⟩
  | cons hd tl ih =>
    intro a
    rw [objSpread_cons]
    rcases ih (objSet a hd.1 hd.2) with ⟨r, hr⟩
    by_cases hm : hd.1 ∈ keysOf a
    · exact ⟨r, by rw [hr, keysOf_objSet_mem a hd.1 hd.2 hm]⟩
    · refine ⟨[hd.1] ++ r, ?_⟩
      rw [hr, keysOf_objSet_not_mem a hd.1 hd.2 hm, List.append_assoc]

theorem mem_keysOf_objSpread (b : JObj) :
    ∀ a k, k ∈ keysOf (objSpread a b) → k ∈ keysOf a ∨ k ∈ keysOf b := by
  induction b with
  | nil => intro a k h; exact Or.inl h
  | cons hd tl ih =>
    intro a k h
    rw [objSpread_cons] at h
    rcases ih (objSet a hd.1 hd.2) k h with h | h
    · rcases mem_keysOf_objSet a hd.1 k hd.2 h with h | h
      · exact Or.inl h
      · exact Or.inr (by rw [keysOf_cons, h]; exact List.mem_cons_self _ _)
    · exact Or.inr (by rw [keysOf_cons]; exact List.mem_cons_of_mem _ h)

theorem keysOf_objSpread_nodup (b : JObj) :
    ∀ a, (keysOf a).Nodup → (keysOf (objSpread a b)).Nodup := by
  induction b with
  | nil => intro a h; exact h
  | cons hd tl ih =>
    intro a h
    rw [objSpread_cons]
    exact ih (objSet a hd.1 hd.2) (keysOf_objSet_nodup a hd.1 hd.2 h)

theorem objSpread_cons_ne (b : JObj) :
    ∀ (y : String × Json) (a : JObj), (∀ kv ∈ b, kv.1 ≠ y.1) →
      objSpread (y :: a) b = y :: objSpread a b := by
  induction b with
  | nil => intro y a _; rfl
  | cons hd tl ih =>
    intro y a hne
    rw [objSpread_cons, objSpread_cons]
    rw [objSet_cons_ne y a hd.1 hd.2
      (fun hc => hne hd (List.mem_cons_self _ _) hc.symm)]
    exact ih y (objSet a hd.1 hd.2) (fun kv hkv => hne kv (List.mem_cons_of_mem _ hkv))

theorem objSpread_fresh (b : JObj) :
    ∀ a, (keysOf b).Nodup → (∀ k ∈ keysOf b, k ∉ keysOf a) →
      objSpread a b = a ++ b := by
  induction b with
  | nil => intro a _ _; rw [objSpread_nil, List.append_nil]
  | cons hd tl ih =>
    intro a hnd hfr
    rw [keysOf_cons, List.nodup_cons] at hnd
    rw [objSpread_cons]
    have hset : objSet a hd.1 hd.2 = a ++ [hd] := by
      unfold objSet
      rw [if_neg (fun hc =>
        hfr hd.1 (by rw [keysOf_cons]; exact List.mem_cons_self _ _)
          ((anyKey_iff_mem a hd.1).mp hc))]
    have hfr' : ∀ k ∈ keysOf tl, k ∉ keysOf (a ++ [hd]) := by
      intro k hk hm
      unfold keysOf at hm
      rw [List.map_append] at hm
      rcases List.mem_append.mp hm with hm | hm
      · exact hfr k (by rw [keysOf_cons]; exact List.mem_cons_of_mem _ hk) hm
      · have : k = hd.1 := by simpa using hm
        exact hnd.1 (this ▸ hk)
    rw [hset, ih (a ++ [hd]) hnd.2 hfr', List.append_assoc]
    rfl

theorem objSpread_absorb_split (b₁ : JObj) :
    ∀ (a b₂ : JObj), keysOf a = keysOf b₁ → (keysOf (b₁ ++ b₂)).Nodup →
      objSpread a (b₁ ++ b₂) = b₁ ++ b₂ := by
  induction b₁ with
  | nil =>
    intro a b₂ hka hnd
    have ha : a = [] := by
      cases a with
      | nil => rfl
      | cons x t => cases hka
    subst ha
    rw [List.nil_append]
    rw [List.nil_append] at hnd
    rw [objSpread_fresh b₂ [] hnd (fun k _ hc => by cases hc)]
    rfl
  | cons y b₁' ih =>
    intro a b₂ hka hnd
    cases a with
    | nil => cases hka
    | cons x a' =>
      rw [keysOf_cons, keysOf_cons] at hka
      have hxy : x.1 = y.1 := (List.cons.injEq _ _ _ _).mp hka |>.1
      have hka' : keysOf a' = keysOf b₁' := (List.cons.injEq _ _ _ _).mp hka |>.2
      have hnd' : (keysOf ((y :: b₁') ++ b₂)).Nodup := hnd
      rw [List.cons_append] at hnd'
      rw [keysOf_cons, List.nodup_cons] at hnd'
      have hstep : objSet (x :: a') y.1 y.2 = y :: a' := by
        unfold objSet
        rw [if_pos (by
          apply List.any_eq_true.mpr
          exact ⟨x, List.mem_cons_self _ _, by simpa using hxy⟩)]
        rw [List.map_cons]
        rw [show (x.1 == y.1) = true by simpa using hxy]
        simp only [if_true]
        have htl : a'.map (fun kv => if kv.1 == y.1 then (y.1, y.2) else kv) = a' := by
          have hcongr : ∀ kv ∈ a', (if kv.1 == y.1 then (y.1, y.2) else kv) = id kv := by
            intro kv hkv
            have : ¬ kv.1 = y.1 := by
              intro hc
              have hm : y.1 ∈ keysOf a' := hc ▸ List.mem_map_of_mem _ hkv
              rw [hka'] at hm
              exact hnd'.1 (by
                unfold keysOf
                rw [List.map_append]
                exact List.mem_append_left _ hm)
            simp [this]
          rw [List.map_congr_left hcongr, List.map_id]
        rw [htl]
      rw [List.cons_append, objSpread_cons, hstep]
      rw [objSpread_cons_ne (b₁' ++ b₂) y a' ?hfr]
      · rw [ih a' b₂ hka' hnd'.2]
      · intro kv hkv hc
        exact hnd'.1 (hc ▸ List.mem_map_of_mem _ hkv)

theorem objSpread_absorb (a m : JObj) (r : List String)
    (hk : keysOf m = keysOf a ++ r) (hnd : (keysOf m).Nodup) :
    objSpread a m = m := by
  have hlen : a.length = (keysOf a).length := (List.length_map _ _).symm
  have hsplit : m = m.take a.length ++ m.drop a.length :=
    (List.take_append_drop _ m).symm
  have hk₁ : keysOf (m.take a.length) = keysOf a := by
    unfold keysOf
    rw [List.map_take]
    show (keysOf m).take a.length = keysOf a
    rw [hk, hlen, List.take_left]
  rw [hsplit]
  apply objSpread_absorb_split (m.take a.length) a (m.drop a.length) hk₁.symm
  rw [← hsplit]
  exact hnd

/-! ## Infrastructure: `trim` idempotence and normalization fixed points -/

theorem dropWhile_eq_self_of_head (p : Char → Bool) (l : List Char)
    (h : ∀ c, l.head? = some c → p c = false) : l.dropWhile p = l := by
  cases l with
  | nil => rfl
  | cons c t =>
    rw [List.dropWhile_cons, h c rfl]
    simp

theorem head?_of_dropWhile (p : Char → Bool) (l : List Char) :
    ∀ c, (l.dropWhile p).head? = some c → p c = false := by
  induction l with
  | nil => intro c h; cases h
  | cons d t ih =>
    intro c h
    rw [List.dropWhile_cons] at h
    by_cases hd : p d
    · rw [hd] at h
      simp only [if_true] at h
      exact ih c h
    · rw [show p d = false by simpa using hd] at h
      simp only [Bool.false_eq_true, if_false, List.head?_cons] at h
      injection h with h
      rw [← h]
      simpa using hd

theorem getLast?_of_dropWhile (p : Char → Bool) (l : List Char)
    (hne : l.dropWhile p ≠ []) : (l.dropWhile p).getLast? = l.getLast? := by
  induction l with
  | nil => rfl
  | cons d t ih =>
    rw [List.dropWhile_cons]
    by_cases hd : p d
    · rw [hd]
      simp only [if_true]
      rw [List.dropWhile_cons, hd] at hne
      simp only [if_true] at hne
      have htne : t ≠ [] := by
        intro hc
        rw [hc] at hne
        exact hne rfl
      rw [ih hne]
      cases t with
      | nil => exact absurd rfl htne
      | cons x xs => rw [List.getLast?_cons_cons]
    · rw [show p d = false by simpa using hd]
      simp

theorem trimCharList_head (l : List Char) :
    ∀ c, (trimCharList l).head? = some c → jsIsWs c = false := by
  intro c h
  unfold trimCharList at h
  rw [List.head?_reverse] at h
  have hne : ((l.dropWhile jsIsWs).reverse.dropWhile jsIsWs) ≠ [] := by
    intro hc
    rw [hc] at h
    cases h
  rw [getLast?_of_dropWhile jsIsWs _ hne, List.getLast?_reverse] at h
  exact head?_of_dropWhile jsIsWs l c h

theorem trimCharList_last (l : List Char) :
    ∀ c, (trimCharList l).getLast? = some c → jsIsWs c = false := by
  intro c h
  unfold trimCharList at h
  rw [List.getLast?_reverse] at h
  exact head?_of_dropWhile jsIsWs _ c h

theorem trimCharList_fix (l : List Char)
    (hh : ∀ c, l.head? = some c → jsIsWs c = false)
    (hl : ∀ c, l.getLast? = some c → jsIsWs c = false) :
    trimCharList l = l := by
  unfold trimCharList
  rw [dropWhile_eq_self_of_head jsIsWs l hh]
  rw [dropWhile_eq_self_of_head jsIsWs l.reverse
    (fun c hc => hl c (by rwa [List.head?_reverse] at hc))]
  exact List.reverse_reverse l

theorem trimCharList_idem (l : List Char) :
    trimCharList (trimCharList l) = trimCharList l :=
  trimCharList_fix _ (trimCharList_head l) (trimCharList_last l)

theorem jsTrim_idem (s : String) : jsTrim (jsTrim s) = jsTrim s := by
  unfold jsTrim
  exact congrArg String.mk (trimCharList_idem s.data)

/-- A command list is clean when every entry is trimmed and non-blank —
exactly the shape `normalizeCommandList` produces. -/
def CleanList (l : List String) : Prop :=
  ∀ x ∈ l, jsTrim x = x ∧ x.length > 0

theorem getDefaultBlockedCommands_clean :
    CleanList getDefaultBlockedCommands.unix ∧
    CleanList getDefaultBlockedCommands.windows := by
  constructor <;> (intro x hx; fin_cases hx <;> exact ⟨by decide, by decide⟩)

theorem normalizeCommandList_clean (v : Option Json) (fb : List String)
    (hfb : CleanList fb) : CleanList (normalizeCommandList v fb) := by
  unfold normalizeCommandList
  match v with
  | none => exact hfb
  | some .null => exact hfb
  | some (.bool b) => exact hfb
  | some (.num n) => exact hfb
  | some (.str t) => exact hfb
  | some (.obj o) => exact hfb
  | some (.arr xs) =>
    intro x hx
    rcases List.mem_filter.mp hx with ⟨hx', hlen⟩
    rcases List.mem_map.mp hx' with ⟨y, _, hy⟩
    refine ⟨?_, by simpa using hlen⟩
    rw [← hy]
    exact jsTrim_idem y

theorem normalizeCommandList_fix (l : List String) (fb : List String)
    (hl : CleanList l) :
    normalizeCommandList (some (.arr (l.map .str))) fb = l := by
  have e : normalizeCommandList (some (.arr (l.map .str))) fb =
      (((l.map Json.str).filterMap
        (fun j => match j with | .str s => some s | _ => none)).map jsTrim).filter
        (fun s => s.length > 0) := rfl
  rw [e]
  have h1 : (l.map Json.str).filterMap
      (fun j => match j with | .str s => some s | _ => none) = l := by
    rw [List.filterMap_map]
    have : ∀ x ∈ l, ((fun j => match j with | Json.str s => some s | _ => none) ∘
        Json.str) x = some x := by
      intro x _
      rfl
    calc l.filterMap _ = l.filterMap some := List.filterMap_congr this
    _ = l := List.filterMap_some l
  rw [h1]
  have h2 : l.map jsTrim = l := by
    have : ∀ x ∈ l, jsTrim x = id x := fun x hx => (hl x hx).1
    rw [List.map_congr_left this, List.map_id]
  rw [h2]
  apply List.filter_eq_self.mpr
  intro x hx
  simpa using (hl x hx).2

theorem normalizeBlockedCommands_clean (v : Option Json)
    (d : PlatformBlockedCommands) (hdu : CleanList d.unix) (hdw : CleanList d.windows) :
    CleanList (normalizeBlockedCommands v d).unix ∧
    CleanList (normalizeBlockedCommands v d).windows := by
  unfold normalizeBlockedCommands
  match v with
  | none => exact ⟨hdu, hdw⟩
  | some .null => exact ⟨hdu, hdw⟩
  | some (.bool b) => exact ⟨hdu, hdw⟩
  | some (.num n) => exact ⟨hdu, hdw⟩
  | some (.str t) => exact ⟨hdu, hdw⟩
  | some (.arr xs) =>
    exact ⟨normalizeCommandList_clean (some (.arr xs)) d.unix hdu, hdw⟩
  | some (.obj o) =>
    exact ⟨normalizeCommandList_clean (objGet o "unix") d.unix hdu,
           normalizeCommandList_clean (objGet o "windows") d.windows hdw⟩

theorem normalizeBlockedCommands_fix (p d : PlatformBlockedCommands)
    (hu : CleanList p.unix) (hw : CleanList p.windows) :
    normalizeBlockedCommands (some (pbcToJson p)) d = p := by
  have e : normalizeBlockedCommands (some (pbcToJson p)) d =
      { unix := normalizeCommandList (some (.arr (p.unix.map .str))) d.unix,
        windows := normalizeCommandList (some (.arr (p.windows.map .str))) d.windows } :=
    rfl
  rw [e, normalizeCommandList_fix _ _ hu, normalizeCommandList_fix _ _ hw]

/-- A hostname CLI-path map is clean when every value is trimmed and
non-blank — exactly the shape `normalizeHostnameCliPaths` produces. -/
def CleanHost (m : List (String × String)) : Prop :=
  ∀ kv ∈ m, jsTrim kv.2 = kv.2 ∧ (kv.2 != "") = true

theorem normalizeHostnameCliPaths_clean (v : Option Json) :
    CleanHost (normalizeHostnameCliPaths v) := by
  unfold normalizeHostnameCliPaths
  match v with
  | none => intro kv hkv; cases hkv
  | some .null => intro kv hkv; cases hkv
  | some (.bool b) => intro kv hkv; cases hkv
  | some (.num n) => intro kv hkv; cases hkv
  | some (.str t) => intro kv hkv; cases hkv
  | some (.arr xs) => intro kv hkv; cases hkv
  | some (.obj entries) =>
    intro kv hkv
    rcases List.mem_filterMap.mp hkv with ⟨ev, _, hev⟩
    match hv : ev.2 with
    | .str s =>
      rw [hv] at hev
      dsimp only at hev
      by_cases hb : (jsTrim s != "")
      · rw [if_pos hb] at hev
        injection hev with hev
        rw [← hev]
        exact ⟨jsTrim_idem s, by simpa using hb⟩
      · rw [if_neg hb] at hev
        cases hev
    | .null => rw [hv] at hev; cases hev
    | .bool b => rw [hv] at hev; cases hev
    | .num n => rw [hv] at hev; cases hev
    | .arr xs => rw [hv] at hev; cases hev
    | .obj o => rw [hv] at hev; cases hev

theorem normalizeHostnameCliPaths_fix (m : List (String × String))
    (hm : CleanHost m) :
    normalizeHostnameCliPaths (some (hostPathsToJson m)) = m := by
  have e : normalizeHostnameCliPaths (some (hostPathsToJson m)) =
      (m.map (fun kv => (kv.1, Json.str kv.2))).filterMap
        (fun kv => match kv.2 with
          | Json.str s => if jsTrim s != "" then some (kv.1, jsTrim s) else none
          | _ => none) := rfl
  rw [e, List.filterMap_map]
  have : ∀ kv ∈ m, ((fun kv2 => match kv2.2 with
      | Json.str s => if jsTrim s != "" then some (kv2.1, jsTrim s) else none
      | _ => none) ∘ (fun kv2 => (kv2.1, Json.str kv2.2))) kv = some kv := by
    intro kv hkv
    rcases hm kv hkv with ⟨ht, hne⟩
    show (if jsTrim kv.2 != "" then some (kv.1, jsTrim kv.2) else none) = some kv
    rw [ht, if_pos hne]
  calc m.filterMap _ = m.filterMap some := List.filterMap_congr this
  _ = m := List.filterMap_some m

/-! ## Infrastructure: canonical loaded settings records -/

/-- The shape invariant of every record `ClaudianSettingsStorage.load()`
returns: duplicate-free keys laid out as the defaults' keys followed by any
extra stored keys, no legacy `activeConversationId` key, and normalized
`blockedCommands` / `claudeCliPath` / `claudeCliPathsByHost` values.  Such
records are fixed points of the load-time merge. -/
def Canonical (m : JObj) : Prop :=
  (keysOf m).Nodup ∧
  objGet m "activeConversationId" = none ∧
  (∃ r, keysOf m = keysOf claudianGetDefaults ++ r) ∧
  (∃ p : PlatformBlockedCommands, CleanList p.unix ∧ CleanList p.windows ∧
    objGet m "blockedCommands" = some (pbcToJson p)) ∧
  (∃ cp, objGet m "claudeCliPath" = some (.str cp)) ∧
  (∃ hpm, CleanHost hpm ∧
    objGet m "claudeCliPathsByHost" = some (hostPathsToJson hpm))

theorem keysOf_claudianGetDefaults_nodup : (keysOf claudianGetDefaults).Nodup := by
  decide

theorem canonical_defaults : Canonical claudianGetDefaults := by
  refine ⟨keysOf_claudianGetDefaults_nodup, rfl, ⟨[], (List.append_nil _).symm⟩,
    ⟨getDefaultBlockedCommands, getDefaultBlockedCommands_clean.1,
      getDefaultBlockedCommands_clean.2, rfl⟩,
    ⟨"", rfl⟩, ⟨[], ⟨fun kv hkv => absurd hkv (List.not_mem_nil kv), rfl⟩⟩⟩

theorem loadObjVal_eq (stored : JObj) :
    loadObjVal stored =
      objSet (objSet (objSet
        (objSpread claudianGetDefaults (objDelete stored "activeConversationId"))
        "blockedCommands"
        (pbcToJson (normalizeBlockedCommands (objGet stored "blockedCommands")
          getDefaultBlockedCommands)))
        "claudeCliPath"
        (.str (match objGet stored "claudeCliPath" with
               | some (.str cp) => cp
               | _ => "")))
        "claudeCliPathsByHost"
        (hostPathsToJson (normalizeHostnameCliPaths
          (objGet stored "claudeCliPathsByHost"))) := rfl

theorem canonical_load (stored : JObj) : Canonical (loadObjVal stored) := by
  rw [loadObjVal_eq]
  have hndS : (keysOf (objSpread claudianGetDefaults
      (objDelete stored "activeConversationId"))).Nodup :=
    keysOf_objSpread_nodup _ _ keysOf_claudianGetDefaults_nodup
  rcases keysOf_objSpread_exists (objDelete stored "activeConversationId")
    claudianGetDefaults with ⟨r, hr⟩
  have hacS : "activeConversationId" ∉ keysOf (objSpread claudianGetDefaults
      (objDelete stored "activeConversationId")) := by
    intro hmem
    rcases mem_keysOf_objSpread _ _ _ hmem with h | h
    · revert h; decide
    · exact keysOf_objDelete_not_mem stored "activeConversationId" h
  have hbcm : "blockedCommands" ∈ keysOf (objSpread claudianGetDefaults
      (objDelete stored "activeConversationId")) := by
    rw [hr]; exact List.mem_append_left _ (by decide)
  have hcpm : "claudeCliPath" ∈ keysOf (objSpread claudianGetDefaults
      (objDelete stored "activeConversationId")) := by
    rw [hr]; exact List.mem_append_left _ (by decide)
  have hhm : "claudeCliPathsByHost" ∈ keysOf (objSpread claudianGetDefaults
      (objDelete stored "activeConversationId")) := by
    rw [hr]; exact List.mem_append_left _ (by decide)
  have hk1 := keysOf_objSet_mem _ "blockedCommands"
    (pbcToJson (normalizeBlockedCommands (objGet stored "blockedCommands")
      getDefaultBlockedCommands)) hbcm
  have hk2 := keysOf_objSet_mem _ "claudeCliPath"
    (Json.str (match objGet stored "claudeCliPath" with
               | some (.str cp) => cp
               | _ => "")) (by rw [hk1]; exact hcpm)
  have hk3 := keysOf_objSet_mem _ "claudeCliPathsByHost"
    (hostPathsToJson (normalizeHostnameCliPaths
      (objGet stored "claudeCliPathsByHost"))) (by rw [hk2, hk1]; exact hhm)
  refine ⟨?_, ?_, ?_, ?_, ?_, ?_⟩
  · rw [hk3, hk2, hk1]; exact hndS
  · rw [objGet_objSet_ne _ _ _ _ (by decide), objGet_objSet_ne _ _ _ _ (by decide),
        objGet_objSet_ne _ _ _ _ (by decide)]
    exact (objGet_eq_none_iff_not_mem_keys _ _).mpr hacS
  · exact ⟨r, by rw [hk3, hk2, hk1, hr]⟩
  · refine ⟨normalizeBlockedCommands (objGet stored "blockedCommands")
      getDefaultBlockedCommands, ?_, ?_, ?_⟩
    · exact (normalizeBlockedCommands_clean _ _ getDefaultBlockedCommands_clean.1
        getDefaultBlockedCommands_clean.2).1
    · exact (normalizeBlockedCommands_clean _ _ getDefaultBlockedCommands_clean.1
        getDefaultBlockedCommands_clean.2).2
    · rw [objGet_objSet_ne _ _ _ _ (by decide), objGet_objSet_ne _ _ _ _ (by decide)]
      exact objGet_objSet_self _ _ _
  · refine ⟨(match objGet stored "claudeCliPath" with
             | some (.str cp) => cp
             | _ => ""), ?_⟩
    rw [objGet_objSet_ne _ _ _ _ (by decide)]
    exact objGet_objSet_self _ _ _
  · exact ⟨normalizeHostnameCliPaths (objGet stored "claudeCliPathsByHost"),
      normalizeHostnameCliPaths_clean _, objGet_objSet_self _ _ _⟩

theorem canonical_fix (m : JObj) (hm : Canonical m) : loadObjVal m = m := by
  rcases hm with ⟨hnd, hac, ⟨r, hpre⟩, ⟨p, hpu, hpw, hbc⟩, ⟨cp, hcp⟩,
    ⟨hmv, hclean, hhost⟩⟩
  rw [loadObjVal_eq]
  rw [objDelete_eq_self_of_none m _ hac]
  rw [hbc, normalizeBlockedCommands_fix p _ hpu hpw]
  rw [hhost, normalizeHostnameCliPaths_fix hmv hclean]
  rw [hcp]
  have hmatch : (match some (Json.str cp) with
                 | some (.str c) => c
                 | _ => "") = cp := rfl
  rw [hmatch]
  rw [objSpread_absorb claudianGetDefaults m r hpre hnd]
  rw [objSet_eq_self_of_get m "blockedCommands" (pbcToJson p) hbc hnd]
  rw [objSet_eq_self_of_get m "claudeCliPath" (.str cp) hcp hnd]
  exact objSet_eq_self_of_get m "claudeCliPathsByHost" (hostPathsToJson hmv) hhost hnd

theorem claudianLoad_canonical (s : StoreSt) (v : JObj) (s' : StoreSt)
    (tr : List StoreEv) (h : claudianLoad s = .ok v s' tr) : Canonical v := by
  unfold claudianLoad at h
  cases hr : adapterRead s CLAUDIAN_SETTINGS_PATH with
  | none => rw [hr] at h; cases h; exact canonical_defaults
  | some fc =>
    cases fc with
    | corrupt => rw [hr] at h; cases h
    | json j => rw [hr] at h; cases h; exact canonical_load _

/-! ## Infrastructure: the state-field merge preserves canonicity and is
idempotent -/

theorem keysOf_condMerge (blob c : JObj) (f : String) (hf : f ∈ keysOf c) :
    keysOf (condMerge blob c f) = keysOf c := by
  unfold condMerge
  cases objGet blob f with
  | none => rfl
  | some v =>
    by_cases hc : jsTruthyOpt (objGet c f)
    · simp [hc]
    · simp only [hc, Bool.not_false, if_true]
      exact keysOf_objSet_mem c f v hf

theorem keysOf_condMerge_nodup (blob c : JObj) (f : String)
    (hnd : (keysOf c).Nodup) : (keysOf (condMerge blob c f)).Nodup := by
  unfold condMerge
  cases objGet blob f with
  | none => exact hnd
  | some v =>
    by_cases hc : jsTruthyOpt (objGet c f)
    · simpa [hc] using hnd
    · simp only [hc, Bool.not_false, if_true]
      exact keysOf_objSet_nodup c f v hnd

theorem canonical_condMerge (blob c : JObj) (f : String)
    (hf : f ∈ stateBookkeepingFields) (hc : Canonical c) :
    Canonical (condMerge blob c f) := by
  obtain ⟨hnd, hac, ⟨r, hpre⟩, hbc, hcp, hhost⟩ := hc
  have hfk : f ∈ keysOf claudianGetDefaults := by
    simp only [stateBookkeepingFields, List.mem_cons, List.not_mem_nil,
      or_false] at hf
    rcases hf with hf | hf | hf <;> subst hf <;> decide
  have hfc : f ∈ keysOf c := by rw [hpre]; exact List.mem_append_left _ hfk
  have hnes : f ≠ "activeConversationId" ∧ f ≠ "blockedCommands" ∧
      f ≠ "claudeCliPath" ∧ f ≠ "claudeCliPathsByHost" := by
    simp only [stateBookkeepingFields, List.mem_cons, List.not_mem_nil,
      or_false] at hf
    rcases hf with hf | hf | hf <;> subst hf <;>
      exact ⟨by decide, by decide, by decide, by decide⟩
  refine ⟨?_, ?_, ⟨r, ?_⟩, ?_, ?_, ?_⟩
  · rw [keysOf_condMerge blob c f hfc]; exact hnd
  · rw [objGet_condMerge_ne blob c f _ hnes.1]; exact hac
  · rw [keysOf_condMerge blob c f hfc]; exact hpre
  · rcases hbc with ⟨p, h1, h2, h3⟩
    exact ⟨p, h1, h2, by rw [objGet_condMerge_ne blob c f _ hnes.2.1]; exact h3⟩
  · rcases hcp with ⟨cp, h1⟩
    exact ⟨cp, by rw [objGet_condMerge_ne blob c f _ hnes.2.2.1]; exact h1⟩
  · rcases hhost with ⟨hm, h1, h2⟩
    exact ⟨hm, h1, by rw [objGet_condMerge_ne blob c f _ hnes.2.2.2]; exact h2⟩

theorem canonical_mergeStateFields (blob m : JObj) (hm : Canonical m) :
    Canonical (mergeStateFields blob m) := by
  rw [mergeStateFields_eq_condMerge]
  apply canonical_condMerge _ _ _ (by decide)
  apply canonical_condMerge _ _ _ (by decide)
  exact canonical_condMerge _ _ _ (by decide) hm

theorem objGet_condMerge_post (blob c : JObj) (f : String) (v : Json)
    (hb : objGet blob f = some v) :
    jsTruthyOpt (objGet (condMerge blob c f) f) = true ∨
      objGet (condMerge blob c f) f = some v := by
  unfold condMerge
  cases hb' : objGet blob f with
  | none => rw [hb'] at hb; cases hb
  | some w =>
    rw [hb'] at hb
    injection hb with hb
    subst hb
    by_cases hc : jsTruthyOpt (objGet c f)
    · have hif : (!jsTruthyOpt (objGet c f)) = false := by simp [hc]
      simp only [hif, Bool.false_eq_true, if_false]
      exact Or.inl hc
    · have hif : (!jsTruthyOpt (objGet c f)) = true := by simp [hc]
      simp only [hif, if_true]
      exact Or.inr (objGet_objSet_self c f w)

theorem condMerge_noop (blob c : JObj) (f : String)
    (hnd : (keysOf c).Nodup)
    (h : ∀ v, objGet blob f = some v →
      jsTruthyOpt (objGet c f) = true ∨ objGet c f = some v) :
    condMerge blob c f = c := by
  unfold condMerge
  cases hb : objGet blob f with
  | none => rfl
  | some v =>
    rcases h v hb with ht | hg
    · simp [ht]
    · by_cases ht2 : jsTruthyOpt (objGet c f)
      · simp [ht2]
      · simp only [ht2, Bool.not_false, if_true]
        exact objSet_eq_self_of_get c f v hg hnd

theorem mergeStateFields_idem (blob m : JObj) (hnd : (keysOf m).Nodup) :
    mergeStateFields blob (mergeStateFields blob m) = mergeStateFields blob m := by
  rw [mergeStateFields_eq_condMerge, mergeStateFields_eq_condMerge]
  set c1 := condMerge blob m "lastEnvHash" with hc1
  set c2 := condMerge blob c1 "lastClaudeModel" with hc2
  set c3 := condMerge blob c2 "lastCustomModel" with hc3
  have hnd1 : (keysOf c1).Nodup := keysOf_condMerge_nodup _ _ _ hnd
  have hnd2 : (keysOf c2).Nodup := keysOf_condMerge_nodup _ _ _ hnd1
  have hnd3 : (keysOf c3).Nodup := keysOf_condMerge_nodup _ _ _ hnd2
  have h1 : condMerge blob c3 "lastEnvHash" = c3 := by
    apply condMerge_noop _ _ _ hnd3
    intro v hv
    have hg : objGet c3 "lastEnvHash" = objGet c1 "lastEnvHash" := by
      rw [hc3, objGet_condMerge_ne _ _ _ _ (by decide),
          hc2, objGet_condMerge_ne _ _ _ _ (by decide)]
    rw [hg, hc1]
    exact objGet_condMerge_post blob m _ v hv
  have h2 : condMerge blob c3 "lastClaudeModel" = c3 := by
    apply condMerge_noop _ _ _ hnd3
    intro v hv
    have hg : objGet c3 "lastClaudeModel" = objGet c2 "lastClaudeModel" := by
      rw [hc3, objGet_condMerge_ne _ _ _ _ (by decide)]
    rw [hg, hc2]
    exact objGet_condMerge_post blob c1 _ v hv
  have h3 : condMerge blob c3 "lastCustomModel" = c3 := by
    apply condMerge_noop _ _ _ hnd3
    intro v hv
    rw [hc3]
    exact objGet_condMerge_post blob c2 _ v hv
  rw [h1, h2, h3]

/-! ## Infrastructure: the file store -/

/-- Well-formed storage: the host filesystem holds each path at most once. -/
def StWF (s : StoreSt) : Prop :=
  (s.files.map (fun f => f.1)).Nodup

theorem adapterExists_eq (s : StoreSt) (p : String) :
    adapterExists s p = (adapterRead s p).isSome := by
  unfold adapterExists adapterRead
  cases hf : s.files.find? (fun f => f.1 == p) with
  | some f =>
    have hmem := List.mem_of_find?_eq_some hf
    have hkey := List.find?_some hf
    rw [List.any_eq_true.mpr ⟨f, hmem, hkey⟩]
    rfl
  | none =>
    have hall := List.find?_eq_none.mp hf
    rw [List.any_eq_false.mpr (fun f hfm => by simpa using hall f hfm)]
    rfl

theorem mapFileFn_eq_self (l : List (String × FileContent)) (p : String)
    (c : FileContent) (h : ∀ f ∈ l, f.1 = p → f.2 = c) :
    l.map (fun f => if f.1 == p then (p, c) else f) = l := by
  have hcongr : ∀ f ∈ l, (if f.1 == p then (p, c) else f) = id f := by
    intro f hf
    by_cases hfp : f.1 = p
    · rw [show (f.1 == p) = true by simpa using hfp]
      simp only [if_true, id]
      have h2 := h f hf hfp
      calc (p, c) = (f.1, f.2) := by rw [hfp, h2]
      _ = f := rfl
    · simp [show (f.1 == p) = false by simpa using hfp]
  rw [List.map_congr_left hcongr, List.map_id]

theorem putFile_eq_self (s : StoreSt) (p : String) (c : Json)
    (hr : adapterRead s p = some (.json c)) (hwf : StWF s) :
    putFile s p (c : Json) = s := by
  have hex : s.files.any (fun f => f.1 == p) = true := adapterExists_of_read s p _ hr
  have hfind : ∃ f₀, s.files.find? (fun f => f.1 == p) = some f₀ ∧
      f₀.2 = FileContent.json c := by
    unfold adapterRead at hr
    cases hf : s.files.find? (fun f => f.1 == p) with
    | none => rw [hf] at hr; cases hr
    | some f₀ =>
      rw [hf] at hr
      injection hr with hr
      exact ⟨f₀, rfl, hr⟩
  rcases hfind with ⟨f₀, hf₀, hc₀⟩
  have hall : ∀ f ∈ s.files, f.1 = p → f.2 = FileContent.json c := by
    intro f hf hfp
    have hmem₀ := List.mem_of_find?_eq_some hf₀
    have hkey₀ : f₀.1 = p := by simpa using List.find?_some hf₀
    have : f = f₀ :=
      List.inj_on_of_nodup_map hwf hf hmem₀ (by rw [hfp, hkey₀])
    rw [this, hc₀]
  unfold putFile
  rw [if_pos hex, mapFileFn_eq_self s.files p (FileContent.json c) hall]

theorem find?_mapFileFn_self (p : String) (c : FileContent) :
    ∀ l : List (String × FileContent), l.any (fun f => f.1 == p) = true →
      (l.map (fun f => if f.1 == p then (p, c) else f)).find? (fun f => f.1 == p)
        = some (p, c) := by
  intro l
  induction l with
  | nil => intro h; cases h
  | cons hd tl ih =>
    intro h
    rw [List.map_cons]
    by_cases hk : hd.1 = p
    · rw [show (hd.1 == p) = true by simpa using hk]
      simp only [if_true]
      rw [List.find?_cons_of_pos _ (by simp)]
    · rw [show (hd.1 == p) = false by simpa using hk]
      simp only [Bool.false_eq_true, if_false]
      rw [List.find?_cons_of_neg _ (by simpa using hk)]
      apply ih
      rw [List.any_cons, show (hd.1 == p) = false by simpa using hk] at h
      simpa using h

theorem adapterRead_putFile_self (s : StoreSt) (p : String) (c : Json) :
    adapterRead (putFile s p c) p = some (.json c) := by
  unfold putFile adapterRead
  by_cases hex : s.files.any (fun f => f.1 == p)
  · rw [if_pos hex]
    dsimp only
    rw [find?_mapFileFn_self p (FileContent.json c) s.files hex]
  · rw [if_neg hex]
    dsimp only
    rw [List.find?_append]
    have hnone : s.files.find? (fun f => f.1 == p) = none := by
      apply List.find?_eq_none.mpr
      intro f hf hc
      exact hex (List.any_eq_true.mpr ⟨f, hf, hc⟩)
    rw [hnone, Option.none_or, List.find?_cons_of_pos _ (by simp)]

theorem find?_mapFileFn_ne (q p : String) (c : FileContent) (hqp : q ≠ p) :
    ∀ l : List (String × FileContent),
      (l.map (fun f => if f.1 == q then (q, c) else f)).find? (fun f => f.1 == p)
        = l.find? (fun f => f.1 == p) := by
  intro l
  induction l with
  | nil => rfl
  | cons hd tl ih =>
    rw [List.map_cons]
    by_cases hk : hd.1 = q
    · rw [show (hd.1 == q) = true by simpa using hk]
      simp only [if_true]
      rw [List.find?_cons_of_neg _ (by simpa using hqp),
          List.find?_cons_of_neg _ (by
            show ¬ (hd.1 == p) = true
            simp only [beq_iff_eq]
            rw [hk]
            exact hqp)]
      exact ih
    · rw [show (hd.1 == q) = false by simpa using hk]
      simp only [Bool.false_eq_true, if_false]
      by_cases hp : hd.1 = p
      · rw [List.find?_cons_of_pos _ (by simpa using hp),
            List.find?_cons_of_pos _ (by simpa using hp)]
      · rw [List.find?_cons_of_neg _ (by simpa using hp),
            List.find?_cons_of_neg _ (by simpa using hp)]
        exact ih

theorem adapterRead_putFile_ne (s : StoreSt) (q p : String) (c : Json)
    (hqp : q ≠ p) : adapterRead (putFile s q c) p = adapterRead s p := by
  unfold putFile adapterRead
  by_cases hex : s.files.any (fun f => f.1 == q)
  · rw [if_pos hex]
    dsimp only
    rw [find?_mapFileFn_ne q p (FileContent.json c) hqp s.files]
  · rw [if_neg hex]
    dsimp only
    rw [List.find?_append]
    cases hf : s.files.find? (fun f => f.1 == p) with
    | some f => rfl
    | none =>
      rw [Option.none_or, List.find?_cons_of_neg _ (by simpa using hqp)]
      rfl

theorem adapterExists_putFile_ne (s : StoreSt) (q p : String) (c : Json)
    (hqp : q ≠ p) : adapterExists (putFile s q c) p = adapterExists s p := by
  rw [adapterExists_eq, adapterExists_eq, adapterRead_putFile_ne s q p c hqp]

theorem adapterExists_putFile_mono (s : StoreSt) (q p : String) (c : Json)
    (h : adapterExists s p = true) : adapterExists (putFile s q c) p = true := by
  by_cases hqp : q = p
  · subst hqp
    rw [adapterExists_eq, adapterRead_putFile_self]
    rfl
  · rw [adapterExists_putFile_ne s q p c hqp]
    exact h

theorem putFile_keys (s : StoreSt) (p : String) (c : Json) :
    ((putFile s p c).files.map (fun f => f.1) = s.files.map (fun f => f.1)) ∨
    ((putFile s p c).files.map (fun f => f.1) = s.files.map (fun f => f.1) ++ [p] ∧
      p ∉ s.files.map (fun f => f.1)) := by
  unfold putFile
  by_cases hex : s.files.any (fun f => f.1 == p)
  · rw [if_pos hex]
    left
    dsimp only
    rw [List.map_map]
    apply List.map_congr_left
    intro f _
    by_cases hk : f.1 = p
    · simp [hk]
    · simp only [Function.comp_apply, show (f.1 == p) = false by simpa using hk,
        Bool.false_eq_true, if_false]
  · rw [if_neg hex]
    right
    dsimp only
    constructor
    · rw [List.map_append]
      rfl
    · intro hm
      rcases List.mem_map.mp hm with ⟨f, hf, hk⟩
      exact hex (List.any_eq_true.mpr ⟨f, hf, by simpa using hk⟩)

theorem putFile_wf (s : StoreSt) (p : String) (c : Json) (hwf : StWF s) :
    StWF (putFile s p c) := by
  unfold StWF at hwf ⊢
  rcases putFile_keys s p c with h | ⟨h, hnm⟩
  · rw [h]; exact hwf
  · rw [h, List.nodup_append]
    exact ⟨hwf, List.nodup_singleton p, fun x hx => by
      simp only [List.mem_singleton]
      intro hc
      exact hnm (hc ▸ hx)⟩

/-! ## Infrastructure: effect summaries for the writers -/

/-- The state after a non-throwing `adapter.write`: unchanged when the
environment silently drops the write, updated otherwise. -/
def wrD (env : StoreEnv) (s : StoreSt) (p : String) (c : Json) : StoreSt :=
  if env.dropWrite p then s else putFile s p c

theorem adapterWrite_ok (env : StoreEnv) (s : StoreSt) (p : String) (c : Json)
    (u : Unit) (s' : StoreSt) (tr : List StoreEv)
    (h : adapterWrite env s p c = .ok u s' tr) :
    env.failWrite p = false ∧ s' = wrD env s p c ∧ tr = [.write p c] := by
  unfold adapterWrite at h
  by_cases hf : env.failWrite p
  · rw [if_pos hf] at h; cases h
  · rw [if_neg hf] at h
    unfold wrD
    by_cases hd : env.dropWrite p
    · rw [if_pos hd] at h
      rw [if_pos hd]
      injection h with h1 h2 h3
      exact ⟨by simpa using hf, h2.symm, h3.symm⟩
    · rw [if_neg hd] at h
      rw [if_neg hd]
      injection h with h1 h2 h3
      exact ⟨by simpa using hf, h2.symm, h3.symm⟩

theorem wrD_blob (env : StoreEnv) (s : StoreSt) (p : String) (c : Json) :
    (wrD env s p c).blob = s.blob := by
  unfold wrD
  by_cases hd : env.dropWrite p
  · rw [if_pos hd]
  · rw [if_neg hd]; rfl

theorem wrD_wf (env : StoreEnv) (s : StoreSt) (p : String) (c : Json)
    (hwf : StWF s) : StWF (wrD env s p c) := by
  unfold wrD
  by_cases hd : env.dropWrite p
  · rw [if_pos hd]; exact hwf
  · rw [if_neg hd]; exact putFile_wf s p c hwf

theorem adapterRead_wrD_ne (env : StoreEnv) (s : StoreSt) (q p : String) (c : Json)
    (hqp : q ≠ p) : adapterRead (wrD env s q c) p = adapterRead s p := by
  unfold wrD
  by_cases hd : env.dropWrite q
  · rw [if_pos hd]
  · rw [if_neg hd]; exact adapterRead_putFile_ne s q p c hqp

theorem adapterExists_wrD_ne (env : StoreEnv) (s : StoreSt) (q p : String) (c : Json)
    (hqp : q ≠ p) : adapterExists (wrD env s q c) p = adapterExists s p := by
  rw [adapterExists_eq, adapterExists_eq, adapterRead_wrD_ne env s q p c hqp]

theorem adapterExists_wrD_mono (env : StoreEnv) (s : StoreSt) (q p : String)
    (c : Json) (h : adapterExists s p = true) :
    adapterExists (wrD env s q c) p = true := by
  unfold wrD
  by_cases hd : env.dropWrite q
  · rw [if_pos hd]; exact h
  · rw [if_neg hd]; exact adapterExists_putFile_mono s q p c h

/-! ## Infrastructure: more facts about the content-migration loop -/

theorem migLoop_wf (env : StoreEnv) (pathOf : Json → String) (items : List Json) :
    ∀ s he, StWF s → StWF (migLoop env pathOf items s he).2.1 := by
  induction items with
  | nil => intro s he h; exact h
  | cons item rest ih =>
    intro s he h
    unfold migLoop
    by_cases hex : adapterExists s (pathOf item)
    · rw [if_pos hex]; exact ih s he h
    · rw [if_neg hex]
      unfold adapterWrite
      by_cases hfw : env.failWrite (pathOf item)
      · rw [if_pos hfw]
        dsimp only
        exact ih s true h
      · rw [if_neg hfw]
        by_cases hdw : env.dropWrite (pathOf item)
        · rw [if_pos hdw]
          dsimp only
          exact ih s he h
        · rw [if_neg hdw]
          dsimp only
          exact ih _ he (putFile_wf s (pathOf item) item h)

theorem migLoop_exists_mono (env : StoreEnv) (pathOf : Json → String)
    (items : List Json) :
    ∀ s he p, adapterExists s p = true →
      adapterExists (migLoop env pathOf items s he).2.1 p = true := by
  induction items with
  | nil => intro s he p h; exact h
  | cons item rest ih =>
    intro s he p h
    unfold migLoop
    by_cases hex : adapterExists s (pathOf item)
    · rw [if_pos hex]; exact ih s he p h
    · rw [if_neg hex]
      unfold adapterWrite
      by_cases hfw : env.failWrite (pathOf item)
      · rw [if_pos hfw]
        dsimp only
        exact ih s true p h
      · rw [if_neg hfw]
        by_cases hdw : env.dropWrite (pathOf item)
        · rw [if_pos hdw]
          dsimp only
          exact ih s he p h
        · rw [if_neg hdw]
          dsimp only
          exact ih _ he p (adapterExists_putFile_mono s (pathOf item) p item h)

theorem migLoop_blocked_frame (env : StoreEnv) (pathOf : Json → String)
    (items : List Json) :
    ∀ s he p, env.failWrite p = true →
      adapterExists (migLoop env pathOf items s he).2.1 p = adapterExists s p := by
  induction items with
  | nil => intro s he p _; rfl
  | cons item rest ih =>
    intro s he p hfp
    unfold migLoop
    by_cases hex : adapterExists s (pathOf item)
    · rw [if_pos hex]; exact ih s he p hfp
    · rw [if_neg hex]
      unfold adapterWrite
      by_cases hfw : env.failWrite (pathOf item)
      · rw [if_pos hfw]
        dsimp only
        exact ih s true p hfp
      · rw [if_neg hfw]
        by_cases hdw : env.dropWrite (pathOf item)
        · rw [if_pos hdw]
          dsimp only
          exact ih s he p hfp
        · rw [if_neg hdw]
          dsimp only
          rw [ih _ he p hfp]
          apply adapterExists_putFile_ne
          intro hc
          rw [hc, hfp] at hfw
          exact hfw rfl

theorem migLoop_read_frame_ne (env : StoreEnv) (pathOf : Json → String)
    (items : List Json) :
    ∀ s he p, (∀ it ∈ items, pathOf it ≠ p) →
      adapterRead (migLoop env pathOf items s he).2.1 p = adapterRead s p := by
  induction items with
  | nil => intro s he p _; rfl
  | cons item rest ih =>
    intro s he p hne
    unfold migLoop
    have hrest : ∀ it ∈ rest, pathOf it ≠ p :=
      fun it hit => hne it (List.mem_cons_of_mem _ hit)
    by_cases hex : adapterExists s (pathOf item)
    · rw [if_pos hex]; exact ih s he p hrest
    · rw [if_neg hex]
      unfold adapterWrite
      by_cases hfw : env.failWrite (pathOf item)
      · rw [if_pos hfw]
        dsimp only
        exact ih s true p hrest
      · rw [if_neg hfw]
        by_cases hdw : env.dropWrite (pathOf item)
        · rw [if_pos hdw]
          dsimp only
          exact ih s he p hrest
        · rw [if_neg hdw]
          dsimp only
          rw [ih _ he p hrest]
          exact adapterRead_putFile_ne s (pathOf item) p item
            (hne item (List.mem_cons_self _ _))

theorem migLoop_post (env : StoreEnv) (pathOf : Json → String) (items : List Json) :
    ∀ s he, ∀ it ∈ items,
      adapterExists (migLoop env pathOf items s he).2.1 (pathOf it) = true ∨
      env.failWrite (pathOf it) = true ∨ env.dropWrite (pathOf it) = true := by
  induction items with
  | nil => intro s he it hit; cases hit
  | cons item rest ih =>
    intro s he it hit
    unfold migLoop
    rcases List.mem_cons.mp hit with hit | hit
    · subst hit
      by_cases hex : adapterExists s (pathOf it)
      · rw [if_pos hex]
        exact Or.inl (migLoop_exists_mono env pathOf rest s he _ hex)
      · rw [if_neg hex]
        unfold adapterWrite
        by_cases hfw : env.failWrite (pathOf it)
        · rw [if_pos hfw]
          exact Or.inr (Or.inl hfw)
        · rw [if_neg hfw]
          by_cases hdw : env.dropWrite (pathOf it)
          · rw [if_pos hdw]
            exact Or.inr (Or.inr hdw)
          · rw [if_neg hdw]
            dsimp only
            have hself : adapterExists (putFile s (pathOf it) it) (pathOf it)
                = true := by
              rw [adapterExists_eq, adapterRead_putFile_self]
              rfl
            exact Or.inl (migLoop_exists_mono env pathOf rest _ he _ hself)
    · by_cases hex : adapterExists s (pathOf item)
      · rw [if_pos hex]; exact ih s he it hit
      · rw [if_neg hex]
        unfold adapterWrite
        by_cases hfw : env.failWrite (pathOf item)
        · rw [if_pos hfw]
          dsimp only
          exact ih s true it hit
        · rw [if_neg hfw]
          by_cases hdw : env.dropWrite (pathOf item)
          · rw [if_pos hdw]
            dsimp only
            exact ih s he it hit
          · rw [if_neg hdw]
            dsimp only
            exact ih _ he it hit

theorem migLoop_fail_witness (env : StoreEnv) (pathOf : Json → String)
    (items : List Json) :
    ∀ s he, (migLoop env pathOf items s he).1 = true →
      he = true ∨ ∃ it ∈ items, env.failWrite (pathOf it) = true ∧
        adapterExists (migLoop env pathOf items s he).2.1 (pathOf it) = false := by
  induction items with
  | nil => intro s he h; exact Or.inl h
  | cons item rest ih =>
    intro s he h
    unfold migLoop at h ⊢
    by_cases hex : adapterExists s (pathOf item)
    · rw [if_pos hex] at h ⊢
      rcases ih s he h with h | ⟨it, hit, h1, h2⟩
      · exact Or.inl h
      · exact Or.inr ⟨it, List.mem_cons_of_mem _ hit, h1, h2⟩
    · rw [if_neg hex] at h ⊢
      unfold adapterWrite at h ⊢
      by_cases hfw : env.failWrite (pathOf item)
      · rw [if_pos hfw] at h ⊢
        dsimp only at h ⊢
        right
        refine ⟨item, List.mem_cons_self _ _, hfw, ?_⟩
        rw [migLoop_blocked_frame env pathOf rest s true _ hfw]
        simpa using hex
      · rw [if_neg hfw] at h ⊢
        by_cases hdw : env.dropWrite (pathOf item)
        · rw [if_pos hdw] at h ⊢
          dsimp only at h ⊢
          rcases ih s he h with h | ⟨it, hit, h1, h2⟩
          · exact Or.inl h
          · exact Or.inr ⟨it, List.mem_cons_of_mem _ hit, h1, h2⟩
        · rw [if_neg hdw] at h ⊢
          dsimp only at h ⊢
          rcases ih _ he h with h | ⟨it, hit, h1, h2⟩
          · exact Or.inl h
          · exact Or.inr ⟨it, List.mem_cons_of_mem _ hit, h1, h2⟩

theorem migLoop_steady (env : StoreEnv) (pathOf : Json → String) (items : List Json) :
    ∀ t he₀, (∀ it ∈ items,
        adapterExists t (pathOf it) = true ∨ env.failWrite (pathOf it) = true ∨
        env.dropWrite (pathOf it) = true) →
      ∃ he' tr, migLoop env pathOf items t he₀ = (he', t, tr) ∧
        (he₀ = true → he' = true) ∧
        (∀ it ∈ items, env.failWrite (pathOf it) = true →
          adapterExists t (pathOf it) = false → he' = true) := by
  induction items with
  | nil =>
    intro t he₀ _
    exact ⟨he₀, [], rfl, fun h => h, fun it hit => by cases hit⟩
  | cons item rest ih =>
    intro t he₀ hpre
    have hprer : ∀ it ∈ rest,
        adapterExists t (pathOf it) = true ∨ env.failWrite (pathOf it) = true ∨
        env.dropWrite (pathOf it) = true :=
      fun it hit => hpre it (List.mem_cons_of_mem _ hit)
    unfold migLoop
    by_cases hex : adapterExists t (pathOf item)
    · rw [if_pos hex]
      rcases ih t he₀ hprer with ⟨he', tr, heq, hmono, hwit⟩
      refine ⟨he', tr, heq, hmono, ?_⟩
      intro it hit h1 h2
      rcases List.mem_cons.mp hit with hit | hit
      · subst hit
        rw [hex] at h2
        cases h2
      · exact hwit it hit h1 h2
    · rw [if_neg hex]
      rcases hpre item (List.mem_cons_self _ _) with hp | hp | hp
      · exact absurd hp hex
      · unfold adapterWrite
        rw [if_pos hp]
        dsimp only
        rcases ih t true hprer with ⟨he', tr, heq, hmono, hwit⟩
        rw [heq]
        refine ⟨he', _, rfl, fun _ => hmono rfl, fun _ _ _ _ => hmono rfl⟩
      · unfold adapterWrite
        by_cases hfw : env.failWrite (pathOf item)
        · rw [if_pos hfw]
          dsimp only
          rcases ih t true hprer with ⟨he', tr, heq, hmono, hwit⟩
          rw [heq]
          exact ⟨he', _, rfl, fun _ => hmono rfl, fun _ _ _ _ => hmono rfl⟩
        · rw [if_neg hfw, if_pos hp]
          dsimp only
          rcases ih t he₀ hprer with ⟨he', tr, heq, hmono, hwit⟩
          rw [heq]
          refine ⟨he', _, rfl, hmono, ?_⟩
          intro it hit h1 h2
          rcases List.mem_cons.mp hit with hit | hit
          · subst hit
            rw [h1] at hfw
            exact absurd rfl hfw
          · exact hwit it hit h1 h2

/-! ## Infrastructure: detailed outcome of `migrateFromDataJson` -/

theorem mfdj_detail (env : StoreEnv) (s : StoreSt) (blob : JObj)
    (u : Unit) (s' : StoreSt) (tr : List StoreEv)
    (h : migrateFromDataJson env s blob = .ok u s' tr) :
    ∃ m₀, claudianLoad s = .ok m₀ s [.loadClaudian] ∧
      env.failWrite CLAUDIAN_SETTINGS_PATH = false ∧
      s' = wrD env s CLAUDIAN_SETTINGS_PATH (.obj (mergeStateFields blob m₀)) ∧
      tr = [.loadClaudian,
            .write CLAUDIAN_SETTINGS_PATH (.obj (mergeStateFields blob m₀))] := by
  unfold migrateFromDataJson at h
  rcases claudianLoad_spec s with ⟨v, hcl⟩ | hcl
  · rw [hcl] at h
    dsimp only at h
    unfold claudianSave at h
    cases hw : adapterWrite env s CLAUDIAN_SETTINGS_PATH
        (.obj (mergeStateFields blob v)) with
    | err e s2 tr2 => rw [hw] at h; exact Out.noConfusion h
    | ok u2 s2 tr2 =>
      rw [hw] at h
      dsimp only at h
      injection h with h1 h2 h3
      rcases adapterWrite_ok env s _ _ _ _ _ hw with ⟨hf, hs, htr⟩
      refine ⟨v, hcl, hf, ?_, ?_⟩
      · rw [← h2, hs]
      · rw [← h3, htr]
        rfl
  · rw [hcl] at h
    exact Out.noConfusion h

/-! ## Infrastructure: detailed outcome of the split migration -/

theorem adapterRead_eq_none_of_not_exists (s : StoreSt) (p : String)
    (h : adapterExists s p = false) : adapterRead s p = none := by
  rw [adapterExists_eq] at h
  cases hr : adapterRead s p with
  | none => rfl
  | some c => rw [hr] at h; cases h

theorem splitMig_ok_detail (env : StoreEnv) (s : StoreSt)
    (u : Unit) (s' : StoreSt) (tr : List StoreEv)
    (h : migrateFromOldSettingsJson env s = .ok u s' tr) :
    (∃ j, adapterRead s CC_SETTINGS_PATH = some (.json j) ∧
      (CLAUDIAN_ONLY_FIELDS.any (fun f => (objGet (jsObjOf j) f).isSome)) = false ∧
      s' = s ∧ tr = []) ∨
    (∃ j flds, adapterRead s CC_SETTINGS_PATH = some (.json j) ∧
      (CLAUDIAN_ONLY_FIELDS.any (fun f => (objGet (jsObjOf j) f).isSome)) = true ∧
      buildClaudianFields (jsObjOf j) = .ok flds ∧
      env.failWrite CLAUDIAN_SETTINGS_PATH = false ∧
      env.failWrite CC_SETTINGS_PATH = false ∧
      s' = wrD env (wrD env s CLAUDIAN_SETTINGS_PATH (.obj flds)) CC_SETTINGS_PATH
        (ccSettingsOf (jsObjOf j)) ∧
      tr = [.write CLAUDIAN_SETTINGS_PATH (.obj flds), .loadClaudian,
            .write CC_SETTINGS_PATH (ccSettingsOf (jsObjOf j))]) := by
  unfold migrateFromOldSettingsJson at h
  cases hr : adapterRead s CC_SETTINGS_PATH with
  | none => rw [hr] at h; exact Out.noConfusion h
  | some fc =>
    cases fc with
    | corrupt => rw [hr] at h; exact Out.noConfusion h
    | json j =>
      rw [hr] at h
      dsimp only at h
      by_cases hcf : (CLAUDIAN_ONLY_FIELDS.any fun f => (objGet (jsObjOf j) f).isSome)
      · rw [show (!(CLAUDIAN_ONLY_FIELDS.any fun f => (objGet (jsObjOf j) f).isSome))
            = false by simp [hcf], if_neg (by simp)] at h
        cases hbf : buildClaudianFields (jsObjOf j) with
        | error e => rw [hbf] at h; exact Out.noConfusion h
        | ok flds =>
          rw [hbf] at h
          dsimp only at h
          unfold claudianSave at h
          cases hw : adapterWrite env s CLAUDIAN_SETTINGS_PATH (.obj flds) with
          | err e s1 tr1 => rw [hw] at h; exact Out.noConfusion h
          | ok u1 s1 tr1 =>
            rw [hw] at h
            dsimp only at h
            rcases adapterWrite_ok env s _ _ _ _ _ hw with ⟨hf1, hs1, htr1⟩
            subst hs1
            subst htr1
            rcases claudianLoad_spec (wrD env s CLAUDIAN_SETTINGS_PATH (.obj flds))
              with ⟨v, hcl⟩ | hcl
            · rw [hcl] at h
              dsimp only at h
              have husr : ((objGet v "userName").isNone) = false := by
                have hde := claudianLoad_userName_defined _ v _ _ hcl
                cases hob : objGet v "userName" with
                | none => rw [hob] at hde; cases hde
                | some w => rfl
              rw [husr, if_neg (by simp)] at h
              cases hw2 : adapterWrite env (wrD env s CLAUDIAN_SETTINGS_PATH (.obj flds))
                  CC_SETTINGS_PATH (ccSettingsOf (jsObjOf j)) with
              | err e s2 tr2 => rw [hw2] at h; exact Out.noConfusion h
              | ok u2 s2 tr2 =>
                rw [hw2] at h
                dsimp only at h
                rcases adapterWrite_ok env _ _ _ _ _ _ hw2 with ⟨hf2, hs2, htr2⟩
                subst hs2
                subst htr2
                injection h with h1 h2 h3
                right
                refine ⟨j, flds, rfl, by simpa using hcf, hbf, hf1, hf2,
                  h2.symm, ?_⟩
                rw [← h3]
                rfl
            · rw [hcl] at h
              exact Out.noConfusion h
      · rw [show (!(CLAUDIAN_ONLY_FIELDS.any fun f => (objGet (jsObjOf j) f).isSome))
            = true by simp [hcf], if_pos rfl] at h
        injection h with h1 h2 h3
        left
        exact ⟨j, rfl, by simpa using hcf, h2.symm, h3.symm⟩

theorem splitMig_rerun (env : StoreEnv) (t : StoreSt)
    (hq : adapterExists t CLAUDIAN_SETTINGS_PATH = true ∨
          adapterExists t CC_SETTINGS_PATH = false ∨
          (∃ j, adapterRead t CC_SETTINGS_PATH = some (.json j) ∧
            (CLAUDIAN_ONLY_FIELDS.any (fun f => (objGet (jsObjOf j) f).isSome))
              = false) ∨
          (env.dropWrite CLAUDIAN_SETTINGS_PATH = true ∧
           env.dropWrite CC_SETTINGS_PATH = true ∧
           env.failWrite CLAUDIAN_SETTINGS_PATH = false ∧
           env.failWrite CC_SETTINGS_PATH = false ∧
           adapterRead t CLAUDIAN_SETTINGS_PATH = none ∧
           (∃ j flds, adapterRead t CC_SETTINGS_PATH = some (.json j) ∧
             buildClaudianFields (jsObjOf j) = .ok flds))) :
    ∃ tr, (if adapterExists t CC_SETTINGS_PATH &&
            !adapterExists t CLAUDIAN_SETTINGS_PATH
           then migrateFromOldSettingsJson env t else .ok () t []) = .ok () t tr ∧
      tr.any evIsClear = false ∧ tr.any evIsSaveBlob = false := by
  by_cases hcond : (adapterExists t CC_SETTINGS_PATH &&
      !adapterExists t CLAUDIAN_SETTINGS_PATH)
  · rw [if_pos hcond]
    have hcc : adapterExists t CC_SETTINGS_PATH = true :=
      (Bool.and_eq_true_iff.mp hcond).1
    have hclx : adapterExists t CLAUDIAN_SETTINGS_PATH = false := by
      have h2 := (Bool.and_eq_true_iff.mp hcond).2
      cases hv : adapterExists t CLAUDIAN_SETTINGS_PATH
      · rfl
      · rw [hv] at h2; cases h2
    rcases hq with hq | hq | hq | hq
    · rw [hq] at hclx; cases hclx
    · rw [hq] at hcc; cases hcc
    · rcases hq with ⟨j, hrj, hcf⟩
      unfold migrateFromOldSettingsJson
      cases hr' : adapterRead t CC_SETTINGS_PATH with
      | none => rw [hr'] at hrj; cases hrj
      | some fc =>
        rw [hr'] at hrj
        injection hrj with hfc
        subst hfc
        dsimp only
        rw [show (!(CLAUDIAN_ONLY_FIELDS.any fun f => (objGet (jsObjOf j) f).isSome))
            = true by simp [hcf], if_pos rfl]
        exact ⟨[], rfl, rfl, rfl⟩
    · rcases hq with ⟨hd1, hd2, hf1, hf2, hrnone, j, flds, hrj, hbf⟩
      unfold migrateFromOldSettingsJson
      cases hr' : adapterRead t CC_SETTINGS_PATH with
      | none => rw [hr'] at hrj; cases hrj
      | some fc =>
        rw [hr'] at hrj
        injection hrj with hfc
        subst hfc
        dsimp only
        by_cases hcf : (CLAUDIAN_ONLY_FIELDS.any fun f => (objGet (jsObjOf j) f).isSome)
        · rw [show (!(CLAUDIAN_ONLY_FIELDS.any fun f => (objGet (jsObjOf j) f).isSome))
              = false by simp [hcf], if_neg (by simp)]
          rw [hbf]
          dsimp only
          unfold claudianSave adapterWrite
          rw [hf1]
          simp only [Bool.false_eq_true, if_false]
          rw [hd1]
          simp only [if_true]
          unfold claudianLoad
          cases hr2 : adapterRead t CLAUDIAN_SETTINGS_PATH with
          | some c => rw [hr2] at hrnone; cases hrnone
          | none =>
            dsimp only
            rw [show ((objGet claudianGetDefaults "userName").isNone) = false
                from rfl, if_neg (by simp)]
            rw [hf2]
            simp only [Bool.false_eq_true, if_false]
            rw [hd2]
            simp only [if_true]
            exact ⟨_, rfl, rfl, rfl⟩
        · rw [show (!(CLAUDIAN_ONLY_FIELDS.any fun f => (objGet (jsObjOf j) f).isSome))
              = true by simp [hcf], if_pos rfl]
          exact ⟨[], rfl, rfl, rfl⟩
  · rw [if_neg hcond]
    exact ⟨[], rfl, rfl, rfl⟩

theorem hasClaudianFields_ccSettingsOf (old : JObj) :
    (CLAUDIAN_ONLY_FIELDS.any
      (fun f => (objGet (jsObjOf (ccSettingsOf old)) f).isSome)) = false := rfl

/-! ## Infrastructure: the cleaned blob re-triggers nothing -/

theorem cleaned_no_state (blob : JObj) :
    hasStateToMigrate (blob.filter
      (fun kv => !(consumedLegacyKeys.any (fun k => k == kv.1)))) = false := by
  unfold hasStateToMigrate
  rw [objGet_filter_false _ _ "lastEnvHash" (fun v => rfl),
      objGet_filter_false _ _ "lastClaudeModel" (fun v => rfl),
      objGet_filter_false _ _ "lastCustomModel" (fun v => rfl)]
  rfl

theorem cleaned_no_content (blob : JObj) :
    hasLegacyContentToMigrate (blob.filter
      (fun kv => !(consumedLegacyKeys.any (fun k => k == kv.1)))) = false := by
  unfold hasLegacyContentToMigrate blobArr
  rw [objGet_filter_false _ _ "slashCommands" (fun v => rfl),
      objGet_filter_false _ _ "conversations" (fun v => rfl)]
  rfl

/-! ## Infrastructure: content migration wrappers -/

theorem content_exists_mono (env : StoreEnv) (s : StoreSt) (blob : JObj)
    (p : String) (h : adapterExists s p = true) :
    adapterExists (migrateLegacyDataJsonContent env s blob).2.1 p = true := by
  unfold migrateLegacyDataJsonContent
  rcases h1 : migLoop env commandFilePath (blobArr blob "slashCommands") s false
    with ⟨he₁, s₁, tr₁⟩
  rcases h2 : migLoop env sessionFilePath (blobArr blob "conversations") s₁ he₁
    with ⟨he₂, s₂, tr₂⟩
  dsimp only
  rw [h2]
  have m1 := migLoop_exists_mono env commandFilePath (blobArr blob "slashCommands")
    s false p h
  rw [h1] at m1
  have m2 := migLoop_exists_mono env sessionFilePath (blobArr blob "conversations")
    s₁ he₁ p m1
  rw [h2] at m2
  exact m2

theorem content_wf (env : StoreEnv) (s : StoreSt) (blob : JObj) (hwf : StWF s) :
    StWF (migrateLegacyDataJsonContent env s blob).2.1 := by
  unfold migrateLegacyDataJsonContent
  rcases h1 : migLoop env commandFilePath (blobArr blob "slashCommands") s false
    with ⟨he₁, s₁, tr₁⟩
  rcases h2 : migLoop env sessionFilePath (blobArr blob "conversations") s₁ he₁
    with ⟨he₂, s₂, tr₂⟩
  dsimp only
  rw [h2]
  have m1 := migLoop_wf env commandFilePath (blobArr blob "slashCommands") s false hwf
  rw [h1] at m1
  have m2 := migLoop_wf env sessionFilePath (blobArr blob "conversations") s₁ he₁ m1
  rw [h2] at m2
  exact m2

theorem content_read_cc (env : StoreEnv) (s : StoreSt) (blob : JObj) :
    adapterRead (migrateLegacyDataJsonContent env s blob).2.1 CC_SETTINGS_PATH
      = adapterRead s CC_SETTINGS_PATH := by
  unfold migrateLegacyDataJsonContent
  rcases h1 : migLoop env commandFilePath (blobArr blob "slashCommands") s false
    with ⟨he₁, s₁, tr₁⟩
  rcases h2 : migLoop env sessionFilePath (blobArr blob "conversations") s₁ he₁
    with ⟨he₂, s₂, tr₂⟩
  dsimp only
  rw [h2]
  have m1 := migLoop_read_frame_ne env commandFilePath (blobArr blob "slashCommands")
    s false CC_SETTINGS_PATH (fun it _ => commandFilePath_ne_cc it)
  rw [h1] at m1
  have m2 := migLoop_read_frame_ne env sessionFilePath (blobArr blob "conversations")
    s₁ he₁ CC_SETTINGS_PATH (fun it _ => sessionFilePath_ne_cc it)
  rw [h2] at m2
  rw [m2, m1]

theorem content_read_claudian (env : StoreEnv) (s : StoreSt) (blob : JObj) :
    adapterRead (migrateLegacyDataJsonContent env s blob).2.1 CLAUDIAN_SETTINGS_PATH
      = adapterRead s CLAUDIAN_SETTINGS_PATH := by
  unfold migrateLegacyDataJsonContent
  rcases h1 : migLoop env commandFilePath (blobArr blob "slashCommands") s false
    with ⟨he₁, s₁, tr₁⟩
  rcases h2 : migLoop env sessionFilePath (blobArr blob "conversations") s₁ he₁
    with ⟨he₂, s₂, tr₂⟩
  dsimp only
  rw [h2]
  have m1 := migLoop_read_frame_ne env commandFilePath (blobArr blob "slashCommands")
    s false CLAUDIAN_SETTINGS_PATH (fun it _ => commandFilePath_ne_claudian it)
  rw [h1] at m1
  have m2 := migLoop_read_frame_ne env sessionFilePath (blobArr blob "conversations")
    s₁ he₁ CLAUDIAN_SETTINGS_PATH (fun it _ => sessionFilePath_ne_claudian it)
  rw [h2] at m2
  rw [m2, m1]

/-! ## Infrastructure: a failed content migration fails identically when
re-run on its own final state -/

theorem content_rerun (env : StoreEnv) (s : StoreSt) (blob : JObj)
    (hres : (migrateLegacyDataJsonContent env s blob).1 = true) :
    ∃ tr, migrateLegacyDataJsonContent env
        ((migrateLegacyDataJsonContent env s blob).2.1) blob
      = (true, (migrateLegacyDataJsonContent env s blob).2.1, tr) := by
  rcases h1 : migLoop env commandFilePath (blobArr blob "slashCommands") s false
    with ⟨he₁, s₁, tr₁⟩
  rcases h2 : migLoop env sessionFilePath (blobArr blob "conversations") s₁ he₁
    with ⟨he₂, sC, tr₂⟩
  have hC : (migrateLegacyDataJsonContent env s blob) = (he₂, sC, tr₁ ++ tr₂) := by
    unfold migrateLegacyDataJsonContent
    rw [h1]
    dsimp only
    rw [h2]
  rw [hC] at hres ⊢
  dsimp only at hres ⊢
  -- every command target is settled at `sC`
  have hpre1 : ∀ it ∈ blobArr blob "slashCommands",
      adapterExists sC (commandFilePath it) = true ∨
      env.failWrite (commandFilePath it) = true ∨
      env.dropWrite (commandFilePath it) = true := by
    intro it hit
    have hp := migLoop_post env commandFilePath (blobArr blob "slashCommands")
      s false it hit
    rw [h1] at hp
    rcases hp with hp | hp
    · left
      have := migLoop_exists_mono env sessionFilePath (blobArr blob "conversations")
        s₁ he₁ _ hp
      rw [h2] at this
      exact this
    · exact Or.inr hp
  have hpre2 : ∀ it ∈ blobArr blob "conversations",
      adapterExists sC (sessionFilePath it) = true ∨
      env.failWrite (sessionFilePath it) = true ∨
      env.dropWrite (sessionFilePath it) = true := by
    intro it hit
    have hp := migLoop_post env sessionFilePath (blobArr blob "conversations")
      s₁ he₁ it hit
    rw [h2] at hp
    exact hp
  rcases migLoop_steady env commandFilePath (blobArr blob "slashCommands") sC false
    hpre1 with ⟨he₁', trA, heqA, hmonoA, hwitA⟩
  rcases migLoop_steady env sessionFilePath (blobArr blob "conversations") sC he₁'
    hpre2 with ⟨he₂', trB, heqB, hmonoB, hwitB⟩
  have hfinal : he₂' = true := by
    have hw2 := migLoop_fail_witness env sessionFilePath
      (blobArr blob "conversations") s₁ he₁
    rw [h2] at hw2
    rcases hw2 hres with hw2 | ⟨it, hit, hfw, hnex⟩
    · -- the failure came from the command loop
      have hw1 := migLoop_fail_witness env commandFilePath
        (blobArr blob "slashCommands") s false
      rw [h1] at hw1
      rcases hw1 hw2 with hw1 | ⟨it, hit, hfw, hnex⟩
      · cases hw1
      · -- transport the missing target through the session loop
        have hbl := migLoop_blocked_frame env sessionFilePath
          (blobArr blob "conversations") s₁ he₁ _ hfw
        rw [h2] at hbl
        have hnexC : adapterExists sC (commandFilePath it) = false := by
          rw [hbl]; exact hnex
        exact hmonoB (hwitA it hit hfw hnexC)
    · exact hwitB it hit hfw hnex
  refine ⟨trA ++ trB, ?_⟩
  unfold migrateLegacyDataJsonContent
  rw [heqA]
  dsimp only
  rw [heqB]
  rw [hfinal]

/-! ## Infrastructure: the state migration is a no-op when re-run after
itself -/

theorem mfdj_rerun (env : StoreEnv) (sA s₁ : StoreSt) (blob : JObj) (m₀ : JObj)
    (hfcl : env.failWrite CLAUDIAN_SETTINGS_PATH = false)
    (hm₀ : Canonical m₀)
    (hwf₁ : StWF s₁)
    (hload : claudianLoad sA = .ok m₀ sA [.loadClaudian])
    (hread : adapterRead s₁ CLAUDIAN_SETTINGS_PATH =
      adapterRead (wrD env sA CLAUDIAN_SETTINGS_PATH
        (.obj (mergeStateFields blob m₀))) CLAUDIAN_SETTINGS_PATH) :
    ∃ c, migrateFromDataJson env s₁ blob =
      .ok () s₁ [.loadClaudian, .write CLAUDIAN_SETTINGS_PATH c] := by
  unfold wrD at hread
  by_cases hd : env.dropWrite CLAUDIAN_SETTINGS_PATH
  · -- the first save was dropped: the second run reads the same record and
    -- its save is dropped again
    rw [if_pos hd] at hread
    have hcl1 : claudianLoad s₁ = .ok m₀ s₁ [.loadClaudian] := by
      unfold claudianLoad at hload ⊢
      rw [hread]
      cases hr : adapterRead sA CLAUDIAN_SETTINGS_PATH with
      | none =>
        rw [hr] at hload
        injection hload with h1 h2 h3
        rw [← h1]
      | some fc =>
        cases fc with
        | corrupt => rw [hr] at hload; exact Out.noConfusion hload
        | json j =>
          rw [hr] at hload
          injection hload with h1 h2 h3
          rw [← h1]
    refine ⟨.obj (mergeStateFields blob m₀), ?_⟩
    unfold migrateFromDataJson
    rw [hcl1]
    dsimp only
    unfold claudianSave adapterWrite
    rw [hfcl]
    simp only [Bool.false_eq_true, if_false]
    rw [if_pos hd]
    rfl
  · -- the first save persisted: the second run reads the merged record back,
    -- and both the merge and the save are fixed points
    rw [if_neg hd] at hread
    rw [adapterRead_putFile_self] at hread
    have hcan : Canonical (mergeStateFields blob m₀) :=
      canonical_mergeStateFields blob m₀ hm₀
    have hcl1 : claudianLoad s₁ =
        .ok (mergeStateFields blob m₀) s₁ [.loadClaudian] := by
      unfold claudianLoad
      rw [hread]
      dsimp only
      rw [show jsObjOf (.obj (mergeStateFields blob m₀)) = mergeStateFields blob m₀
          from rfl]
      rw [canonical_fix _ hcan]
    refine ⟨.obj (mergeStateFields blob m₀), ?_⟩
    unfold migrateFromDataJson
    rw [hcl1]
    dsimp only
    unfold claudianSave adapterWrite
    rw [hfcl]
    simp only [Bool.false_eq_true, if_false]
    rw [if_neg hd]
    rw [mergeStateFields_idem blob m₀ hm₀.1]
    rw [putFile_eq_self s₁ CLAUDIAN_SETTINGS_PATH (.obj (mergeStateFields blob m₀))
      hread hwf₁]
    rfl

/-! ## Infrastructure: the split migration is harmless when re-run -/

/-- After a completed first `runMigrations`, the split-migration step of a
second run is guaranteed harmless for one of these reasons: the Claudian
settings file now exists (step skipped); `settings.json` does not exist
(step skipped); `settings.json` parses with no Claudian-only field left
(step loads and returns untouched); or both settings writes are silently
dropped by the host and the step re-runs to the same effect-free end. -/
def QSplit (env : StoreEnv) (t : StoreSt) : Prop :=
  adapterExists t CLAUDIAN_SETTINGS_PATH = true ∨
  adapterExists t CC_SETTINGS_PATH = false ∨
  (∃ j, adapterRead t CC_SETTINGS_PATH = some (.json j) ∧
    (CLAUDIAN_ONLY_FIELDS.any (fun f => (objGet (jsObjOf j) f).isSome)) = false) ∨
  (env.dropWrite CLAUDIAN_SETTINGS_PATH = true ∧
   env.dropWrite CC_SETTINGS_PATH = true ∧
   env.failWrite CLAUDIAN_SETTINGS_PATH = false ∧
   env.failWrite CC_SETTINGS_PATH = false ∧
   adapterRead t CLAUDIAN_SETTINGS_PATH = none ∧
   (∃ j flds, adapterRead t CC_SETTINGS_PATH = some (.json j) ∧
     buildClaudianFields (jsObjOf j) = .ok flds))

theorem QSplit_transport (env : StoreEnv) (t t' : StoreSt)
    (hmono : adapterExists t CLAUDIAN_SETTINGS_PATH = true →
      adapterExists t' CLAUDIAN_SETTINGS_PATH = true)
    (hcc : adapterRead t' CC_SETTINGS_PATH = adapterRead t CC_SETTINGS_PATH)
    (hcl : env.dropWrite CLAUDIAN_SETTINGS_PATH = true →
      adapterRead t' CLAUDIAN_SETTINGS_PATH = adapterRead t CLAUDIAN_SETTINGS_PATH)
    (hq : QSplit env t) : QSplit env t' := by
  unfold QSplit at hq ⊢
  rcases hq with hq | hq | hq | hq
  · exact Or.inl (hmono hq)
  · right; left
    rw [adapterExists_eq, hcc, ← adapterExists_eq]
    exact hq
  · right; right; left
    rcases hq with ⟨j, h1, h2⟩
    exact ⟨j, by rw [hcc]; exact h1, h2⟩
  · right; right; right
    rcases hq with ⟨d1, d2, f1, f2, hn, j, flds, hr, hb⟩
    exact ⟨d1, d2, f1, f2, by rw [hcl d1]; exact hn, j, flds,
      by rw [hcc]; exact hr, hb⟩

theorem stepA_facts (env : StoreEnv) (s : StoreSt) (uA : Unit) (sA : StoreSt)
    (trA : List StoreEv) (hwf : StWF s)
    (hstep1 : (if adapterExists s CC_SETTINGS_PATH &&
        !adapterExists s CLAUDIAN_SETTINGS_PATH
      then migrateFromOldSettingsJson env s else Out.ok () s []) = .ok uA sA trA) :
    sA.blob = s.blob ∧ StWF sA ∧ QSplit env sA := by
  by_cases hcond : (adapterExists s CC_SETTINGS_PATH &&
      !adapterExists s CLAUDIAN_SETTINGS_PATH)
  · rw [if_pos hcond] at hstep1
    rcases splitMig_ok_detail env s uA sA trA hstep1 with
      ⟨j, hr, hcf, hs', htr⟩ | ⟨j, flds, hr, hcf, hbf, hf1, hf2, hs', htr⟩
    · subst hs'
      exact ⟨rfl, hwf, Or.inr (Or.inr (Or.inl ⟨j, hr, hcf⟩))⟩
    · subst hs'
      refine ⟨by rw [wrD_blob, wrD_blob], wrD_wf _ _ _ _ (wrD_wf _ _ _ _ hwf), ?_⟩
      by_cases hdcl : env.dropWrite CLAUDIAN_SETTINGS_PATH
      · by_cases hdcc : env.dropWrite CC_SETTINGS_PATH
        · have hclE : adapterExists s CLAUDIAN_SETTINGS_PATH = false := by
            have h2 := (Bool.and_eq_true_iff.mp hcond).2
            cases hv : adapterExists s CLAUDIAN_SETTINGS_PATH
            · rfl
            · rw [hv] at h2; cases h2
          have hwr : wrD env (wrD env s CLAUDIAN_SETTINGS_PATH (.obj flds))
              CC_SETTINGS_PATH (ccSettingsOf (jsObjOf j)) = s := by
            unfold wrD
            rw [if_pos hdcl, if_pos hdcc]
          rw [hwr]
          exact Or.inr (Or.inr (Or.inr ⟨hdcl, hdcc, hf1, hf2,
            adapterRead_eq_none_of_not_exists s _ hclE, j, flds, hr, hbf⟩))
        · have hwr : wrD env (wrD env s CLAUDIAN_SETTINGS_PATH (.obj flds))
              CC_SETTINGS_PATH (ccSettingsOf (jsObjOf j))
              = putFile s CC_SETTINGS_PATH (ccSettingsOf (jsObjOf j)) := by
            unfold wrD
            rw [if_pos hdcl, if_neg hdcc]
          rw [hwr]
          exact Or.inr (Or.inr (Or.inl ⟨ccSettingsOf (jsObjOf j),
            adapterRead_putFile_self s CC_SETTINGS_PATH (ccSettingsOf (jsObjOf j)),
            hasClaudianFields_ccSettingsOf (jsObjOf j)⟩))
      · left
        apply adapterExists_wrD_mono
        unfold wrD
        rw [if_neg hdcl]
        rw [adapterExists_eq, adapterRead_putFile_self]
        rfl
  · rw [if_neg hcond] at hstep1
    injection hstep1 with h1 h2 h3
    subst h2
    refine ⟨rfl, hwf, ?_⟩
    by_cases hcc : adapterExists s CC_SETTINGS_PATH
    · left
      cases hv : adapterExists s CLAUDIAN_SETTINGS_PATH
      · exfalso
        apply hcond
        rw [hcc, hv]
        rfl
      · rfl
    · right; left
      cases hv : adapterExists s CC_SETTINGS_PATH
      · rfl
      · exact absurd hv hcc

/-! ## Infrastructure: the blob phase re-runs without effect -/

theorem blobPhase_rerun (env : StoreEnv) (sA : StoreSt) (uB : Unit) (sB : StoreSt)
    (blob : JObj) (trB : List StoreEv)
    (hAwf : StWF sA) (hAblob : sA.blob = some blob) (hq : QSplit env sA)
    (hbp : blobPhase env sA blob = .ok uB sB trB) :
    StWF sB ∧ QSplit env sB ∧
    ∃ b', sB.blob = some b' ∧
      ∃ trX, blobPhase env sB b' = .ok () sB trX ∧
        trX.any evIsClear = false ∧ trX.any evIsSaveBlob = false := by
  unfold blobPhase at hbp
  have hstep2 : ∃ s₂ tr₂,
      (if hasStateToMigrate blob then migrateFromDataJson env sA blob
       else Out.ok () sA []) = .ok () s₂ tr₂ ∧
      StWF s₂ ∧ s₂.blob = some blob ∧
      adapterRead s₂ CC_SETTINGS_PATH = adapterRead sA CC_SETTINGS_PATH ∧
      (env.dropWrite CLAUDIAN_SETTINGS_PATH = true →
        adapterRead s₂ CLAUDIAN_SETTINGS_PATH
          = adapterRead sA CLAUDIAN_SETTINGS_PATH) ∧
      (∀ p, adapterExists sA p = true → adapterExists s₂ p = true) ∧
      (hasStateToMigrate blob = false → s₂ = sA) ∧
      (hasStateToMigrate blob = true → ∃ m₀,
        claudianLoad sA = .ok m₀ sA [.loadClaudian] ∧ Canonical m₀ ∧
        env.failWrite CLAUDIAN_SETTINGS_PATH = false ∧
        s₂ = wrD env sA CLAUDIAN_SETTINGS_PATH
          (.obj (mergeStateFields blob m₀))) := by
    by_cases hS : hasStateToMigrate blob
    · cases hmf : migrateFromDataJson env sA blob with
      | err e s2 tr2 =>
        rw [if_pos hS, hmf] at hbp
        exact Out.noConfusion hbp
      | ok u2 s2 tr2 =>
        cases u2
        rcases mfdj_detail env sA blob () s2 tr2 hmf with
          ⟨m₀, hload, hfcl, hs2, htr2⟩
        refine ⟨s2, tr2, by rw [if_pos hS],
          ?_, ?_, ?_, ?_, ?_, ?_, ?_⟩
        · rw [hs2]; exact wrD_wf _ _ _ _ hAwf
        · rw [hs2, wrD_blob]; exact hAblob
        · rw [hs2]; exact adapterRead_wrD_ne env sA _ _ _ (by decide)
        · intro hd
          rw [hs2]
          unfold wrD
          rw [if_pos hd]
        · intro p hp
          rw [hs2]
          exact adapterExists_wrD_mono env sA _ p _ hp
        · intro hx
          rw [hx] at hS
          exact Bool.noConfusion hS
        · intro _
          exact ⟨m₀, hload, claudianLoad_canonical _ _ _ _ hload, hfcl, hs2⟩
    · refine ⟨sA, [], by rw [if_neg hS], hAwf, hAblob, rfl, fun _ => rfl,
        fun p hp => hp, fun _ => rfl, ?_⟩
      intro hx
      exact absurd hx hS
  rcases hstep2 with ⟨s₂, tr₂, heq₂, hwf₂, hblob₂, hcc₂, hcl₂, hmono₂, hSf, hSt⟩
  rw [heq₂] at hbp
  dsimp only at hbp
  have hcontent : ∃ he s₃ tr₃,
      (if hasLegacyContentToMigrate blob
       then migrateLegacyDataJsonContent env s₂ blob
       else (false, s₂, ([] : List StoreEv))) = (he, s₃, tr₃) ∧
      s₃.blob = some blob ∧ StWF s₃ ∧
      adapterRead s₃ CC_SETTINGS_PATH = adapterRead s₂ CC_SETTINGS_PATH ∧
      adapterRead s₃ CLAUDIAN_SETTINGS_PATH
        = adapterRead s₂ CLAUDIAN_SETTINGS_PATH ∧
      (∀ p, adapterExists s₂ p = true → adapterExists s₃ p = true) ∧
      (hasLegacyContentToMigrate blob = false → s₃ = s₂ ∧ he = false) ∧
      (he = true → ∃ trX, migrateLegacyDataJsonContent env s₃ blob
        = (true, s₃, trX)) := by
    by_cases hC : hasLegacyContentToMigrate blob
    · refine ⟨(migrateLegacyDataJsonContent env s₂ blob).1,
        (migrateLegacyDataJsonContent env s₂ blob).2.1,
        (migrateLegacyDataJsonContent env s₂ blob).2.2,
        by rw [if_pos hC], ?_, ?_, ?_, ?_, ?_, ?_, ?_⟩
      · rw [content_blob]; exact hblob₂
      · exact content_wf env s₂ blob hwf₂
      · exact content_read_cc env s₂ blob
      · exact content_read_claudian env s₂ blob
      · exact fun p hp => content_exists_mono env s₂ blob p hp
      · intro hx
        exact absurd hx (by simpa using hC)
      · intro hhe
        exact content_rerun env s₂ blob hhe
    · exact ⟨false, s₂, [], by rw [if_neg hC], hblob₂, hwf₂, rfl, rfl,
        fun p hp => hp, fun _ => ⟨rfl, rfl⟩, fun hhe => Bool.noConfusion hhe⟩
  rcases hcontent with ⟨he, s₃, tr₃, heq₃, hblob₃, hwf₃, hcc₃, hcl₃, hmono₃, hCf, hre⟩
  rw [heq₃] at hbp
  dsimp only at hbp
  have hq₃ : QSplit env s₃ :=
    QSplit_transport env sA s₃
      (fun hx => hmono₃ _ (hmono₂ _ hx))
      (by rw [hcc₃, hcc₂])
      (fun hd => by rw [hcl₃, hcl₂ hd])
      hq
  by_cases hgate : ((hasStateToMigrate blob || hasLegacyContentToMigrate blob) && !he)
  · rw [if_pos hgate] at hbp
    rw [clearLegacy_shape s₃ blob hblob₃] at hbp
    dsimp only at hbp
    injection hbp with h1 h2 h3
    refine ⟨?_, ?_, ?_⟩
    · rw [← h2]; exact hwf₃
    · rw [← h2]; exact hq₃
    · refine ⟨blob.filter (fun kv => !(consumedLegacyKeys.any (fun k => k == kv.1))),
        ?_, [], ?_, rfl, rfl⟩
      · rw [← h2]
      · rw [← h2]
        unfold blobPhase
        rw [cleaned_no_state blob, cleaned_no_content blob]
        rfl
  · rw [if_neg hgate] at hbp
    injection hbp with h1 h2 h3
    subst h2
    refine ⟨hwf₃, hq₃, blob, hblob₃, ?_⟩
    cases he with
    | false =>
      have hSx : hasStateToMigrate blob = false := by
        cases hx : hasStateToMigrate blob
        · rfl
        · exfalso
          apply hgate
          rw [hx]
          rfl
      have hCx : hasLegacyContentToMigrate blob = false := by
        cases hx : hasLegacyContentToMigrate blob
        · rfl
        · exfalso
          apply hgate
          rw [hx]
          simp
      refine ⟨[], ?_, rfl, rfl⟩
      unfold blobPhase
      rw [hSx, hCx]
      rfl
    | true =>
      have hCx : hasLegacyContentToMigrate blob = true := by
        cases hx : hasLegacyContentToMigrate blob
        · rcases hCf hx with ⟨hs3, hef⟩
          exact Bool.noConfusion hef
        · rfl
      rcases hre rfl with ⟨trX, hcr⟩
      have hben := content_benign env s₃ blob
      rw [hcr] at hben
      dsimp only at hben
      by_cases hS : hasStateToMigrate blob
      · rcases hSt hS with ⟨m₀, hload, hcan, hfcl, hs2eq⟩
        have hread' : adapterRead s₃ CLAUDIAN_SETTINGS_PATH =
            adapterRead (wrD env sA CLAUDIAN_SETTINGS_PATH
              (.obj (mergeStateFields blob m₀))) CLAUDIAN_SETTINGS_PATH := by
          rw [hcl₃, hs2eq]
        rcases mfdj_rerun env sA s₃ blob m₀ hfcl hcan hwf₃ hload hread'
          with ⟨c, hmf'⟩
        refine ⟨[.loadClaudian, .write CLAUDIAN_SETTINGS_PATH c] ++ trX, ?_, ?_, ?_⟩
        · unfold blobPhase
          rw [if_pos hS, hmf']
          dsimp only
          rw [if_pos hCx, hcr]
          dsimp only
          rw [if_neg (by simp)]
        · rw [List.any_append, hben.1]
          rfl
        · rw [List.any_append, hben.2]
          rfl
      · refine ⟨trX, ?_, hben.1, hben.2⟩
        unfold blobPhase
        rw [if_neg hS]
        dsimp only
        rw [if_pos hCx, hcr]
        dsimp only
        rw [if_neg (by simp)]
        rfl

/-! ## Infrastructure: a second `runMigrations` is effect-free -/

theorem runMigrations_rerun (env : StoreEnv) (s s₁ : StoreSt) (tr₁ : List StoreEv)
    (hwf : StWF s) (h : runMigrations env s = .ok () s₁ tr₁) :
    ∃ tr₂, runMigrations env s₁ = .ok () s₁ tr₂ ∧
      tr₂.any evIsClear = false ∧ tr₂.any evIsSaveBlob = false := by
  rw [runMigrations_factor] at h
  cases hstep1 : (if adapterExists s CC_SETTINGS_PATH &&
      !adapterExists s CLAUDIAN_SETTINGS_PATH
    then migrateFromOldSettingsJson env s else Out.ok () s []) with
  | err e sx trx => rw [hstep1] at h; exact Out.noConfusion h
  | ok uA sA trA =>
    rw [hstep1] at h
    dsimp only at h
    rcases stepA_facts env s uA sA trA hwf hstep1 with ⟨hAblob, hAwf, hAq⟩
    cases hsb : s.blob with
    | none =>
      rw [hsb] at h
      dsimp only at h
      injection h with h1 h2 h3
      subst h2
      rw [runMigrations_factor]
      rcases splitMig_rerun env sA hAq with ⟨trA', heqA', hcA', hsA'⟩
      rw [heqA']
      dsimp only
      rw [show sA.blob = none from hAblob.trans hsb]
      exact ⟨trA', rfl, hcA', hsA'⟩
    | some blob =>
      rw [hsb] at h
      dsimp only at h
      cases hbp : blobPhase env sA blob with
      | err e sx trx =>
        rw [hbp] at h
        unfold prependTr at h
        exact Out.noConfusion h
      | ok uB sB trB =>
        rw [hbp] at h
        unfold prependTr at h
        injection h with h1 h2 h3
        subst h2
        rcases blobPhase_rerun env sA uB sB blob trB hAwf (hAblob.trans hsb)
          hAq hbp with ⟨hwfB, hqB, b', hblob', trX, hbp', hcX, hsX⟩
        rw [runMigrations_factor]
        rcases splitMig_rerun env sB hqB with ⟨trA', heqA', hcA', hsA'⟩
        rw [heqA']
        dsimp only
        rw [hblob']
        dsimp only
        rw [hbp']
        unfold prependTr
        refine ⟨trA' ++ trX, rfl, ?_, ?_⟩
        · rw [List.any_append, hcA', hcX]
          rfl
        · rw [List.any_append, hsA', hsX]
          rfl

theorem ccLoad_detail (s : StoreSt) (cc : Json) (s' : StoreSt) (tr : List StoreEv)
    (h : ccLoad s = .ok cc s' tr) : s' = s ∧ tr = [] := by
  unfold ccLoad at h
  cases hr : adapterRead s CC_SETTINGS_PATH with
  | none =>
    rw [hr] at h
    injection h with h1 h2 h3
    exact ⟨h2.symm, h3.symm⟩
  | some fc =>
    cases fc with
    | corrupt => rw [hr] at h; exact Out.noConfusion h
    | json j =>
      rw [hr] at h
      injection h with h1 h2 h3
      exact ⟨h2.symm, h3.symm⟩

/-! ## Claim C3 -/

/-- C3 (amended): `initialize()` is idempotent up to redundant writes.  On a
well-formed store (each path held at most once), a completed first
`initialize()` makes a second call return byte-identical AgentSettings and
PluginSettings, leave every file and the legacy blob exactly as the first
call left them, and never invoke `clearLegacyDataJson` or save the blob; the
second call is, however, not write-free (see the counterexample). -/
theorem claim_C3_initialize_idempotence (env : StoreEnv) (s : StoreSt)
    (o : Json × JObj) (s₁ : StoreSt) (tr₁ : List StoreEv)
    (hwf : StWF s) (h : initStorage env s = .ok o s₁ tr₁) :
    ∃ tr₂, initStorage env s₁ = .ok o s₁ tr₂ ∧
      tr₂.any evIsClear = false ∧ tr₂.any evIsSaveBlob = false := by
  unfold initStorage at h
  cases hrm : runMigrations env s with
  | err e sx trx => rw [hrm] at h; exact Out.noConfusion h
  | ok uM sM trM =>
    cases uM
    rw [hrm] at h
    dsimp only at h
    cases hcc : ccLoad sM with
    | err e sx trx => rw [hcc] at h; exact Out.noConfusion h
    | ok cc sC trC =>
      rw [hcc] at h
      dsimp only at h
      rcases ccLoad_detail sM cc sC trC hcc with ⟨hsC, htrC⟩
      rw [hsC, htrC] at hcc
      rw [hsC] at h
      cases hcl : claudianLoad sM with
      | err e sx trx => rw [hcl] at h; exact Out.noConfusion h
      | ok cl sL trL =>
        rw [hcl] at h
        dsimp only at h
        have hclspec : sL = sM ∧ trL = [.loadClaudian] := by
          rcases claudianLoad_spec sM with ⟨v, hspec⟩ | hspec
          · rw [hspec] at hcl
            injection hcl with h1 h2 h3
            exact ⟨h2.symm, h3.symm⟩
          · rw [hspec] at hcl
            exact Out.noConfusion hcl
        rcases hclspec with ⟨hsL, htrL⟩
        rw [hsL, htrL] at hcl
        rw [hsL] at h
        injection h with h1 h2 h3
        rcases runMigrations_rerun env s sM trM hwf hrm with ⟨tr₂', hrm2, hc2, hs2⟩
        rw [← h2, ← h1]
        unfold initStorage
        rw [hrm2]
        dsimp only
        rw [hcc]
        dsimp only
        rw [hcl]
        dsimp only
        refine ⟨tr₂' ++ [] ++ [.loadClaudian], rfl, ?_, ?_⟩
        · rw [List.any_append, List.any_append, hc2]
          rfl
        · rw [List.any_append, List.any_append, hs2]
          rfl

/-- C3 witness: on an empty well-formed vault the first `initialize()`
completes, and the theorem — applied at that run — yields a second call with
identical outputs, identical state and no blob clearing. -/
theorem claim_C3_witness :
    ∃ tr₂, initStorage ⟨fun _ => false, fun _ => false⟩ ⟨[], none⟩
        = .ok (DEFAULT_AGENT_SETTINGS, claudianGetDefaults) ⟨[], none⟩ tr₂ ∧
      tr₂.any evIsClear = false ∧ tr₂.any evIsSaveBlob = false :=
  claim_C3_initialize_idempotence ⟨fun _ => false, fun _ => false⟩ ⟨[], none⟩
    (DEFAULT_AGENT_SETTINGS, claudianGetDefaults) ⟨[], none⟩ [.loadClaudian]
    List.nodup_nil rfl

/-- C3 counterexample: the claim as stated — the second call "performs no
further destructive writes (no migration rewrites …)" — is false.  With a
legacy blob carrying `lastEnvHash` and one inline slash command whose
target write throws, the first `initialize()` completes with the blob
retained; the second call re-runs the state migration and rewrites
`claudian-settings.json` (byte-identically), a migration write the claim
rules out. -/
theorem claim_C3_counterexample :
    ∃ o s₁ tr₁, initStorage
        ⟨fun p => p == ".claude/commands/a.md", fun _ => false⟩
        ⟨[], some [("lastEnvHash", .str "h"),
                   ("slashCommands", .arr [.obj [("name", .str "a")]])]⟩
      = .ok o s₁ tr₁ ∧
    (∃ o₂ s₂ tr₂, initStorage
        ⟨fun p => p == ".claude/commands/a.md", fun _ => false⟩ s₁
      = .ok o₂ s₂ tr₂ ∧
      tr₂.any (evIsWriteTo CLAUDIAN_SETTINGS_PATH) = true) :=
  ⟨_, _, _, rfl, _, _, _, rfl, rfl⟩
